import Mathlib

/-!
# max-bytes-cache: a FIFO cache bounded by an estimated byte size

Shallow embedding of `size.go` (the deep size estimator `calcSize` / `sizeOf`)
and `cache.go` (`MaxBytesCache` with `Get`, `Set` and the eviction loop).

Modelling conventions

* Go values are trees (`Value`); everything reached through an address
  (pointer targets, slice backing arrays, map entries) lives in a `Heap`
  and is looked up by address, so shared and cyclic structures exist.
* `reflect` is the Go standard library, not code of this repository. Its
  static type widths are those of the gc toolchain on a 64-bit target.
* `uint64` arithmetic wraps: every sum is reduced modulo `2 ^ 64`.
* `sizeOf` recurses through the heap, so it takes a depth budget; `none`
  means the budget ran out. The eviction loop of `Set` takes its own
  iteration budget. `some (.error e)` is a returned error (for `calcSize`)
  or a panic carrying `e` (for `mustCalcSize` and the cache operations).
* The mutex is not modelled: each operation is one atomic step.
* Go leaves map iteration order unspecified, and `MapKeys` may list the keys of
  one map differently in every call. For one sizing call the heap lists the
  entries of each map in the order of that call; the cache operations take the
  order of each of their sizing calls as an argument (`Orders`), and the
  properties hold for every choice of these orders.
* A map read goes through Go's `==` on keys (`keyEq`): a key that is not equal
  to itself (a floating-point NaN) is listed by `MapKeys` and not found by
  `MapIndex`. Named types are not told apart from their underlying types, so
  the keys of one map are taken to differ by more than the name of a type.
-/

namespace GoCache

/-! ## Go types and their static widths -/

/-- Go types, as far as the estimator distinguishes them. Channel, function, map and pointer
types are not told apart by what they refer to (so recursive types are covered); a
slice type keeps the static width of its element type, which `sizeOf` reads. -/
inductive GoType where
  | bool | int | int8 | int16 | int32 | int64
  | uint | uint8 | uint16 | uint32 | uint64 | uintptr
  | float32 | float64 | complex64 | complex128
  | array (len : Nat) (elem : GoType)
  | chan
  | func
  | interface
  | map
  | ptr
  | slice (elemSize : Nat)
  | string
  | struct (fields : List GoType)
  | unsafePointer

/-- The kinds of package reflect. -/
inductive Kind where
  | Invalid | Bool | Int | Int8 | Int16 | Int32 | Int64
  | Uint | Uint8 | Uint16 | Uint32 | Uint64 | Uintptr
  | Float32 | Float64 | Complex64 | Complex128
  | Array | Chan | Func | Interface | Map | Ptr | Slice | String | Struct
  | UnsafePointer
  deriving DecidableEq, Repr

/-- The name reflect prints for a kind (the method `String` of `Kind`). -/
def kindString : Kind → String
  | .Invalid => "invalid" | .Bool => "bool" | .Int => "int" | .Int8 => "int8"
  | .Int16 => "int16" | .Int32 => "int32" | .Int64 => "int64"
  | .Uint => "uint" | .Uint8 => "uint8" | .Uint16 => "uint16"
  | .Uint32 => "uint32" | .Uint64 => "uint64" | .Uintptr => "uintptr"
  | .Float32 => "float32" | .Float64 => "float64"
  | .Complex64 => "complex64" | .Complex128 => "complex128"
  | .Array => "array" | .Chan => "chan" | .Func => "func"
  | .Interface => "interface" | .Map => "map" | .Ptr => "ptr"
  | .Slice => "slice" | .String => "string" | .Struct => "struct"
  | .UnsafePointer => "unsafe.Pointer"

/-- The kind of a type (`Type.Kind`). -/
def GoType.kind : GoType → Kind
  | .bool => .Bool | .int => .Int | .int8 => .Int8 | .int16 => .Int16
  | .int32 => .Int32 | .int64 => .Int64 | .uint => .Uint | .uint8 => .Uint8
  | .uint16 => .Uint16 | .uint32 => .Uint32 | .uint64 => .Uint64
  | .uintptr => .Uintptr | .float32 => .Float32 | .float64 => .Float64
  | .complex64 => .Complex64 | .complex128 => .Complex128
  | .array _ _ => .Array | .chan => .Chan | .func => .Func
  | .interface => .Interface | .map => .Map | .ptr => .Ptr
  | .slice _ => .Slice | .string => .String | .struct _ => .Struct
  | .unsafePointer => .UnsafePointer

/-- Round `off` up to the next multiple of `al`. -/
def roundUp (off al : Nat) : Nat := (off + al - 1) / al * al

mutual
/-- Static width and alignment of a type on a 64-bit target. -/
def GoType.layout : GoType → Nat × Nat
  | .bool | .int8 | .uint8 => (1, 1)
  | .int16 | .uint16 => (2, 2)
  | .int32 | .uint32 | .float32 => (4, 4)
  | .int | .int64 | .uint | .uint64 | .uintptr | .float64 => (8, 8)
  | .complex64 => (8, 4)
  | .complex128 => (16, 8)
  | .chan | .func | .map | .ptr | .unsafePointer => (8, 8)
  | .interface | .string => (16, 8)
  | .slice _ => (24, 8)
  | .array n e => (n * (GoType.layout e).1, (GoType.layout e).2)
  | .struct fs =>
    let r := GoType.fieldsLayout fs 0 1 false
    let off := if r.2.2 && decide (0 < r.1) then r.1 + 1 else r.1
    (roundUp off r.2.1, r.2.1)
/-- Lay the fields out one after the other: end offset, largest alignment,
and whether the last field has width zero (it then gets one byte of padding). -/
def GoType.fieldsLayout : List GoType → Nat → Nat → Bool → Nat × Nat × Bool
  | [], off, al, z => (off, al, z)
  | f :: fs, off, al, _ =>
    GoType.fieldsLayout fs (roundUp off (GoType.layout f).2 + (GoType.layout f).1)
      (max al (GoType.layout f).2) ((GoType.layout f).1 == 0)
end

/-- The static width of a type (`Type.Size`). -/
def GoType.size (t : GoType) : Nat := t.layout.1

/-! ## Go values, the heap, and the part of reflect the estimator uses -/

/-- A Go string header: the address of the backing bytes and the content. -/
structure GoString where
  data : Nat
  val : String
  deriving DecidableEq, Repr

/-- The length in bytes (`len(s)`). -/
def GoString.len (s : GoString) : Nat := s.val.utf8ByteSize

/-- A `reflect.Value`. Reference kinds hold an address; address 0 is nil. -/
inductive Value where
  /-- the zero `reflect.Value`, of kind Invalid -/
  | invalid
  /-- bool, integer, float, complex, uintptr, chan and func values -/
  | scalar (t : GoType) (bits : Nat)
  | unsafePointer (addr : Nat)
  | array (elem : GoType) (elems : List Value)
  /-- a slice header; `elemSize` is the static width of the element type -/
  | slice (elemSize : Nat) (ptr len cap : Nat)
  | struct (fields : List Value)
  | string (s : GoString)
  | ptr (addr : Nat)
  | map (addr : Nat)
  /-- an interface value; `elem` is the dynamic value, `invalid` when nil -/
  | iface (elem : Value)

/-- Memory reached through addresses. -/
structure Heap where
  /-- the variable a pointer with this address points at -/
  target : Nat → Value
  /-- the cells of a backing array starting at this address -/
  backing : Nat → List Value
  /-- the (key, value) entries of the map at this address, in the order `MapKeys` lists
  the keys in the sizing call at hand -/
  entries : Nat → List (Value × Value)

mutual
/-- The static type of a value (`Value.Type`). -/
def Value.type : Value → GoType
  | .invalid => .struct []
  | .scalar t _ => t
  | .unsafePointer _ => .unsafePointer
  | .array e es => .array es.length e
  | .slice e _ _ _ => .slice e
  | .struct fs => .struct (Value.types fs)
  | .string _ => .string
  | .ptr _ => .ptr
  | .map _ => .map
  | .iface _ => .interface
/-- The static types of a list of fields. -/
def Value.types : List Value → List GoType
  | [] => []
  | v :: vs => Value.type v :: Value.types vs
end

/-- The kind of a value (`Value.Kind`). -/
def Value.kind : Value → Kind
  | .invalid => .Invalid
  | v => v.type.kind

mutual
/-- The zero value of a type (`var t T`). -/
def zero : GoType → Value
  | .bool => .scalar .bool 0
  | .int => .scalar .int 0
  | .int8 => .scalar .int8 0
  | .int16 => .scalar .int16 0
  | .int32 => .scalar .int32 0
  | .int64 => .scalar .int64 0
  | .uint => .scalar .uint 0
  | .uint8 => .scalar .uint8 0
  | .uint16 => .scalar .uint16 0
  | .uint32 => .scalar .uint32 0
  | .uint64 => .scalar .uint64 0
  | .uintptr => .scalar .uintptr 0
  | .float32 => .scalar .float32 0
  | .float64 => .scalar .float64 0
  | .complex64 => .scalar .complex64 0
  | .complex128 => .scalar .complex128 0
  | .array n e => .array e (List.replicate n (zero e))
  | .chan => .scalar .chan 0
  | .func => .scalar .func 0
  | .interface => .iface .invalid
  | .map => .map 0
  | .ptr => .ptr 0
  | .slice e => .slice e 0 0 0
  | .string => .string ⟨0, ""⟩
  | .struct fs => .struct (zeros fs)
  | .unsafePointer => .unsafePointer 0
/-- The zero values of a list of field types. -/
def zeros : List GoType → List Value
  | [] => []
  | t :: ts => zero t :: zeros ts
end

/-- What is passed for the `interface{}` parameter of `calcSize`. -/
inductive Arg where
  /-- a value passed directly -/
  | val (v : Value)
  /-- the address of a variable that holds `v` -/
  | addr (v : Value)

/-- The function `reflect.Indirect`: the pointee of a pointer (the zero Value for
a nil pointer), any other value itself. -/
def Indirect (h : Heap) : Value → Value
  | .ptr addr => if addr = 0 then .invalid else h.target addr
  | v => v

/-- The composition `reflect.Indirect(reflect.ValueOf(a))`. Converting an interface
value to `interface{}` keeps only its dynamic value. -/
def indirectValueOf (h : Heap) : Arg → Value
  | .addr v => v
  | .val (.iface e) => Indirect h e
  | .val v => Indirect h v

/-! ## size.go -/

/-- Reduce to the range of `uint64`. -/
def u64 (n : Nat) : Nat := n % 2 ^ 64

/-- Wrapping subtraction of `uintptr` / `uint64` values. -/
def subWrap (a b : Nat) : Nat := (a + 2 ^ 64 - b % 2 ^ 64) % 2 ^ 64

/-- Number of binary digits of `n`, by repeated halving (at most `fuel` digits). -/
def bitLenAux : Nat → Nat → Nat
  | 0, _ => 0
  | fuel + 1, n => if n = 0 then 0 else bitLenAux fuel (n / 2) + 1

/-- Number of binary digits of `n`. -/
def bitLen (n : Nat) : Nat := bitLenAux n n

/-- Round a natural number to 53 significant binary digits, ties to even: the
rounding of IEEE 754 binary64, on an integer significand. -/
def round53 (p : Nat) : Nat :=
  if bitLen p ≤ 53 then p
  else
    let sh := bitLen p - 53
    let q := p / 2 ^ sh
    let r := p % 2 ^ sh
    let half := 2 ^ (sh - 1)
    (if half < r ∨ (r = half ∧ q % 2 = 1) then q + 1 else q) * 2 ^ sh

/-- The float64 nearest to the constant 10.79 is `mant1079 / 2 ^ 49`
(hexadecimal 0x1.5947ae147ae14p+3). -/
def mant1079 : Nat := 0x15947ae147ae14

/-- The bucket overhead `uint64(float64(n) * 10.79)`: `n` converted to float64,
multiplied in float64 by the constant, truncated toward zero. -/
def bucketOverhead (n : Nat) : Nat :=
  u64 (round53 (round53 n * mant1079) / 2 ^ 49)

/-- The visited set `cache map[uintptr]bool`: the addresses mapped to true. -/
abbrev Visited := List Nat

/-- Result of a sizing walk: `none` when the depth budget ran out, an error, or
the size together with the visited set as the walk left it. -/
abbrev Sized := Option (Except String (Nat × Visited))

/-- The error `fmt.Errorf("unknown type: %s", k.String())`. -/
def unknownType (k : Kind) : String := "unknown type: " ++ kindString k

/-- The element loops of `sizeOf` (array, slice and struct cases): size each
element with `f`, threading the visited set, stop at the first error. -/
def sumSizes (f : Value → Visited → Sized) : List Value → Nat → Visited → Sized
  | [], sum, cache => some (.ok (sum, cache))
  | v :: vs, sum, cache =>
    match f v cache with
    | none => none
    | some (.error err) => some (.error err)
    | some (.ok (s, cache1)) => sumSizes f vs (u64 (sum + s)) cache1

/-- The entry loop of the map case of `sizeOf`, over the keys `MapKeys` returned: the value
read back with `index` (the call `v.MapIndex(keys[i])`) is sized first, then the key. -/
def sumEntries (f : Value → Visited → Sized) (index : Value → Value) :
    List Value → Nat → Visited → Sized
  | [], sum, cache => some (.ok (sum, cache))
  | key :: keys, sum, cache =>
    match f (index key) cache with
    | none => none
    | some (.error err1) => some (.error err1)
    | some (.ok (s1, cache1)) =>
      match f key cache1 with
      | none => none
      | some (.error err2) => some (.error err2)
      | some (.ok (s2, cache2)) => sumEntries f index keys (u64 (sum + u64 (s1 + s2))) cache2

/-- The IEEE 754 test for NaN on a bit pattern with `expBits` exponent bits above `manBits`
mantissa bits: the exponent is all ones and the mantissa is not zero. -/
def isNaN (expBits manBits bits : Nat) : Bool :=
  (bits / 2 ^ manBits) % 2 ^ expBits == 2 ^ expBits - 1 && bits % 2 ^ manBits != 0

/-- Go's `==` on floating-point bit patterns: a NaN equals nothing, the two zeros are equal. -/
def floatEq (expBits manBits a b : Nat) : Bool :=
  !isNaN expBits manBits a && !isNaN expBits manBits b &&
    (a == b || (a % 2 ^ (expBits + manBits) == 0 && b % 2 ^ (expBits + manBits) == 0))

/-- Go's `==` on two values of one fixed-width kind, given by their bits. A complex number
holds its real part in the low half. Function values are not comparable. -/
def scalarEq (k : Kind) (a b : Nat) : Bool :=
  match k with
  | .Float32 => floatEq 8 23 a b
  | .Float64 => floatEq 11 52 a b
  | .Complex64 => floatEq 8 23 (a % 2 ^ 32) (b % 2 ^ 32) && floatEq 8 23 (a / 2 ^ 32) (b / 2 ^ 32)
  | .Complex128 =>
    floatEq 11 52 (a % 2 ^ 64) (b % 2 ^ 64) && floatEq 11 52 (a / 2 ^ 64) (b / 2 ^ 64)
  | .Func => false
  | _ => a == b

mutual
/-- Go's `==` on map keys: strings compare by content, pointers by address, interface values
by their dynamic values, structs and arrays field by field; slices, maps and functions
are not comparable. -/
def keyEq : Value → Value → Bool
  | .invalid, .invalid => true
  | .scalar t a, .scalar u b => t.kind == u.kind && scalarEq t.kind a b
  | .unsafePointer a, .unsafePointer b => a == b
  | .array _ es, .array _ gs => keyEqList es gs
  | .struct fs, .struct gs => keyEqList fs gs
  | .string s, .string t => s.val == t.val
  | .ptr a, .ptr b => a == b
  | .iface a, .iface b => keyEq a b
  | _, _ => false
/-- The fields or elements are equal one by one. -/
def keyEqList : List Value → List Value → Bool
  | [], [] => true
  | v :: vs, w :: ws => keyEq v w && keyEqList vs ws
  | _, _ => false
end

/-- The entries of the map at `addr`: none for a nil map. -/
def mapEntries (h : Heap) (addr : Nat) : List (Value × Value) :=
  if addr = 0 then [] else h.entries addr

/-- The method `MapKeys` of reflect, for the map at `addr`. -/
def Heap.MapKeys (h : Heap) (addr : Nat) : List Value :=
  (mapEntries h addr).map Prod.fst

/-- The method `MapIndex` of reflect, for the map at `addr`: the value of the entry whose key
equals `key`, the zero Value when no key does. -/
def Heap.MapIndex (h : Heap) (addr : Nat) (key : Value) : Value :=
  match (mapEntries h addr).find? (fun e => keyEq e.1 key) with
  | some e => e.2
  | none => .invalid

/-- The function `sizeOf` of size.go. The first argument bounds the depth of the walk. -/
def sizeOf (h : Heap) : Nat → Value → Visited → Sized
  | 0, _, _ => none
  | fuel + 1, v, cache =>
    match v with
    | .array elem elems =>
      match sumSizes (sizeOf h fuel) elems 0 cache with
      | none => none
      | some (.error err) => some (.error err)
      | some (.ok (sum, cache1)) =>
        some (.ok (u64 (sum + u64 (u64 (elems.length - elems.length) * u64 elem.size)), cache1))
    | .slice elemSize ptr len cap =>
      if cache.contains ptr then some (.ok (0, cache))
      else
        match sumSizes (sizeOf h fuel) ((h.backing ptr).take len) 0 (ptr :: cache) with
        | none => none
        | some (.error err) => some (.error err)
        | some (.ok (sum, cache1)) =>
          some (.ok (u64 (u64 (sum + u64 (u64 (cap - len) * u64 elemSize))
            + u64 (GoType.slice elemSize).size), cache1))
    | .struct fields =>
      match sumSizes (sizeOf h fuel) fields 0 cache with
      | none => none
      | some (.error err) => some (.error err)
      | some (.ok (sum, cache1)) =>
        let padding := fields.foldl (fun p f => subWrap p (u64 f.type.size))
          (u64 (Value.struct fields).type.size)
        some (.ok (u64 (sum + padding), cache1))
    | .string s =>
      if cache.contains s.data then some (.ok (u64 GoType.string.size, cache))
      else some (.ok (u64 (u64 s.len + u64 GoType.string.size), s.data :: cache))
    | .ptr addr =>
      if cache.contains addr then some (.ok (u64 GoType.ptr.size, cache))
      else if addr = 0 then
        -- the width of `reflect.New(v.Type())`, a pointer to the pointer type
        some (.ok (u64 GoType.ptr.size, addr :: cache))
      else
        match sizeOf h fuel (Indirect h (.ptr addr)) (addr :: cache) with
        | none => none
        | some (.error err) => some (.error err)
        | some (.ok (s, cache1)) => some (.ok (u64 (s + u64 GoType.ptr.size), cache1))
    | .scalar t _ =>
      match t.kind with
      | .Bool
      | .Uint8 | .Uint16 | .Uint32 | .Uint64
      | .Int8 | .Int16 | .Int32 | .Int64
      | .Int | .Uint
      | .Chan
      | .Uintptr
      | .Float32 | .Float64 | .Complex64 | .Complex128
      | .Func => some (.ok (u64 t.size, cache))
      | k => some (.error (unknownType k))
    | .map addr =>
      if cache.contains addr then some (.ok (0, cache))
      else
        match sumEntries (sizeOf h fuel) (h.MapIndex addr) (h.MapKeys addr) 0 (addr :: cache) with
        | none => none
        | some (.error err) => some (.error err)
        | some (.ok (sum, cache1)) =>
          some (.ok (u64 (u64 (sum + u64 GoType.map.size)
            + bucketOverhead (h.MapKeys addr).length), cache1))
    | .iface elem =>
      match sizeOf h fuel elem cache with
      | none => none
      | some (.error err) => some (.error err)
      | some (.ok (s, cache1)) => some (.ok (u64 (s + u64 GoType.interface.size), cache1))
    | .invalid => some (.error (unknownType (Value.kind .invalid)))
    | .unsafePointer addr => some (.error (unknownType (Value.kind (.unsafePointer addr))))

/-- The function `calcSize` of size.go: a fresh visited set, then `sizeOf` on
`reflect.Indirect(reflect.ValueOf(v))`. An error result is the returned `err`. -/
def calcSize (fuel : Nat) (h : Heap) (v : Arg) : Option (Except String Nat) :=
  match sizeOf h fuel (indirectValueOf h v) [] with
  | none => none
  | some (.error err) => some (.error err)
  | some (.ok (s, _)) => some (.ok s)

/-- The function `mustCalcSize` of size.go. An error result is `panic(err)`. -/
def mustCalcSize (fuel : Nat) (h : Heap) (v : Arg) : Option (Except String Nat) :=
  match calcSize fuel h v with
  | none => none
  | some (.error err) => some (.error err)
  | some (.ok s) => some (.ok s)

/-! ## cache.go -/

/-- The struct `MaxBytesCache[T]`. `T` is the type parameter; `data` holds the entries of
the Go map, listed in the order their keys were stored (the order in which a sizing
call walks them is a matter of that call, see `Heap.inOrder`), and `dataAddr` is the
address of that map (set by `make`, never nil). The mutex is left out. -/
structure MaxBytesCache where
  T : GoType
  dataAddr : Nat
  data : List (GoString × Value)
  order : List GoString
  maxBytes : Nat

/-- The map read `m[key]` with its `ok` flag: keys compare by content. -/
def mapIndex : List (GoString × Value) → GoString → Option Value
  | [], _ => none
  | (k, v) :: rest, key => if k.val = key.val then some v else mapIndex rest key

/-- The map write `m[key] = value`: an entry with an equal key is overwritten in
place (the stored key takes the new key's backing storage), a new key is added. -/
def mapAssign : List (GoString × Value) → GoString → Value → List (GoString × Value)
  | [], key, value => [(key, value)]
  | (k, v) :: rest, key, value =>
    if k.val = key.val then (key, value) :: rest else (k, v) :: mapAssign rest key value

/-- The builtin `delete(m, key)`. -/
def mapDelete : List (GoString × Value) → GoString → List (GoString × Value)
  | [], _ => []
  | (k, v) :: rest, key =>
    if k.val = key.val then mapDelete rest key else (k, v) :: mapDelete rest key

/-- The heap while the cache holds `c.data`: the map at `c.dataAddr` has the cache
entries. A sizing call sees it through `Heap.inOrder`. -/
def MaxBytesCache.heap (c : MaxBytesCache) (h : Heap) : Heap :=
  { h with entries := fun a =>
      if a = c.dataAddr then c.data.map (fun e => (Value.string e.1, e.2)) else h.entries a }

/-- One way of listing the entries of a map: each number says which of the entries not yet
listed comes next. A number that is out of range is skipped, and the entries that are
left over keep their order. -/
def reorder {α : Type} : List Nat → List α → List α
  | [], l => l
  | i :: is, l =>
    match l.drop i with
    | [] => reorder is l
    | x :: _ => x :: reorder is (l.eraseIdx i)

/-- The order in which `MapKeys` lists the keys during one sizing call, for each map by its
address. -/
abbrev KeyOrder := Nat → List Nat

/-- The heap as one sizing call sees it: every map lists its entries in the order of that
call. -/
def Heap.inOrder (h : Heap) (o : KeyOrder) : Heap :=
  { h with entries := fun a => reorder (o a) (h.entries a) }

/-- The map orders of the sizing calls made during one call of `Set`. -/
structure Orders where
  /-- the estimate `Set` takes right after the store -/
  first : KeyOrder
  /-- the estimate that opens the round of the eviction loop in which `i` keys have been
  popped so far -/
  check : Nat → KeyOrder
  /-- the sizing of the value deleted by the pop with number `i` (counted from 0) -/
  own : Nat → KeyOrder

/-- The constructor `NewMaxBytesCache[T](maxBytes)`; `addr` is the address `make` gives
the new map. An error result is the returned `err` (and no cache). -/
def NewMaxBytesCache (fuel : Nat) (h : Heap) (T : GoType) (maxBytes addr : Nat) :
    Option (Except String MaxBytesCache) :=
  match calcSize fuel h (.val (zero T)) with
  | none => none
  | some (.error err) => some (.error err)
  | some (.ok _) =>
    some (.ok { T := T, dataAddr := addr, data := [], order := [], maxBytes := maxBytes })

/-- The method `Get`: the value read and the cache after the call. -/
def MaxBytesCache.Get (c : MaxBytesCache) (key : GoString) : Value × MaxBytesCache :=
  ((mapIndex c.data key).getD (zero c.T), c)

/-- The method `dataSize`: `mustCalcSize(c.data)`, with the maps walked in the order `o`. -/
def MaxBytesCache.dataSize (fuel : Nat) (h : Heap) (o : KeyOrder) (c : MaxBytesCache) :
    Option (Except String Nat) :=
  mustCalcSize fuel ((c.heap h).inOrder o) (.val (.map c.dataAddr))

/-- The method `maxBytesExceeded`. -/
def MaxBytesCache.maxBytesExceeded (fuel : Nat) (h : Heap) (o : KeyOrder) (c : MaxBytesCache) :
    Option (Except String Bool) :=
  match c.dataSize fuel h o with
  | none => none
  | some (.error err) => some (.error err)
  | some (.ok s) => some (.ok (decide (s > c.maxBytes)))

/-- The method `shiftKey`: the popped key (`none` for the nil pointer). -/
def MaxBytesCache.shiftKey (c : MaxBytesCache) : Option GoString × MaxBytesCache :=
  match c.order with
  | [] => (none, c)
  | key :: rest => (some key, { c with order := rest })

/-- The method `shift`: the removed value (`none` for the nil pointer). -/
def MaxBytesCache.shift (c : MaxBytesCache) : Option Value × MaxBytesCache :=
  match c.shiftKey with
  | (none, c1) => (none, c1)
  | (some key, c1) =>
    match mapIndex c1.data key with
    | none => (none, { c1 with data := mapDelete c1.data key })
    | some t => (some t, { c1 with data := mapDelete c1.data key })

/-- The loop of `freeToMaxBytes`, started with `count` after `i` rounds. The first argument
bounds the number of rounds; `fuel` is the depth budget of the sizing calls, `os` gives
the map order of each of them. -/
def MaxBytesCache.freeLoop (fuel : Nat) (h : Heap) (os : Orders) :
    Nat → Nat → MaxBytesCache → Nat → Option (Except String (Nat × MaxBytesCache))
  | 0, _, _, _ => none
  | n + 1, i, c, count =>
    match c.maxBytesExceeded fuel h (os.check i) with
    | none => none
    | some (.error err) => some (.error err)
    | some (.ok false) => some (.ok (count, c))
    | some (.ok true) =>
      match c.shift with
      | (none, c1) => MaxBytesCache.freeLoop fuel h os n (i + 1) c1 count
      | (some t, c1) =>
        match mustCalcSize fuel ((c1.heap h).inOrder (os.own i)) (.addr t) with
        | none => none
        | some (.error err) => some (.error err)
        | some (.ok s) => MaxBytesCache.freeLoop fuel h os n (i + 1) c1 (u64 (count + s))

/-- The method `freeToMaxBytes`: the loop with `count` starting at 0. -/
def MaxBytesCache.freeToMaxBytes (n fuel : Nat) (h : Heap) (os : Orders) (c : MaxBytesCache) :
    Option (Except String (Nat × MaxBytesCache)) :=
  MaxBytesCache.freeLoop fuel h os n 0 c 0

/-- The first two statements of `Set`: store the value, append the key to the queue. -/
def MaxBytesCache.stored (c : MaxBytesCache) (key : GoString) (value : Value) :
    MaxBytesCache :=
  { c with data := mapAssign c.data key value, order := c.order ++ [key] }

/-- The method `Set`: the returned byte count and the cache after the call. `n` bounds
the iterations of the eviction loop, `fuel` the depth of each sizing call, `h` is
the heap the stored values refer to, `os` gives the map order of each sizing call.
An error result is a panic. -/
def MaxBytesCache.Set (n fuel : Nat) (h : Heap) (os : Orders) (c : MaxBytesCache)
    (key : GoString) (value : Value) : Option (Except String (Nat × MaxBytesCache)) :=
  match (c.stored key value).maxBytesExceeded fuel h os.first with
  | none => none
  | some (.error err) => some (.error err)
  | some (.ok true) => (c.stored key value).freeToMaxBytes n fuel h os
  | some (.ok false) => some (.ok (0, c.stored key value))

/-! ## Notions used to state the properties -/

/-- The cache after `j` consecutive calls of `shift`. -/
def MaxBytesCache.shiftN : Nat → MaxBytesCache → MaxBytesCache
  | 0, c => c
  | j + 1, c => MaxBytesCache.shiftN j c.shift.2

/-- The entries deleted from the mapping when the first `j` keys of the order queue are
popped one after the other, the pops being numbered from `i` on: the number of the pop,
the deleted value, and the cache as it is right after the deletion. A popped key that
is not in the mapping deletes nothing. -/
def MaxBytesCache.removedFrom : Nat → Nat → MaxBytesCache → List (Nat × Value × MaxBytesCache)
  | _, 0, _ => []
  | i, j + 1, c =>
    match c.order with
    | [] => []
    | key :: rest =>
      match mapIndex c.data key with
      | none =>
        MaxBytesCache.removedFrom (i + 1) j { c with data := mapDelete c.data key, order := rest }
      | some t =>
        (i, t, { c with data := mapDelete c.data key, order := rest }) ::
          MaxBytesCache.removedFrom (i + 1) j
            { c with data := mapDelete c.data key, order := rest }

/-- The entries deleted by the first `j` pops, the pops numbered from 0. -/
def MaxBytesCache.removed (j : Nat) (c : MaxBytesCache) : List (Nat × Value × MaxBytesCache) :=
  MaxBytesCache.removedFrom 0 j c

/-- The keys of a mapping, by content, in the order they were stored. -/
def keysOf (data : List (GoString × Value)) : List String := data.map (fun e => e.1.val)

/-- Every key of the mapping occurs in the order queue. -/
def MaxBytesCache.Covered (c : MaxBytesCache) : Prop :=
  ∀ k, k ∈ keysOf c.data → k ∈ c.order.map (fun s => s.val)

/-- A heap with nothing in it. -/
def emptyHeap : Heap := ⟨fun _ => .invalid, fun _ => [], fun _ => []⟩

/-- One call of `Set`: the budgets of the model, the heap at the time of the call, the map
orders of its sizing calls, and the arguments. -/
structure SetCall where
  n : Nat
  fuel : Nat
  heap : Heap
  orders : Orders
  key : GoString
  value : Value

/-- The orders that list every map as the heap does. -/
def storageOrders : Orders := ⟨fun _ => [], fun _ _ => [], fun _ _ => []⟩

/-- A sequence of `Set` calls, one after the other; the returned byte counts are dropped. -/
def runSets : MaxBytesCache → List SetCall → Option (Except String MaxBytesCache)
  | c, [] => some (.ok c)
  | c, call :: calls =>
    match c.Set call.n call.fuel call.heap call.orders call.key call.value with
    | none => none
    | some (.error err) => some (.error err)
    | some (.ok (_, c1)) => runSets c1 calls

/-- The entries a sequence of calls stores, in call order. -/
def entriesOf (calls : List SetCall) : List (GoString × Value) :=
  calls.map (fun call => (call.key, call.value))

/-- First in, first out, for one eviction: `before` lists the entries of the mapping in the
order their keys were stored, `after` is the mapping once the eviction is over. No
entry is gone while an entry stored before it is still there. -/
def Fifo (before after : List (GoString × Value)) : Prop :=
  ∀ l1 a l2 b l3, before = l1 ++ a :: (l2 ++ b :: l3) →
    mapIndex after b.1 = none → mapIndex after a.1 = none

mutual
/-- Nesting depth of the zero value of a type, as the walk of `sizeOf` sees it. -/
def GoType.depth : GoType → Nat
  | .array _ e => GoType.depth e + 1
  | .struct fs => GoType.depths fs + 1
  | .interface => 1
  | _ => 0
/-- The largest depth among a list of field types. -/
def GoType.depths : List GoType → Nat
  | [] => 0
  | t :: ts => max (GoType.depth t) (GoType.depths ts)
end

/-- A heap whose only object is a one-element backing array at address 100 that holds a
nil interface value. -/
def nilElemHeap : Heap :=
  ⟨fun _ => .invalid, fun a => if a = 100 then [.iface .invalid] else [], fun _ => []⟩

/-! ## Concrete inputs -/

/-- A string of 50 bytes. -/
def long50 : String := "aaaaaaaaaaaaaaaaaaaaaaaaaaaaaaaaaaaaaaaaaaaaaaaaaa"

/-- A fresh cache of strings with a limit of 100 bytes. -/
def reinsertStart : MaxBytesCache := ⟨.string, 1, [], [], 100⟩

/-- Four calls that store "x" twice (the second value is large and gets evicted at once),
then "y", then "x" again. -/
def reinsertCalls : List SetCall :=
  [⟨10, 3, emptyHeap, storageOrders, ⟨10, "x"⟩, .string ⟨20, ""⟩⟩,
   ⟨10, 3, emptyHeap, storageOrders, ⟨11, "x"⟩, .string ⟨21, long50⟩⟩,
   ⟨10, 3, emptyHeap, storageOrders, ⟨12, "y"⟩, .string ⟨22, ""⟩⟩,
   ⟨10, 3, emptyHeap, storageOrders, ⟨13, "x"⟩, .string ⟨23, ""⟩⟩]

/-- The cache after `reinsertCalls`: "y" was stored before the present "x", and the queue
still starts with the occurrence of "x" left over from the second call. -/
def reinsertCache : MaxBytesCache :=
  ⟨.string, 1, [(⟨12, "y"⟩, .string ⟨22, ""⟩), (⟨13, "x"⟩, .string ⟨23, ""⟩)],
    [⟨11, "x"⟩, ⟨12, "y"⟩, ⟨13, "x"⟩], 100⟩

/-- A cache of `int` with a limit of 200 bytes. -/
def intStart : MaxBytesCache := ⟨.int, 1, [], [], 200⟩

/-- Five calls with the distinct keys "k1" to "k5". -/
def intCalls : List SetCall :=
  [⟨10, 2, emptyHeap, storageOrders, ⟨11, "k1"⟩, .scalar .int 1⟩,
   ⟨10, 2, emptyHeap, storageOrders, ⟨12, "k2"⟩, .scalar .int 2⟩,
   ⟨10, 2, emptyHeap, storageOrders, ⟨13, "k3"⟩, .scalar .int 3⟩,
   ⟨10, 2, emptyHeap, storageOrders, ⟨14, "k4"⟩, .scalar .int 4⟩,
   ⟨10, 2, emptyHeap, storageOrders, ⟨15, "k5"⟩, .scalar .int 5⟩]

/-- The cache after `intCalls`: all five entries, an estimate of 191 bytes. -/
def intCache : MaxBytesCache :=
  ⟨.int, 1,
    [(⟨11, "k1"⟩, .scalar .int 1), (⟨12, "k2"⟩, .scalar .int 2), (⟨13, "k3"⟩, .scalar .int 3),
     (⟨14, "k4"⟩, .scalar .int 4), (⟨15, "k5"⟩, .scalar .int 5)],
    [⟨11, "k1"⟩, ⟨12, "k2"⟩, ⟨13, "k3"⟩, ⟨14, "k4"⟩, ⟨15, "k5"⟩], 200⟩

/-- A cache of `int` with a limit of 50 bytes whose queue starts with a key that is no longer
in the mapping. -/
def staleCache : MaxBytesCache :=
  ⟨.int, 1, [(⟨11, "b"⟩, .scalar .int 2)], [⟨10, "a"⟩, ⟨11, "b"⟩], 50⟩

/-- The cache states reached from `NewMaxBytesCache` by `Set` calls that return, and `Get`
calls. -/
inductive Reachable : MaxBytesCache → Prop where
  | new (fuel : Nat) (h : Heap) (T : GoType) (maxBytes addr : Nat) (c : MaxBytesCache)
      (hnew : NewMaxBytesCache fuel h T maxBytes addr = some (.ok c)) : Reachable c
  | set (c : MaxBytesCache) (n fuel : Nat) (h : Heap) (os : Orders) (key : GoString)
      (value : Value) (cnt : Nat) (c1 : MaxBytesCache) (hc : Reachable c)
      (hset : c.Set n fuel h os key value = some (.ok (cnt, c1))) : Reachable c1
  | get (c : MaxBytesCache) (key : GoString) (hc : Reachable c) : Reachable (c.Get key).2

/-- A cache of `int` with a limit of 50 bytes in which "a" was stored twice: the queue holds
"a" twice, the mapping holds the second value. -/
def twiceCache : MaxBytesCache :=
  ⟨.int, 1, [(⟨11, "a"⟩, .scalar .int 2)], [⟨10, "a"⟩, ⟨11, "a"⟩], 50⟩

/-- The five calls of `intCalls` followed by a sixth, with key "k6". -/
def sixCalls : List SetCall :=
  intCalls ++ [⟨10, 2, emptyHeap, storageOrders, ⟨16, "k6"⟩, .scalar .int 6⟩]

/-- The cache after `sixCalls`: the sixth call evicted "k1". -/
def sixCache : MaxBytesCache :=
  ⟨.int, 1,
    [(⟨12, "k2"⟩, .scalar .int 2), (⟨13, "k3"⟩, .scalar .int 3), (⟨14, "k4"⟩, .scalar .int 4),
     (⟨15, "k5"⟩, .scalar .int 5), (⟨16, "k6"⟩, .scalar .int 6)],
    [⟨12, "k2"⟩, ⟨13, "k3"⟩, ⟨14, "k4"⟩, ⟨15, "k5"⟩, ⟨16, "k6"⟩], 200⟩

/-- The sizes `f` gives for the elements of a list, one after the other, each sized with the
visited set the one before it left; the visited set after the last one. -/
def sizesOf (f : Value → Visited → Sized) :
    List Value → Visited → Option (Except String (List Nat × Visited))
  | [], cache => some (.ok ([], cache))
  | v :: vs, cache =>
    match f v cache with
    | none => none
    | some (.error err) => some (.error err)
    | some (.ok (s, cache1)) =>
      match sizesOf f vs cache1 with
      | none => none
      | some (.error err) => some (.error err)
      | some (.ok (ss, cache2)) => some (.ok (s :: ss, cache2))

/-- The sizes `f` gives for the entries of a map, one entry after the other: for each entry
the size of the value, then the size of the key, with the visited set threaded through. -/
def entrySizesOf (f : Value → Visited → Sized) :
    List (Value × Value) → Visited → Option (Except String (List (Nat × Nat) × Visited))
  | [], cache => some (.ok ([], cache))
  | (key, val) :: kvs, cache =>
    match f val cache with
    | none => none
    | some (.error err) => some (.error err)
    | some (.ok (s1, cache1)) =>
      match f key cache1 with
      | none => none
      | some (.error err) => some (.error err)
      | some (.ok (s2, cache2)) =>
        match entrySizesOf f kvs cache2 with
        | none => none
        | some (.error err) => some (.error err)
        | some (.ok (ss, cache3)) => some (.ok ((s1, s2) :: ss, cache3))

/-- The kinds the fixed-width case of `sizeOf` lists. -/
def fixedWidth : Kind → Bool
  | .Bool
  | .Uint8 | .Uint16 | .Uint32 | .Uint64
  | .Int8 | .Int16 | .Int32 | .Int64
  | .Int | .Uint
  | .Chan
  | .Uintptr
  | .Float32 | .Float64 | .Complex64 | .Complex128
  | .Func => true
  | _ => false

/-- A heap whose only object is a map at address 1 with 300 entries: the `int` keys 0 to 299,
each mapped to the `int` 0. -/
def bigMapHeap : Heap :=
  ⟨fun _ => .invalid, fun _ => [],
    fun a => if a = 1 then (List.range 300).map (fun i => (.scalar .int i, .scalar .int 0)) else []⟩

/-- The kinds that have a case in the switch of `sizeOf`. -/
def hasRule : Kind → Bool
  | .Array | .Slice | .Struct | .String | .Ptr | .Map | .Interface => true
  | k => fixedWidth k

mutual
/-- A value in which the constructor `scalar` is used for the kinds it stands for only (bool,
integers, floats, complex numbers, uintptr, chan and func). -/
def Value.wellKinded : Value → Bool
  | .scalar t _ => fixedWidth t.kind
  | .array _ elems => Value.allWellKinded elems
  | .struct fields => Value.allWellKinded fields
  | .iface elem => Value.wellKinded elem
  | _ => true
/-- All values of a list are well kinded. -/
def Value.allWellKinded : List Value → Bool
  | [] => true
  | v :: vs => Value.wellKinded v && Value.allWellKinded vs
end

/-- A heap all of whose values are well kinded. -/
def Heap.WellKinded (h : Heap) : Prop :=
  ∀ a, (h.target a).wellKinded = true ∧
    (∀ v, v ∈ h.backing a → v.wellKinded = true) ∧
    (∀ e, e ∈ h.entries a → e.1.wellKinded = true ∧ e.2.wellKinded = true)

/-- Where a walk ended before its time: at a value whose kind has no sizing rule, or, a
case of it, at the missing content of an interface value that holds nil. -/
inductive Stop where
  | unsupported (k : Kind)
  | nilInterface

/-- The kind without a sizing rule at which the walk ended: Invalid for the content of a nil
interface. -/
def Stop.kind : Stop → Kind
  | .unsupported k => k
  | .nilInterface => .Invalid

/-- The zero `reflect.Value`. -/
def Value.isInvalid : Value → Bool
  | .invalid => true
  | _ => false

/-- The result of a walk without sizes: `none` when the depth budget ran out, the place where
the walk met a kind without a sizing rule, or the visited set at the end. -/
abbrev Walked := Option (Except Stop Visited)

/-- Walk the elements of a list one after the other, stop at the first kind without a rule. -/
def walkList (f : Value → Visited → Walked) : List Value → Visited → Walked
  | [], cache => some (.ok cache)
  | v :: vs, cache =>
    match f v cache with
    | none => none
    | some (.error k) => some (.error k)
    | some (.ok cache1) => walkList f vs cache1

/-- Walk the entries of a map, key by key: the value read back for the key, then the key. -/
def walkEntries (f : Value → Visited → Walked) (index : Value → Value) :
    List Value → Visited → Walked
  | [], cache => some (.ok cache)
  | key :: keys, cache =>
    match f (index key) cache with
    | none => none
    | some (.error k) => some (.error k)
    | some (.ok cache1) =>
      match f key cache1 with
      | none => none
      | some (.error k) => some (.error k)
      | some (.ok cache2) => walkEntries f index keys cache2

/-- The walk of the estimator, as the specification describes it, with the sizes left out: a
node whose kind has no sizing rule ends the walk; a reference-bearing node (slice, string,
pointer, map) whose address is in the visited set is not descended into; otherwise the
address is recorded and the elements, fields, map values and keys, pointer target or
interface content are walked in order. A map value is the one read back for its key. -/
def walk (h : Heap) : Nat → Value → Visited → Walked
  | 0, _, _ => none
  | fuel + 1, v, cache =>
    if hasRule v.kind = false then some (.error (.unsupported v.kind))
    else
      match v with
      | .array _ elems => walkList (walk h fuel) elems cache
      | .slice _ ptr len _ =>
        if cache.contains ptr then some (.ok cache)
        else walkList (walk h fuel) ((h.backing ptr).take len) (ptr :: cache)
      | .struct fields => walkList (walk h fuel) fields cache
      | .string s => if cache.contains s.data then some (.ok cache) else some (.ok (s.data :: cache))
      | .ptr addr =>
        if cache.contains addr then some (.ok cache)
        else if addr = 0 then some (.ok (addr :: cache))
        else walk h fuel (h.target addr) (addr :: cache)
      | .map addr =>
        if cache.contains addr then some (.ok cache)
        else walkEntries (walk h fuel) (h.MapIndex addr) (h.MapKeys addr) (addr :: cache)
      | .iface elem =>
        match walk h fuel elem cache with
        | some (.error stop) => some (.error (if elem.isInvalid then .nilInterface else stop))
        | r => r
      | _ => some (.ok cache)

/-- How the result of `sizeOf` follows the result of the walk: out of budget together, the
error that names the first kind without a rule, or a size with the same visited set. -/
def Follows (w : Walked) (s : Sized) : Prop :=
  match w with
  | none => s = none
  | some (.error stop) => hasRule stop.kind = false ∧ s = some (.error (unknownType stop.kind))
  | some (.ok cache1) => ∃ size, s = some (.ok (size, cache1))

mutual
/-- Nesting depth of a value: the number of levels of `sizeOf` it takes to go through the
value without following an address. -/
def Value.depth : Value → Nat
  | .array _ elems => Value.depthList elems + 1
  | .struct fields => Value.depthList fields + 1
  | .iface elem => Value.depth elem + 1
  | .ptr _ => 1
  | .slice _ _ _ _ => 1
  | .map _ => 1
  | _ => 0
/-- The largest nesting depth in a list of values. -/
def Value.depthList : List Value → Nat
  | [] => 0
  | v :: vs => max (Value.depth v) (Value.depthList vs)
end

/-- A finite value graph: the heap holds objects at the addresses of `addrs` only. -/
def Heap.SupportedBy (h : Heap) (addrs : List Nat) : Prop :=
  ∀ a, a ∉ addrs → h.target a = .invalid ∧ h.backing a = [] ∧ h.entries a = []

/-- The largest nesting depth among the values stored at one address. -/
def Heap.depthAt (h : Heap) (a : Nat) : Nat :=
  max (h.target a).depth (max (Value.depthList (h.backing a))
    (max (Value.depthList ((h.entries a).map Prod.fst))
      (Value.depthList ((h.entries a).map Prod.snd))))

/-- The largest nesting depth among the values stored at the addresses of `addrs`. -/
def Heap.depthOn (h : Heap) (addrs : List Nat) : Nat :=
  (addrs.map h.depthAt).foldr max 0

/-- The number of addresses of `addrs` the visited set does not hold yet. -/
def unvisited (addrs : List Nat) (cache : Visited) : Nat :=
  (addrs.filter (fun a => !cache.contains a)).length

/-- A depth budget that suffices to size `v` from the visited set `cache`. -/
def enoughFuel (h : Heap) (addrs : List Nat) (v : Value) (cache : Visited) : Nat :=
  v.depth + unvisited addrs cache * (h.depthOn addrs + 1) + 1

/-- A heap with cycles: the record at address 100 holds a pointer to itself, a slice whose
only cell is an interface holding that pointer, and a map with that pointer as a value. -/
def cyclicHeap : Heap :=
  ⟨fun a => if a = 100 then .struct [.ptr 100, .slice 16 200 1 1, .map 300] else .invalid,
    fun a => if a = 200 then [.iface (.ptr 100)] else [],
    fun a => if a = 300 then [(.scalar .int 1, .ptr 100)] else []⟩

/-- A string of 40 bytes. -/
def long40 : String := "aaaaaaaaaaaaaaaaaaaaaaaaaaaaaaaaaaaaaaaa"

/-- A fresh cache of strings with a limit of 100 bytes. -/
def sharedStart : MaxBytesCache := ⟨.string, 1, [], [], 100⟩

/-- The cache after `Set("a", s[:1])` and `Set("b", s)` on `sharedStart`, for a string `s` of
40 bytes at address 200: the two values share their backing bytes. -/
def sharedCache : MaxBytesCache :=
  ⟨.string, 1, [(⟨10, "a"⟩, .string ⟨200, "a"⟩), (⟨11, "b"⟩, .string ⟨200, long40⟩)],
    [⟨10, "a"⟩, ⟨11, "b"⟩], 100⟩

/-- The order that lists the second entry of every map first. -/
def secondFirst : KeyOrder := fun _ => [1]

/-- No call of the run stores a key that the mapping holds at the time of the call (a key
may be stored again once it has been evicted). -/
def storesAbsent : MaxBytesCache → List SetCall → Prop
  | _, [] => True
  | c, call :: calls =>
    mapIndex c.data call.key = none ∧
      match c.Set call.n call.fuel call.heap call.orders call.key call.value with
      | some (.ok (_, c1)) => storesAbsent c1 calls
      | _ => True

/-- The cache after `sixCalls` and a seventh call that stores "k1" again, with the value 7:
the seventh call evicted "k2". -/
def againCache : MaxBytesCache :=
  ⟨.int, 1,
    [(⟨13, "k3"⟩, .scalar .int 3), (⟨14, "k4"⟩, .scalar .int 4), (⟨15, "k5"⟩, .scalar .int 5),
     (⟨16, "k6"⟩, .scalar .int 6), (⟨17, "k1"⟩, .scalar .int 7)],
    [⟨13, "k3"⟩, ⟨14, "k4"⟩, ⟨15, "k5"⟩, ⟨16, "k6"⟩, ⟨17, "k1"⟩], 200⟩

/-- A heap whose only object is a map at address 1 with one entry: the `float64` key is a NaN
(all exponent bits set, mantissa not zero), the value is the `int` 1. -/
def nanMapHeap : Heap :=
  ⟨fun _ => .invalid, fun _ => [],
    fun a => if a = 1 then [(.scalar .float64 0x7FF8000000000001, .scalar .int 1)] else []⟩

/-- A heap in which a nil interface lies deep: the record at address 100 holds a map (at
address 300) whose one entry maps the string "k" to an interface value that holds nil. -/
def nilDeepHeap : Heap :=
  ⟨fun a => if a = 100 then .struct [.map 300] else .invalid,
    fun _ => [],
    fun a => if a = 300 then [(.string ⟨50, "k"⟩, .iface .invalid)] else []⟩

/-! ## Properties -/

/-! ### The eviction loop -/

theorem shift_eq (c : MaxBytesCache) :
    c.shift.2 = match c.order with
      | [] => c
      | key :: rest => { c with data := mapDelete c.data key, order := rest } := by
  unfold MaxBytesCache.shift MaxBytesCache.shiftKey
  cases hq : c.order with
  | nil => simp
  | cons key rest =>
    simp only
    cases mapIndex c.data key <;> rfl

theorem shift_fst (c : MaxBytesCache) :
    c.shift.1 = match c.order with
      | [] => none
      | key :: _ => mapIndex c.data key := by
  unfold MaxBytesCache.shift MaxBytesCache.shiftKey
  cases hq : c.order with
  | nil => simp
  | cons key rest =>
    simp only
    cases mapIndex c.data key <;> rfl

theorem shiftN_maxBytes (j : Nat) : ∀ c : MaxBytesCache, (c.shiftN j).maxBytes = c.maxBytes := by
  induction j with
  | zero => intro c; rfl
  | succ j ih =>
    intro c
    rw [MaxBytesCache.shiftN, ih, shift_eq]
    cases c.order <;> rfl

theorem shiftN_order (j : Nat) : ∀ c : MaxBytesCache, (c.shiftN j).order = c.order.drop j := by
  induction j with
  | zero => intro c; rfl
  | succ j ih =>
    intro c
    rw [MaxBytesCache.shiftN, ih, shift_eq]
    cases hq : c.order <;> simp [hq]

theorem removedFrom_succ (i j : Nat) (c : MaxBytesCache) :
    c.removedFrom i (j + 1) = (match c.shift.1 with
      | none => []
      | some t => [(i, t, c.shift.2)]) ++ c.shift.2.removedFrom (i + 1) j := by
  rw [shift_eq, shift_fst, MaxBytesCache.removedFrom]
  cases hq : c.order with
  | nil => cases j <;> simp [MaxBytesCache.removedFrom, hq]
  | cons key rest =>
    simp only
    cases mapIndex c.data key <;> simp

/-- The numbering of the pops does not change which values are deleted. -/
theorem removedFrom_values (j : Nat) : ∀ (i k : Nat) (c : MaxBytesCache),
    (c.removedFrom i j).map (fun r => r.2) = (c.removedFrom k j).map (fun r => r.2) := by
  induction j with
  | zero => intro i k c; rfl
  | succ j ih =>
    intro i k c
    rw [removedFrom_succ, removedFrom_succ, List.map_append, List.map_append,
      ih (i + 1) (k + 1)]
    cases c.shift.1 <;> rfl

theorem u64_add_u64 (a b : Nat) : u64 (u64 a + b) = u64 (a + b) := by
  unfold u64; omega

theorem u64_lt (a : Nat) : u64 a < 2 ^ 64 := by
  unfold u64; exact Nat.mod_lt _ (by norm_num)

/-- What a returning run of the eviction loop did: it popped some number `j` of keys, the
estimate taken before each pop was above the limit, the last estimate was within it, and
the count grew by the sizes of the deleted values. -/
theorem freeLoop_trace (fuel : Nat) (h : Heap) (os : Orders) :
    ∀ (n i : Nat) (c : MaxBytesCache) (count cnt : Nat) (c' : MaxBytesCache),
      MaxBytesCache.freeLoop fuel h os n i c count = some (.ok (cnt, c')) →
      ∃ j, j < n ∧ c' = c.shiftN j ∧
        c'.maxBytesExceeded fuel h (os.check (i + j)) = some (.ok false) ∧
        (∀ k, k < j →
          (c.shiftN k).maxBytesExceeded fuel h (os.check (i + k)) = some (.ok true)) ∧
        ∃ sizes, List.Forall₂
            (fun r s => mustCalcSize fuel ((r.2.2.heap h).inOrder (os.own r.1)) (.addr r.2.1)
              = some (.ok s))
            (c.removedFrom i j) sizes ∧
          u64 cnt = u64 (count + sizes.sum) ∧ (count < 2 ^ 64 → cnt < 2 ^ 64) := by
  intro n
  induction n with
  | zero => intro i c count cnt c' hrun; simp [MaxBytesCache.freeLoop] at hrun
  | succ n ih =>
    intro i c count cnt c' hrun
    rw [MaxBytesCache.freeLoop] at hrun
    cases hex : c.maxBytesExceeded fuel h (os.check i) with
    | none => simp [hex] at hrun
    | some r =>
      cases r with
      | error e => simp [hex] at hrun
      | ok b =>
        cases b with
        | false =>
          simp only [hex] at hrun
          injection hrun with hrun
          injection hrun with hrun
          injection hrun with h1 h2
          subst h1; subst h2
          exact ⟨0, Nat.succ_pos n, rfl, hex, fun k hk => absurd hk (Nat.not_lt_zero k),
            [], by simp [MaxBytesCache.removedFrom], by simp, fun hc => hc⟩
        | true =>
          simp only [hex] at hrun
          cases hs : c.shift with
          | mk t c1 =>
            have hc1 : c.shift.2 = c1 := by rw [hs]
            have ht : c.shift.1 = t := by rw [hs]
            simp only [hs] at hrun
            cases t with
            | none =>
              simp only at hrun
              obtain ⟨j, hj, hc', hfin, hbefore, sizes, hsz, hsum, hlt⟩ :=
                ih (i + 1) c1 count cnt c' hrun
              refine ⟨j + 1, Nat.succ_lt_succ hj, ?_, ?_, ?_, sizes, ?_, hsum, hlt⟩
              · rw [MaxBytesCache.shiftN, hc1]; exact hc'
              · rw [show i + (j + 1) = i + 1 + j by omega]; exact hfin
              · intro k hk
                cases k with
                | zero => exact hex
                | succ k =>
                  rw [MaxBytesCache.shiftN, hc1, show i + (k + 1) = i + 1 + k by omega]
                  exact hbefore k (Nat.lt_of_succ_lt_succ hk)
              · rw [removedFrom_succ, ht, hc1]; simpa using hsz
            | some t =>
              simp only at hrun
              cases hm : mustCalcSize fuel ((c1.heap h).inOrder (os.own i)) (.addr t) with
              | none => simp [hm] at hrun
              | some r =>
                cases r with
                | error e => simp [hm] at hrun
                | ok s =>
                  simp only [hm] at hrun
                  obtain ⟨j, hj, hc', hfin, hbefore, sizes, hsz, hsum, hlt⟩ :=
                    ih (i + 1) c1 (u64 (count + s)) cnt c' hrun
                  refine ⟨j + 1, Nat.succ_lt_succ hj, ?_, ?_, ?_, s :: sizes, ?_, ?_, ?_⟩
                  · rw [MaxBytesCache.shiftN, hc1]; exact hc'
                  · rw [show i + (j + 1) = i + 1 + j by omega]; exact hfin
                  · intro k hk
                    cases k with
                    | zero => exact hex
                    | succ k =>
                      rw [MaxBytesCache.shiftN, hc1, show i + (k + 1) = i + 1 + k by omega]
                      exact hbefore k (Nat.lt_of_succ_lt_succ hk)
                  · rw [removedFrom_succ, ht, hc1]
                    exact List.Forall₂.cons hm hsz
                  · rw [hsum, u64_add_u64, List.sum_cons, Nat.add_assoc]
                  · intro _; exact hlt (u64_lt _)

/-! ### The bound after Set -/

/-- What a returning `Set` did, in terms of the state right after the store. -/
theorem Set_trace (n fuel : Nat) (h : Heap) (os : Orders) (c : MaxBytesCache)
    (key : GoString) (value : Value) (cnt : Nat) (c' : MaxBytesCache)
    (hset : c.Set n fuel h os key value = some (.ok (cnt, c'))) :
    ∃ j o, c' = (c.stored key value).shiftN j ∧
      c'.maxBytesExceeded fuel h o = some (.ok false) ∧
      ((j = 0 ∧ o = os.first) ∨ o = os.check j) ∧
      (∀ i, i < j →
        ((c.stored key value).shiftN i).maxBytesExceeded fuel h (os.check i) = some (.ok true)) ∧
      ∃ sizes, List.Forall₂
          (fun r s => mustCalcSize fuel ((r.2.2.heap h).inOrder (os.own r.1)) (.addr r.2.1)
            = some (.ok s))
          ((c.stored key value).removed j) sizes ∧
        cnt = sizes.sum % 2 ^ 64 := by
  unfold MaxBytesCache.Set at hset
  cases hex : (c.stored key value).maxBytesExceeded fuel h os.first with
  | none => simp [hex] at hset
  | some r =>
    cases r with
    | error e => simp [hex] at hset
    | ok b =>
      cases b with
      | false =>
        simp only [hex] at hset
        injection hset with hset
        injection hset with hset
        injection hset with h1 h2
        subst h1; subst h2
        exact ⟨0, os.first, rfl, hex, Or.inl ⟨rfl, rfl⟩,
          fun i hi => absurd hi (Nat.not_lt_zero i), [],
          by simp [MaxBytesCache.removed, MaxBytesCache.removedFrom], by simp⟩
      | true =>
        simp only [hex, MaxBytesCache.freeToMaxBytes] at hset
        obtain ⟨j, _, hc', hfin, hbefore, sizes, hsz, hsum, hlt⟩ :=
          freeLoop_trace fuel h os n 0 _ 0 cnt c' hset
        simp only [Nat.zero_add] at hfin hbefore
        refine ⟨j, os.check j, hc', hfin, Or.inr rfl, hbefore, sizes, hsz, ?_⟩
        have h1 : cnt < 2 ^ 64 := hlt (by norm_num)
        have h2 : u64 cnt = cnt := Nat.mod_eq_of_lt h1
        rw [← h2, hsum, Nat.zero_add]; rfl

theorem not_exceeded_bound (fuel : Nat) (h : Heap) (o : KeyOrder) (c : MaxBytesCache)
    (hex : c.maxBytesExceeded fuel h o = some (.ok false)) :
    ∃ s, c.dataSize fuel h o = some (.ok s) ∧ s ≤ c.maxBytes := by
  unfold MaxBytesCache.maxBytesExceeded at hex
  cases hd : c.dataSize fuel h o with
  | none => simp [hd] at hex
  | some r =>
    cases r with
    | error e => simp [hd] at hex
    | ok s =>
      simp only [hd] at hex
      injection hex with hex
      injection hex with hex
      exact ⟨s, rfl, by simpa using hex⟩

theorem stored_maxBytes (c : MaxBytesCache) (key : GoString) (value : Value) :
    (c.stored key value).maxBytes = c.maxBytes := rfl

/-- The estimate that ends a returning `Set` is within the limit: it is the estimate taken
right after the store when nothing was popped, and the one that opened the last round of
the eviction loop otherwise. -/
theorem Set_within_budget (n fuel : Nat) (h : Heap) (os : Orders) (c : MaxBytesCache)
    (key : GoString) (value : Value) (cnt : Nat) (c' : MaxBytesCache)
    (hset : c.Set n fuel h os key value = some (.ok (cnt, c'))) :
    c'.maxBytes = c.maxBytes ∧
      ∃ o s, (o = os.first ∨ ∃ j, o = os.check j) ∧
        c'.dataSize fuel h o = some (.ok s) ∧ s ≤ c.maxBytes := by
  obtain ⟨j, o, hc', hfin, ho, -, -⟩ := Set_trace n fuel h os c key value cnt c' hset
  have hm : c'.maxBytes = c.maxBytes := by rw [hc', shiftN_maxBytes, stored_maxBytes]
  obtain ⟨s, hs, hle⟩ := not_exceeded_bound fuel h o c' hfin
  refine ⟨hm, o, s, ?_, hs, hm ▸ hle⟩
  rcases ho with ⟨-, ho⟩ | ho
  · exact Or.inl ho
  · exact Or.inr ⟨j, ho⟩

theorem New_ok (fuel : Nat) (h : Heap) (T : GoType) (maxBytes addr : Nat) (c : MaxBytesCache)
    (hnew : NewMaxBytesCache fuel h T maxBytes addr = some (.ok c)) :
    c = { T := T, dataAddr := addr, data := [], order := [], maxBytes := maxBytes } := by
  unfold NewMaxBytesCache at hnew
  cases hz : calcSize fuel h (.val (zero T)) with
  | none => simp [hz] at hnew
  | some r =>
    cases r with
    | error e => simp [hz] at hnew
    | ok s =>
      simp only [hz] at hnew
      injection hnew with hnew
      injection hnew with hnew
      exact hnew.symm

theorem runSets_maxBytes : ∀ (calls : List SetCall) (c c' : MaxBytesCache),
    runSets c calls = some (.ok c') → c'.maxBytes = c.maxBytes := by
  intro calls
  induction calls with
  | nil =>
    intro c c' hrun
    simp only [runSets] at hrun
    injection hrun with hrun
    injection hrun with hrun
    rw [hrun]
  | cons call calls ih =>
    intro c c' hrun
    rw [runSets] at hrun
    cases hs : c.Set call.n call.fuel call.heap call.orders call.key call.value with
    | none => simp [hs] at hrun
    | some r =>
      cases r with
      | error e => simp [hs] at hrun
      | ok p =>
        obtain ⟨cnt, c1⟩ := p
        simp only [hs] at hrun
        rw [ih c1 c' hrun]
        exact (Set_within_budget _ _ _ _ _ _ _ _ _ hs).1

/-- C1, as the claim states it, fails. A cache of strings with a limit of 100 bytes; `s` is a
string of 40 bytes, `s[:1]` shares its backing bytes. After `Set("a", s[:1])` and
`Set("b", s)`, both of which return 0, the estimate `Set` took (the map walked "a" first)
was 96: the backing bytes count with the value that is walked first, and there only one
byte is counted. Walked "b" first, the same mapping is estimated at 135 bytes, above the
limit, and no entry has an own estimate above the limit (17 and 56 bytes). -/
theorem Set_bound_counterexample :
    NewMaxBytesCache 3 emptyHeap .string 100 1 = some (.ok sharedStart) ∧
      runSets sharedStart [⟨5, 3, emptyHeap, storageOrders, ⟨10, "a"⟩, .string ⟨200, "a"⟩⟩] =
        some (.ok ⟨.string, 1, [(⟨10, "a"⟩, .string ⟨200, "a"⟩)], [⟨10, "a"⟩], 100⟩) ∧
      (MaxBytesCache.mk .string 1 [(⟨10, "a"⟩, .string ⟨200, "a"⟩)] [⟨10, "a"⟩] 100).Set 5 3
          emptyHeap storageOrders ⟨11, "b"⟩ (.string ⟨200, long40⟩) =
        some (.ok (0, sharedCache)) ∧
      sharedCache.dataSize 3 emptyHeap storageOrders.first = some (.ok 96) ∧
      sharedCache.dataSize 3 emptyHeap secondFirst = some (.ok 135) ∧
      sharedCache.maxBytes < 135 ∧
      (∀ e, e ∈ sharedCache.data → ∀ o, ∃ sv,
        mustCalcSize 3 ((sharedCache.heap emptyHeap).inOrder o) (.addr e.2) = some (.ok sv) ∧
          sv ≤ sharedCache.maxBytes) := by
  refine ⟨by rfl, by rfl, by rfl, by rfl, by rfl, by decide, fun e he o => ?_⟩
  have he1 : e = (⟨10, "a"⟩, .string ⟨200, "a"⟩) ∨ e = (⟨11, "b"⟩, .string ⟨200, long40⟩) := by
    simpa [sharedCache] using he
  rcases he1 with he1 | he1
  · rw [he1]
    exact ⟨17, by rfl, by decide⟩
  · rw [he1]
    exact ⟨56, by rfl, by decide⟩

/-- C1, amended (bound property). On a cache created by `NewMaxBytesCache` with limit
`maxBytes`, after any sequence of `Set` calls, a further `Set` call that returns ends on an
estimate of the whole mapping that is at most `maxBytes`: the estimate taken right after
the store, or the one that opened the last round of the eviction loop. No exception for
a large single entry is needed. When the estimate of the resulting mapping does not
depend on the order in which the maps are walked, every estimate of it is at most
`maxBytes`. -/
theorem Set_bound (fuel0 : Nat) (h0 : Heap) (T : GoType) (maxBytes addr : Nat)
    (c0 : MaxBytesCache) (calls : List SetCall) (c : MaxBytesCache)
    (n fuel : Nat) (h : Heap) (os : Orders) (key : GoString) (value : Value) (cnt : Nat)
    (c' : MaxBytesCache)
    (hnew : NewMaxBytesCache fuel0 h0 T maxBytes addr = some (.ok c0))
    (hrun : runSets c0 calls = some (.ok c))
    (hset : c.Set n fuel h os key value = some (.ok (cnt, c'))) :
    (∃ o s, (o = os.first ∨ ∃ j, o = os.check j) ∧
      c'.dataSize fuel h o = some (.ok s) ∧ s ≤ maxBytes) ∧
    ((∀ o1 o2, c'.dataSize fuel h o1 = c'.dataSize fuel h o2) →
      ∀ o, ∃ s, c'.dataSize fuel h o = some (.ok s) ∧ s ≤ maxBytes) := by
  obtain ⟨-, o, s, ho, hs, hle⟩ := Set_within_budget n fuel h os c key value cnt c' hset
  have h1 : c.maxBytes = maxBytes := by
    rw [runSets_maxBytes calls c0 c hrun, New_ok fuel0 h0 T maxBytes addr c0 hnew]
  exact ⟨⟨o, s, ho, hs, h1 ▸ hle⟩, fun hsame o1 => ⟨s, (hsame o1 o).trans hs, h1 ▸ hle⟩⟩

/-- Witness for the amended C1: the run of the counterexample. The estimate that ended the
second call is within the limit of 100 bytes. -/
theorem Set_bound_witness :
    ∃ o s, (o = storageOrders.first ∨ ∃ j, o = storageOrders.check j) ∧
      sharedCache.dataSize 3 emptyHeap o = some (.ok s) ∧ s ≤ 100 :=
  (Set_bound 3 emptyHeap .string 100 1 sharedStart
    [⟨5, 3, emptyHeap, storageOrders, ⟨10, "a"⟩, .string ⟨200, "a"⟩⟩]
    ⟨.string, 1, [(⟨10, "a"⟩, .string ⟨200, "a"⟩)], [⟨10, "a"⟩], 100⟩
    5 3 emptyHeap storageOrders ⟨11, "b"⟩ (.string ⟨200, long40⟩) 0 sharedCache
    (by rfl) (by rfl) (by rfl)).1

/-! ### Sizing zero values, and construction -/

theorem sumSizes_isSome (f : Value → Visited → Sized) :
    ∀ (l : List Value), (∀ v, v ∈ l → ∀ cache, (f v cache).isSome) →
      ∀ sum cache, (sumSizes f l sum cache).isSome := by
  intro l
  induction l with
  | nil => intro _ sum cache; rfl
  | cons v vs ih =>
    intro hl sum cache
    rw [sumSizes]
    have hv := hl v (List.mem_cons_self v vs) cache
    cases hf : f v cache with
    | none => simp [hf] at hv
    | some r =>
      cases r with
      | error e => rfl
      | ok p =>
        obtain ⟨s, cache1⟩ := p
        exact ih (fun w hw => hl w (List.mem_cons_of_mem v hw)) _ _

theorem sizeOf_scalar (h : Heap) (fuel : Nat) (t : GoType) (bits : Nat) (cache : Visited) :
    (sizeOf h (fuel + 1) (.scalar t bits) cache).isSome := by
  rw [sizeOf]
  cases t.kind <;> rfl

mutual
theorem sizeOf_zero_isSome (h : Heap) :
    ∀ (T : GoType) (fuel : Nat) (cache : Visited), T.depth < fuel →
      (sizeOf h fuel (zero T) cache).isSome
  | .array n e, fuel, cache, hf => by
    cases fuel with
    | zero => omega
    | succ fuel =>
      rw [zero, sizeOf]
      have hd : e.depth < fuel := by rw [GoType.depth] at hf; omega
      have := sumSizes_isSome (sizeOf h fuel) (List.replicate n (zero e))
        (fun v hv cache1 => by
          rw [List.eq_of_mem_replicate hv]
          exact sizeOf_zero_isSome h e fuel cache1 hd) 0 cache
      cases hs : sumSizes (sizeOf h fuel) (List.replicate n (zero e)) 0 cache with
      | none => simp [hs] at this
      | some r => cases r with
        | error e => rfl
        | ok p => rfl
  | .struct fs, fuel, cache, hf => by
    cases fuel with
    | zero => omega
    | succ fuel =>
      rw [zero, sizeOf]
      have hd : GoType.depths fs < fuel := by rw [GoType.depth] at hf; omega
      have := sumSizes_zeros_isSome h fs fuel 0 cache hd
      cases hs : sumSizes (sizeOf h fuel) (zeros fs) 0 cache with
      | none => simp [hs] at this
      | some r => cases r with
        | error e => rfl
        | ok p => rfl
  | .interface, fuel, cache, hf => by
    rw [GoType.depth] at hf
    obtain ⟨m, rfl⟩ : ∃ m, fuel = m + 2 := ⟨fuel - 2, by omega⟩
    rfl
  | .bool, fuel, cache, hf | .int, fuel, cache, hf | .int8, fuel, cache, hf
  | .int16, fuel, cache, hf | .int32, fuel, cache, hf | .int64, fuel, cache, hf
  | .uint, fuel, cache, hf | .uint8, fuel, cache, hf | .uint16, fuel, cache, hf
  | .uint32, fuel, cache, hf | .uint64, fuel, cache, hf | .uintptr, fuel, cache, hf
  | .float32, fuel, cache, hf | .float64, fuel, cache, hf
  | .complex64, fuel, cache, hf | .complex128, fuel, cache, hf
  | .chan, fuel, cache, hf | .func, fuel, cache, hf => by
    obtain ⟨m, rfl⟩ : ∃ m, fuel = m + 1 := ⟨fuel - 1, by omega⟩
    rw [zero]
    exact sizeOf_scalar h m _ 0 cache
  | .map, fuel, cache, hf => by
    obtain ⟨m, rfl⟩ : ∃ m, fuel = m + 1 := ⟨fuel - 1, by omega⟩
    rw [zero, sizeOf]
    by_cases hc : (0 : Nat) ∈ cache
    · simp [hc]
    · simp [hc, mapEntries, sumEntries]
  | .ptr, fuel, cache, hf => by
    obtain ⟨m, rfl⟩ : ∃ m, fuel = m + 1 := ⟨fuel - 1, by omega⟩
    rw [zero, sizeOf]
    by_cases hc : (0 : Nat) ∈ cache
    · simp [hc]
    · simp [hc]
  | .slice e, fuel, cache, hf => by
    obtain ⟨m, rfl⟩ : ∃ m, fuel = m + 1 := ⟨fuel - 1, by omega⟩
    rw [zero, sizeOf]
    by_cases hc : (0 : Nat) ∈ cache
    · simp [hc]
    · simp [hc, sumSizes]
  | .string, fuel, cache, hf => by
    obtain ⟨m, rfl⟩ : ∃ m, fuel = m + 1 := ⟨fuel - 1, by omega⟩
    rw [zero, sizeOf]
    by_cases hc : (0 : Nat) ∈ cache
    · simp [hc]
    · simp [hc]
  | .unsafePointer, fuel, cache, hf => by
    obtain ⟨m, rfl⟩ : ∃ m, fuel = m + 1 := ⟨fuel - 1, by omega⟩
    rfl
theorem sumSizes_zeros_isSome (h : Heap) :
    ∀ (ts : List GoType) (fuel sum : Nat) (cache : Visited), GoType.depths ts < fuel →
      (sumSizes (sizeOf h fuel) (zeros ts) sum cache).isSome
  | [], fuel, sum, cache, hf => by rw [zeros]; rfl
  | t :: ts, fuel, sum, cache, hf => by
    rw [zeros, sumSizes]
    rw [GoType.depths] at hf
    have hv := sizeOf_zero_isSome h t fuel cache (by omega)
    cases hs : sizeOf h fuel (zero t) cache with
    | none => simp [hs] at hv
    | some r =>
      cases r with
      | error e => rfl
      | ok p =>
        obtain ⟨s, cache1⟩ := p
        exact sumSizes_zeros_isSome h ts fuel _ cache1 (by omega)
end

theorem sizeOf_invalid (h : Heap) (fuel : Nat) (cache : Visited) :
    sizeOf h (fuel + 1) .invalid cache = some (.error (unknownType Kind.Invalid)) := rfl

theorem indirectValueOf_zero (h : Heap) (T : GoType) :
    indirectValueOf h (.val (zero T)) = zero T ∨
      indirectValueOf h (.val (zero T)) = .invalid := by
  cases T <;> first | (left; rfl) | (right; rfl)

theorem calcSize_isSome_of_sizeOf {h : Heap} {fuel : Nat} {v : Arg}
    (hs : (sizeOf h fuel (indirectValueOf h v) []).isSome) : (calcSize fuel h v).isSome := by
  unfold calcSize
  cases hr : sizeOf h fuel (indirectValueOf h v) [] with
  | none => simp [hr] at hs
  | some r =>
    cases r with
    | error e => rfl
    | ok p => rfl

/-- Sizing the zero value of any type finishes once the depth budget exceeds the nesting
depth of the type. -/
theorem calcSize_zero_isSome (h : Heap) (T : GoType) (fuel : Nat) (hf : T.depth < fuel) :
    (calcSize fuel h (.val (zero T))).isSome := by
  apply calcSize_isSome_of_sizeOf
  rcases indirectValueOf_zero h T with hz | hz
  · rw [hz]; exact sizeOf_zero_isSome h T fuel [] hf
  · rw [hz]
    obtain ⟨m, rfl⟩ : ∃ m, fuel = m + 1 := ⟨fuel - 1, by omega⟩
    rfl

/-- C8 (eager construction validation). For every value type `T` and every `maxBytes`, once
the depth budget covers the type, sizing the zero value of `T` finishes, and
`NewMaxBytesCache` either fails with exactly the error `calcSize` returned for the
zero value (and yields no cache), or `calcSize` succeeded and the constructor
returns a cache with empty mapping, empty order queue and limit `maxBytes`. -/
theorem NewMaxBytesCache_spec (h : Heap) (T : GoType) (maxBytes addr : Nat) :
    ∃ fuel0, ∀ fuel, fuel0 ≤ fuel →
      (∃ err, calcSize fuel h (.val (zero T)) = some (.error err) ∧
        NewMaxBytesCache fuel h T maxBytes addr = some (.error err)) ∨
      (∃ s, calcSize fuel h (.val (zero T)) = some (.ok s) ∧
        NewMaxBytesCache fuel h T maxBytes addr =
          some (.ok { T := T, dataAddr := addr, data := [], order := [],
                      maxBytes := maxBytes })) := by
  refine ⟨T.depth + 1, fun fuel hf => ?_⟩
  have hsome := calcSize_zero_isSome h T fuel (by omega)
  unfold NewMaxBytesCache
  cases hz : calcSize fuel h (.val (zero T)) with
  | none => simp [hz] at hsome
  | some r =>
    cases r with
    | error e => exact Or.inl ⟨e, rfl, rfl⟩
    | ok s => exact Or.inr ⟨s, rfl, rfl⟩

/-- Witness for C8: for the value type `int` and a limit of 100 the constructor returns the
empty cache (the zero value 0 is sized as 8 bytes); for `interface{}` it fails with the
error for the invalid kind. -/
theorem NewMaxBytesCache_spec_witness :
    (∃ fuel0, ∀ fuel, fuel0 ≤ fuel →
      (∃ err, calcSize fuel emptyHeap (.val (zero GoType.int)) = some (.error err) ∧
        NewMaxBytesCache fuel emptyHeap GoType.int 100 1 = some (.error err)) ∨
      (∃ s, calcSize fuel emptyHeap (.val (zero GoType.int)) = some (.ok s) ∧
        NewMaxBytesCache fuel emptyHeap GoType.int 100 1 =
          some (.ok { T := GoType.int, dataAddr := 1, data := [], order := [],
                      maxBytes := 100 }))) ∧
      NewMaxBytesCache 1 emptyHeap GoType.int 100 1 =
        some (.ok { T := GoType.int, dataAddr := 1, data := [], order := [], maxBytes := 100 }) ∧
      NewMaxBytesCache 1 emptyHeap GoType.interface 100 1 =
        some (.error "unknown type: invalid") :=
  ⟨NewMaxBytesCache_spec emptyHeap GoType.int 100 1, rfl, rfl⟩

/-- C9, as the claim states it, fails: for the value type `func` the constructor returns a
cache and no error, because the zero value (a nil func) is sized as 8 bytes. -/
theorem NewMaxBytesCache_func_counterexample :
    calcSize 1 emptyHeap (.val (zero GoType.func)) = some (.ok 8) ∧
      NewMaxBytesCache 1 emptyHeap GoType.func 100 1 =
        some (.ok { T := GoType.func, dataAddr := 1, data := [], order := [],
                    maxBytes := 100 }) :=
  ⟨rfl, rfl⟩

/-- C9, amended. Constructing a cache whose value type is a bare function type succeeds for
every limit: `func` is one of the fixed-width kinds of `sizeOf`, so the nil func is
sized as the width of a function reference (8 bytes) without error, and a `Set` of a
function value on that cache is sized the same way and returns. -/
theorem NewMaxBytesCache_func (fuel : Nat) (h : Heap) (maxBytes addr bits : Nat) :
    calcSize (fuel + 1) h (.val (zero GoType.func)) = some (.ok 8) ∧
      NewMaxBytesCache (fuel + 1) h GoType.func maxBytes addr =
        some (.ok { T := GoType.func, dataAddr := addr, data := [], order := [],
                    maxBytes := maxBytes }) ∧
      mustCalcSize (fuel + 1) h (.addr (.scalar GoType.func bits)) = some (.ok 8) :=
  ⟨rfl, rfl, rfl⟩

/-! ### A limit below the empty mapping, and a value that cannot be sized -/

/-! ### Map orders -/

theorem reorder_nil {α : Type} : ∀ (is : List Nat), reorder is ([] : List α) = [] := by
  intro is
  induction is with
  | nil => rfl
  | cons i is ih => simp [reorder, ih]

theorem reorder_single {α : Type} (x : α) : ∀ (is : List Nat), reorder is [x] = [x] := by
  intro is
  induction is with
  | nil => rfl
  | cons i is ih =>
    cases i with
    | zero => simp [reorder, reorder_nil]
    | succ i => simp [reorder, ih]

/-- The listing `reorder` gives holds the same entries. -/
theorem reorder_perm {α : Type} : ∀ (is : List Nat) (l : List α), (reorder is l).Perm l := by
  intro is
  induction is with
  | nil => intro l; exact List.Perm.refl l
  | cons i is ih =>
    intro l
    rw [reorder]
    cases hd : l.drop i with
    | nil => exact ih l
    | cons x rest =>
      simp only
      have hl : l = l.take i ++ x :: rest := by rw [← hd, List.take_append_drop]
      have hlen : (l.take i).length = i := by
        rw [List.length_take]
        have : i < l.length := by
          by_contra hge
          rw [List.drop_eq_nil_of_le (by omega)] at hd
          cases hd
        omega
      have he : l.eraseIdx i = l.take i ++ rest := by
        conv_lhs => rw [hl]
        rw [List.eraseIdx_append_of_length_le (by omega), hlen, Nat.sub_self]
        rfl
      rw [he]
      refine ((ih _).cons x).trans ?_
      conv_rhs => rw [hl]
      exact List.perm_middle.symm

/-- Every listing of the same entries is one that `reorder` gives. -/
theorem reorder_complete {α : Type} : ∀ (l' l : List α), l'.Perm l → ∃ is, reorder is l = l' := by
  intro l'
  induction l' with
  | nil =>
    intro l hp
    exact ⟨[], by rw [List.Perm.eq_nil hp.symm]; rfl⟩
  | cons x t ih =>
    intro l hp
    have hx : x ∈ l := hp.subset (List.mem_cons_self _ _)
    obtain ⟨l1, l2, hl⟩ := List.append_of_mem hx
    have hdrop : l.drop l1.length = x :: l2 := by
      rw [hl, List.drop_left]
    have herase : l.eraseIdx l1.length = l1 ++ l2 := by
      rw [hl, List.eraseIdx_append_of_length_le (le_refl _), Nat.sub_self]
      rfl
    have hperm : t.Perm (l1 ++ l2) := by
      rw [hl] at hp
      exact (List.perm_cons x).mp (hp.trans List.perm_middle)
    obtain ⟨is, his⟩ := ih _ hperm
    refine ⟨l1.length :: is, ?_⟩
    rw [reorder, hdrop]
    simp only
    rw [herase, his]

/-- A heap whose maps hold at most one entry each looks the same in every order. -/
theorem inOrder_of_small (h : Heap) (o : KeyOrder) (hs : ∀ a, (h.entries a).length ≤ 1) :
    h.inOrder o = h := by
  unfold Heap.inOrder
  have : (fun a => reorder (o a) (h.entries a)) = h.entries := by
    funext a
    have := hs a
    cases he : h.entries a with
    | nil => exact reorder_nil _
    | cons x rest =>
      cases rest with
      | nil => exact reorder_single x _
      | cons y rest => rw [he] at this; simp at this
  rw [this]

theorem inOrder_storage (h : Heap) : h.inOrder (fun _ => []) = h := rfl

theorem shift_of_order_nil (c : MaxBytesCache) (ho : c.order = []) : c.shift = (none, c) := by
  unfold MaxBytesCache.shift MaxBytesCache.shiftKey
  rw [ho]

theorem dataSize_empty (fuel : Nat) (h : Heap) (o : KeyOrder) (c : MaxBytesCache)
    (hd : c.data = []) :
    c.dataSize fuel h o = none ∨ c.dataSize fuel h o = some (.ok 8) := by
  cases fuel with
  | zero => left; rfl
  | succ m =>
    right
    have he : mapEntries ((c.heap h).inOrder o) c.dataAddr = [] := by
      unfold mapEntries Heap.inOrder MaxBytesCache.heap
      by_cases h0 : c.dataAddr = 0
      · simp [h0]
      · simp [h0, hd, reorder_nil]
    unfold MaxBytesCache.dataSize mustCalcSize calcSize
    simp only [indirectValueOf, Indirect, sizeOf, Heap.MapKeys, he, sumEntries, List.map_nil]
    rfl

/-- With an empty queue, an empty mapping and a limit below 8 the eviction loop never exits. -/
theorem freeLoop_empty_diverges (fuel : Nat) (h : Heap) (os : Orders) (c : MaxBytesCache)
    (hd : c.data = []) (ho : c.order = []) (hm : c.maxBytes < 8) :
    ∀ n i count, MaxBytesCache.freeLoop fuel h os n i c count = none := by
  intro n
  induction n with
  | zero => intro i count; rfl
  | succ n ih =>
    intro i count
    rw [MaxBytesCache.freeLoop]
    unfold MaxBytesCache.maxBytesExceeded
    rcases dataSize_empty fuel h (os.check i) c hd with hs | hs
    · rw [hs]
    · rw [hs]
      have : decide (8 > c.maxBytes) = true := by simpa using hm
      simp only [this, shift_of_order_nil c ho]
      exact ih (i + 1) count

theorem dataSize_congr (fuel : Nat) (h : Heap) (o : KeyOrder) (c d : MaxBytesCache)
    (h1 : c.dataAddr = d.dataAddr) (h2 : c.data = d.data) :
    c.dataSize fuel h o = d.dataSize fuel h o := by
  unfold MaxBytesCache.dataSize MaxBytesCache.heap
  rw [h1, h2]

/-- A mapping with at most one entry, over a heap without maps, has one estimate. -/
theorem dataSize_of_small (fuel : Nat) (o : KeyOrder) (c : MaxBytesCache)
    (hd : c.data.length ≤ 1) :
    c.dataSize fuel emptyHeap o = c.dataSize fuel emptyHeap (fun _ => []) := by
  unfold MaxBytesCache.dataSize
  rw [inOrder_of_small (c.heap emptyHeap) o, inOrder_storage]
  intro a
  unfold MaxBytesCache.heap emptyHeap
  by_cases ha : a = c.dataAddr
  · simpa [ha] using hd
  · simp [ha]

theorem freeLoop_one_entry_diverges (n m maxBytes : Nat) (os : Orders) (hm : maxBytes < 8) :
    MaxBytesCache.freeLoop (m + 2) emptyHeap os n 0
      (MaxBytesCache.mk .int 1 [(⟨10, "a"⟩, .scalar .int 1)] [⟨10, "a"⟩] maxBytes) 0 = none ∧
    ∀ o, (MaxBytesCache.mk .int 1 [(⟨10, "a"⟩, .scalar .int 1)] [⟨10, "a"⟩]
      maxBytes).maxBytesExceeded (m + 2) emptyHeap o = some (.ok true) := by
  have hs : ∀ o, (MaxBytesCache.mk .int 1 [(⟨10, "a"⟩, .scalar .int 1)] [⟨10, "a"⟩]
      maxBytes).dataSize (m + 2) emptyHeap o = some (.ok 43) := by
    intro o
    rw [dataSize_of_small _ o _ (by simp)]
    exact (dataSize_congr (m + 2) emptyHeap _ _
      (MaxBytesCache.mk .int 1 [(⟨10, "a"⟩, .scalar .int 1)] [⟨10, "a"⟩] 0) rfl rfl).trans rfl
  have hd : decide (43 > maxBytes) = true := by simp; omega
  have hex : ∀ o, (MaxBytesCache.mk .int 1 [(⟨10, "a"⟩, .scalar .int 1)] [⟨10, "a"⟩]
      maxBytes).maxBytesExceeded (m + 2) emptyHeap o = some (.ok true) := by
    intro o
    unfold MaxBytesCache.maxBytesExceeded
    rw [hs o]
    simp only [hd]
  refine ⟨?_, hex⟩
  cases n with
  | zero => rfl
  | succ n =>
    rw [MaxBytesCache.freeLoop, hex]
    have hsh : (MaxBytesCache.mk .int 1 [(⟨10, "a"⟩, .scalar .int 1)] [⟨10, "a"⟩]
        maxBytes).shift =
        (some (.scalar .int 1), MaxBytesCache.mk .int 1 [] [] maxBytes) := rfl
    have hv : mustCalcSize (m + 2)
        (((MaxBytesCache.mk .int 1 [] [] maxBytes).heap emptyHeap).inOrder (os.own 0))
        (.addr (.scalar .int 1)) = some (.ok 8) := rfl
    simp only [hsh, hv]
    exact freeLoop_empty_diverges (m + 2) emptyHeap os _ rfl rfl hm n _ _

theorem Set_of_exceeded (c : MaxBytesCache) (key : GoString) (value : Value) (n fuel : Nat)
    (h : Heap) (os : Orders)
    (hex : (c.stored key value).maxBytesExceeded fuel h os.first = some (.ok true)) :
    c.Set n fuel h os key value =
      MaxBytesCache.freeLoop fuel h os n 0 (c.stored key value) 0 := by
  unfold MaxBytesCache.Set
  rw [hex]
  rfl

/-- C4 at a failing input. A cache of `int` whose limit is below 8 bytes (the estimate of the
empty mapping): `Set("a", 1)` on the fresh cache does not return, whatever the budgets
and the map orders; the loop pops "a", then spins on the empty queue with the budget
still exceeded. -/
theorem Set_never_returns_below_empty_size (n fuel maxBytes : Nat) (os : Orders)
    (hm : maxBytes < 8) :
    (MaxBytesCache.mk .int 1 [] [] maxBytes).Set n fuel emptyHeap os ⟨10, "a"⟩ (.scalar .int 1)
      = none := by
  match fuel with
  | 0 => rfl
  | 1 =>
    unfold MaxBytesCache.Set MaxBytesCache.maxBytesExceeded
    rw [dataSize_of_small _ os.first _ (by simp [MaxBytesCache.stored, mapAssign])]
    rfl
  | m + 2 =>
    have hst : (MaxBytesCache.mk .int 1 [] [] maxBytes).stored ⟨10, "a"⟩ (.scalar .int 1) =
        MaxBytesCache.mk .int 1 [(⟨10, "a"⟩, .scalar .int 1)] [⟨10, "a"⟩] maxBytes := rfl
    obtain ⟨h1, h2⟩ := freeLoop_one_entry_diverges n m maxBytes os hm
    rw [← hst] at h1 h2
    rw [Set_of_exceeded _ _ _ _ _ _ _ (h2 os.first)]
    exact h1

/-- Witness for C4's failing input: limit 0. -/
theorem Set_never_returns_witness :
    (MaxBytesCache.mk .int 1 [] [] 0).Set 1000 10 emptyHeap storageOrders ⟨10, "a"⟩
      (.scalar .int 1) = none :=
  Set_never_returns_below_empty_size 1000 10 0 storageOrders (by decide)

/-- C10 at a failing input. For the value type `[]interface{}` construction succeeds (the zero
value is the nil slice), and `Set("k", []interface{}{nil})` then panics inside
`mustCalcSize` with the error for the invalid kind, whatever the map orders. -/
theorem Set_panics_on_nil_interface_element (os : Orders) :
    NewMaxBytesCache 1 nilElemHeap (.slice GoType.interface.size) 1000 1 =
        some (.ok { T := .slice GoType.interface.size, dataAddr := 1, data := [], order := [],
                    maxBytes := 1000 }) ∧
      (MaxBytesCache.mk (.slice GoType.interface.size) 1 [] [] 1000).Set 5 4 nilElemHeap os
          ⟨10, "k"⟩ (.slice GoType.interface.size 100 1 1) =
        some (.error "unknown type: invalid") := by
  refine ⟨rfl, ?_⟩
  unfold MaxBytesCache.Set MaxBytesCache.maxBytesExceeded MaxBytesCache.dataSize
  rw [inOrder_of_small _ os.first]
  · rfl
  · intro a
    unfold MaxBytesCache.heap nilElemHeap MaxBytesCache.stored
    by_cases ha : a = 1
    · simp [ha, mapAssign]
    · simp [ha]

/-! ### The mapping -/

theorem mapIndex_mapAssign_self (d : List (GoString × Value)) (key : GoString) (value : Value) :
    mapIndex (mapAssign d key value) key = some value := by
  induction d with
  | nil => simp [mapAssign, mapIndex]
  | cons e rest ih =>
    obtain ⟨k, v⟩ := e
    by_cases hk : k.val = key.val
    · simp [mapAssign, mapIndex, hk]
    · simp [mapAssign, mapIndex, hk, ih]

theorem mapIndex_mapAssign_other (d : List (GoString × Value)) (key : GoString) (value : Value)
    (k : GoString) (hk : k.val ≠ key.val) :
    mapIndex (mapAssign d key value) k = mapIndex d k := by
  induction d with
  | nil => simp [mapAssign, mapIndex, Ne.symm hk]
  | cons e rest ih =>
    obtain ⟨k1, v1⟩ := e
    by_cases h1 : k1.val = key.val
    · have h2 : ¬ k1.val = k.val := fun h => hk (h.symm.trans h1)
      simp [mapAssign, mapIndex, h1, h2, Ne.symm hk]
    · by_cases h2 : k1.val = k.val
      · simp [mapAssign, mapIndex, h2, hk]
      · simp [mapAssign, mapIndex, h1, h2, ih]

theorem mapIndex_eq_none_iff (d : List (GoString × Value)) (k : GoString) :
    mapIndex d k = none ↔ k.val ∉ keysOf d := by
  induction d with
  | nil => simp [mapIndex, keysOf]
  | cons e rest ih =>
    obtain ⟨k1, v1⟩ := e
    by_cases h1 : k1.val = k.val
    · simp [mapIndex, keysOf, h1]
    · have h2 : ¬ k.val = k1.val := fun h => h1 h.symm
      simpa [mapIndex, keysOf, h1, h2] using ih

theorem mapDelete_eq_filter (d : List (GoString × Value)) (key : GoString) :
    mapDelete d key = d.filter (fun e => decide (e.1.val ≠ key.val)) := by
  induction d with
  | nil => rfl
  | cons e rest ih =>
    obtain ⟨k1, v1⟩ := e
    by_cases h1 : k1.val = key.val
    · simp [mapDelete, h1, ih]
    · simp [mapDelete, h1, ih]

theorem mapIndex_filter (P : String → Bool) (d : List (GoString × Value)) (k : GoString) :
    mapIndex (d.filter (fun e => P e.1.val)) k = if P k.val then mapIndex d k else none := by
  induction d with
  | nil => simp [mapIndex]
  | cons e rest ih =>
    obtain ⟨k1, v1⟩ := e
    by_cases h1 : k1.val = k.val
    · by_cases hp : P k.val = true
      · have hp1 : P k1.val = true := by rw [h1]; exact hp
        simp [List.filter, hp1, mapIndex, h1, hp]
      · have hp1 : P k1.val = false := by rw [h1]; simpa using hp
        simp only [List.filter, hp1, ih]
        simp [hp]
    · by_cases hp1 : P k1.val = true
      · simp [List.filter, hp1, mapIndex, h1, ih]
      · have hp1' : P k1.val = false := by simpa using hp1
        simp only [List.filter, hp1', ih, mapIndex, h1, if_false]

theorem keysOf_mapAssign (d : List (GoString × Value)) (key : GoString) (value : Value)
    (k : String) (hk : k ∈ keysOf (mapAssign d key value)) : k ∈ keysOf d ∨ k = key.val := by
  induction d with
  | nil => right; simpa [mapAssign, keysOf] using hk
  | cons e rest ih =>
    obtain ⟨k1, v1⟩ := e
    by_cases h1 : k1.val = key.val
    · simp only [mapAssign, h1, if_true, keysOf, List.map_cons, List.mem_cons] at hk
      rcases hk with hk | hk
      · right; exact hk
      · left; simp only [keysOf, List.map_cons, List.mem_cons]; right; exact hk
    · simp only [mapAssign, h1, if_false, keysOf, List.map_cons, List.mem_cons] at hk
      rcases hk with hk | hk
      · left; simp [keysOf, hk]
      · rcases ih hk with h2 | h2
        · left; simp only [keysOf, List.map_cons, List.mem_cons]; right; exact h2
        · right; exact h2

theorem mapAssign_new (d : List (GoString × Value)) (key : GoString) (value : Value)
    (hk : key.val ∉ keysOf d) : mapAssign d key value = d ++ [(key, value)] := by
  induction d with
  | nil => rfl
  | cons e rest ih =>
    obtain ⟨k1, v1⟩ := e
    have h1 : ¬ k1.val = key.val := fun h => hk (by simp [keysOf, h])
    have h2 : key.val ∉ keysOf rest := fun h => hk (by
      simp only [keysOf, List.map_cons, List.mem_cons]; right; exact h)
    simp [mapAssign, h1, ih h2]

/-! ### The order queue and the mapping along the eviction loop -/

theorem shiftN_T (j : Nat) : ∀ c : MaxBytesCache, (c.shiftN j).T = c.T := by
  induction j with
  | zero => intro c; rfl
  | succ j ih =>
    intro c
    rw [MaxBytesCache.shiftN, ih, shift_eq]
    cases c.order <;> rfl

/-- After `j` pops the mapping holds the entries whose key is not among the popped keys. -/
theorem shiftN_data (j : Nat) : ∀ c : MaxBytesCache,
    (c.shiftN j).data =
      c.data.filter (fun e => decide (e.1.val ∉ (c.order.take j).map (fun s => s.val))) := by
  induction j with
  | zero => intro c; simp [MaxBytesCache.shiftN]
  | succ j ih =>
    intro c
    rw [MaxBytesCache.shiftN, ih, shift_eq]
    cases hq : c.order with
    | nil => simp [hq]
    | cons key rest =>
      simp only [List.take_succ_cons, List.map_cons, List.mem_cons, not_or, mapDelete_eq_filter,
        List.filter_filter]
      apply List.filter_congr
      intro e _
      by_cases h1 : e.1.val = key.val <;> simp [h1]

theorem mapIndex_shiftN_none (j : Nat) (c : MaxBytesCache) (k : GoString)
    (hk : mapIndex c.data k = none) : mapIndex (c.shiftN j).data k = none := by
  rw [shiftN_data]
  rw [mapIndex_filter (fun s => decide (s ∉ (c.order.take j).map (fun s => s.val)))]
  simp [hk]

theorem keysOf_mapAssign_nodup (d : List (GoString × Value)) (key : GoString) (value : Value)
    (hnd : (keysOf d).Nodup) : (keysOf (mapAssign d key value)).Nodup := by
  induction d with
  | nil => simp [mapAssign, keysOf]
  | cons e rest ih =>
    obtain ⟨k1, v1⟩ := e
    simp only [keysOf, List.map_cons, List.nodup_cons] at hnd
    by_cases h1 : k1.val = key.val
    · simp only [mapAssign, h1, if_true, keysOf, List.map_cons, List.nodup_cons]
      exact ⟨h1 ▸ hnd.1, hnd.2⟩
    · simp only [mapAssign, h1, if_false, keysOf, List.map_cons, List.nodup_cons]
      refine ⟨fun hmem => ?_, ih hnd.2⟩
      rcases keysOf_mapAssign rest key value k1.val hmem with h2 | h2
      · exact hnd.1 h2
      · exact h1 h2

/-! ### Get, and Set without eviction -/

theorem Set_frame (n fuel : Nat) (h : Heap) (os : Orders) (c : MaxBytesCache)
    (key : GoString) (value : Value) (cnt : Nat) (c' : MaxBytesCache)
    (hset : c.Set n fuel h os key value = some (.ok (cnt, c'))) :
    c'.T = c.T ∧
      ∀ k : GoString, k.val ≠ key.val → mapIndex c.data k = none → mapIndex c'.data k = none := by
  obtain ⟨j, -, hc', -, -, -, -⟩ := Set_trace n fuel h os c key value cnt c' hset
  subst hc'
  refine ⟨by rw [shiftN_T]; rfl, fun k hk hnone => ?_⟩
  apply mapIndex_shiftN_none
  show mapIndex (mapAssign c.data key value) k = none
  rw [mapIndex_mapAssign_other _ _ _ _ hk]
  exact hnone

theorem runSets_frame : ∀ (calls : List SetCall) (c c' : MaxBytesCache),
    runSets c calls = some (.ok c') →
    c'.T = c.T ∧ ∀ k : GoString, (∀ call, call ∈ calls → call.key.val ≠ k.val) →
      mapIndex c.data k = none → mapIndex c'.data k = none := by
  intro calls
  induction calls with
  | nil =>
    intro c c' hrun
    simp only [runSets] at hrun
    injection hrun with hrun
    injection hrun with hrun
    subst hrun
    exact ⟨rfl, fun _ _ hk => hk⟩
  | cons call calls ih =>
    intro c c' hrun
    rw [runSets] at hrun
    cases hs : c.Set call.n call.fuel call.heap call.orders call.key call.value with
    | none => simp [hs] at hrun
    | some r =>
      cases r with
      | error e => simp [hs] at hrun
      | ok p =>
        obtain ⟨cnt, c1⟩ := p
        simp only [hs] at hrun
        obtain ⟨hT, hfr⟩ := Set_frame _ _ _ _ _ _ _ _ _ hs
        obtain ⟨hT1, hfr1⟩ := ih c1 c' hrun
        refine ⟨hT1.trans hT, fun k hk hnone => ?_⟩
        apply hfr1 k (fun call1 hc => hk call1 (List.mem_cons_of_mem _ hc))
        exact hfr k (fun heq => hk call (List.mem_cons_self _ _) heq.symm) hnone

/-- C6 (Get). For every cache state and key, `Get` leaves the cache (mapping, order queue,
limit) as it was; it returns the value mapped to the key when there is one and the zero
value of `T` when the key is absent, in particular for a key that no `Set` call since
the creation of the cache has used; a second `Get` returns the same value. The result
type of `Get` has no error case. -/
theorem Get_spec (c : MaxBytesCache) (key : GoString) :
    (c.Get key).2 = c ∧
      (∀ v, mapIndex c.data key = some v → (c.Get key).1 = v) ∧
      (mapIndex c.data key = none → (c.Get key).1 = zero c.T) ∧
      ((c.Get key).2.Get key).1 = (c.Get key).1 ∧
      (∀ c0 calls, c0.data = [] → runSets c0 calls = some (.ok c) →
        (∀ call, call ∈ calls → call.key.val ≠ key.val) → (c.Get key).1 = zero c0.T) := by
  refine ⟨rfl, fun v hv => ?_, fun hn => ?_, rfl, fun c0 calls h0 hrun hk => ?_⟩
  · simp [MaxBytesCache.Get, hv]
  · simp [MaxBytesCache.Get, hn]
  · obtain ⟨hT, hfr⟩ := runSets_frame calls c0 c hrun
    have hn : mapIndex c.data key = none := hfr key hk (by rw [h0]; rfl)
    simp [MaxBytesCache.Get, hn, hT]

/-- Witness for C6: in the cache holding "b" and "c", `Get("b")` returns 2 and `Get("a")`
(evicted, hence absent) returns the zero value 0. -/
theorem Get_spec_witness :
    ((MaxBytesCache.mk .int 1 [(⟨11, "b"⟩, .scalar .int 2), (⟨12, "c"⟩, .scalar .int 3)]
        [⟨11, "b"⟩, ⟨12, "c"⟩] 100).Get ⟨20, "b"⟩).1 = .scalar .int 2 ∧
      ((MaxBytesCache.mk .int 1 [(⟨11, "b"⟩, .scalar .int 2), (⟨12, "c"⟩, .scalar .int 3)]
        [⟨11, "b"⟩, ⟨12, "c"⟩] 100).Get ⟨21, "a"⟩).1 = .scalar .int 0 :=
  ⟨(Get_spec _ ⟨20, "b"⟩).2.1 _ (by rfl), (Get_spec _ ⟨21, "a"⟩).2.2.1 (by rfl)⟩

/-- C7 (Set without eviction). If the estimated size of the mapping right after the store,
as `Set` takes it (one walk of the map, in whatever order that walk lists the keys), is
at most `maxBytes`, then `Set(key, value)` returns 0; in the resulting cache the key is
mapped to the value, every other key is mapped as before, the order queue is the old
queue with the key appended, and `Get(key)` returns the value. -/
theorem Set_no_eviction (n fuel : Nat) (h : Heap) (os : Orders) (c : MaxBytesCache)
    (key : GoString) (value : Value) (s : Nat)
    (hsize : (c.stored key value).dataSize fuel h os.first = some (.ok s))
    (hle : s ≤ c.maxBytes) :
    ∃ c', c.Set n fuel h os key value = some (.ok (0, c')) ∧
      c'.order = c.order ++ [key] ∧ c'.maxBytes = c.maxBytes ∧ c'.T = c.T ∧
      mapIndex c'.data key = some value ∧
      (∀ k : GoString, k.val ≠ key.val → mapIndex c'.data k = mapIndex c.data k) ∧
      (c'.Get key).1 = value := by
  refine ⟨c.stored key value, ?_, rfl, rfl, rfl, mapIndex_mapAssign_self _ _ _,
    fun k hk => mapIndex_mapAssign_other _ _ _ _ hk, ?_⟩
  · unfold MaxBytesCache.Set MaxBytesCache.maxBytesExceeded
    rw [hsize]
    have : decide (s > (c.stored key value).maxBytes) = false := by
      simpa [MaxBytesCache.stored] using hle
    simp only [this]
  · simp [MaxBytesCache.Get, MaxBytesCache.stored, mapIndex_mapAssign_self]

/-- Witness for C7: a cache of strings with limit 100 that holds "a" ↦ `s[:1]`; `Set("b", s)`
walks the map "a" first, gets an estimate of 96 bytes and evicts nothing. (Had the walk
listed "b" first, the estimate would have been 135 bytes and the call would have evicted
"a", 17 bytes.) -/
theorem Set_no_eviction_witness :
    (∃ c', (MaxBytesCache.mk .string 1 [(⟨10, "a"⟩, .string ⟨200, "a"⟩)] [⟨10, "a"⟩] 100).Set
        5 3 emptyHeap storageOrders ⟨11, "b"⟩ (.string ⟨200, long40⟩) = some (.ok (0, c')) ∧
      c'.order = [⟨10, "a"⟩] ++ [⟨11, "b"⟩] ∧ c'.maxBytes = 100 ∧ c'.T = .string ∧
      mapIndex c'.data ⟨11, "b"⟩ = some (.string ⟨200, long40⟩) ∧
      (∀ k : GoString, k.val ≠ "b" →
        mapIndex c'.data k = mapIndex [(⟨10, "a"⟩, .string ⟨200, "a"⟩)] k) ∧
      (c'.Get ⟨11, "b"⟩).1 = .string ⟨200, long40⟩) ∧
    (MaxBytesCache.mk .string 1 [(⟨10, "a"⟩, .string ⟨200, "a"⟩)] [⟨10, "a"⟩] 100).Set
        5 3 emptyHeap ⟨secondFirst, fun _ => secondFirst, fun _ => secondFirst⟩ ⟨11, "b"⟩
        (.string ⟨200, long40⟩) =
      some (.ok (17, ⟨.string, 1, [(⟨11, "b"⟩, .string ⟨200, long40⟩)], [⟨11, "b"⟩], 100⟩)) :=
  ⟨Set_no_eviction 5 3 emptyHeap storageOrders
    (MaxBytesCache.mk .string 1 [(⟨10, "a"⟩, .string ⟨200, "a"⟩)] [⟨10, "a"⟩] 100)
    ⟨11, "b"⟩ (.string ⟨200, long40⟩) 96 (by rfl) (by decide), by rfl⟩

/-! ### Eviction accounting -/

theorem filter_split_perm {α : Type} (p q : α → Bool) (l : List α) :
    (l.filter (fun a => p a || q a)).Perm
      (l.filter p ++ (l.filter (fun a => !p a)).filter q) := by
  induction l with
  | nil => simp
  | cons a l ih =>
    by_cases hp : p a = true
    · simp only [List.filter, hp, Bool.true_or, Bool.not_true, List.cons_append]
      exact List.Perm.cons a ih
    · have hp' : p a = false := by simpa using hp
      by_cases hq : q a = true
      · simp only [List.filter, hp', hq, Bool.or_true, Bool.not_false]
        exact (List.Perm.cons a ih).trans List.perm_middle.symm
      · have hq' : q a = false := by simpa using hq
        simp only [List.filter, hp', hq', Bool.or_false, Bool.not_false]
        exact ih

theorem filter_key_values (d : List (GoString × Value)) (key : GoString)
    (hnd : (keysOf d).Nodup) :
    (d.filter (fun e => decide (e.1.val = key.val))).map (fun e => e.2) =
      (mapIndex d key).toList := by
  induction d with
  | nil => rfl
  | cons e rest ih =>
    obtain ⟨k1, v1⟩ := e
    simp only [keysOf, List.map_cons, List.nodup_cons] at hnd
    by_cases h1 : k1.val = key.val
    · have hnot : ∀ e, e ∈ rest → ¬ e.1.val = key.val := by
        intro e he heq
        apply hnd.1
        rw [h1, ← heq]
        exact List.mem_map_of_mem (fun e => e.1.val) he
      have hnil : rest.filter (fun e => decide (e.1.val = key.val)) = [] := by
        rw [List.filter_eq_nil_iff]
        intro e he
        simpa using hnot e he
      simp [List.filter, h1, mapIndex, hnil]
    · simp only [List.filter, h1, decide_False, mapIndex, if_false]
      exact ih hnd.2

theorem keysOf_mapDelete_nodup (d : List (GoString × Value)) (key : GoString)
    (hnd : (keysOf d).Nodup) : (keysOf (mapDelete d key)).Nodup := by
  rw [mapDelete_eq_filter]
  exact hnd.sublist (List.Sublist.map _ (List.filter_sublist d))

/-- The values deleted by the first `j` pops are the values of the entries whose key is among
the popped keys. -/
theorem removed_perm (j : Nat) : ∀ (i : Nat) (c : MaxBytesCache), (keysOf c.data).Nodup →
    ((c.removedFrom i j).map (fun r => r.2.1)).Perm
      ((c.data.filter (fun e => decide (e.1.val ∈ (c.order.take j).map (fun s => s.val)))).map
        (fun e => e.2)) := by
  induction j with
  | zero => intro i c _; simp [MaxBytesCache.removedFrom]
  | succ j ih =>
    intro i c hnd
    rw [MaxBytesCache.removedFrom]
    cases hq : c.order with
    | nil => simp
    | cons key rest =>
      have ih1 := ih (i + 1) { c with data := mapDelete c.data key, order := rest }
        (keysOf_mapDelete_nodup c.data key hnd)
      simp only [mapDelete_eq_filter] at ih1
      have hsplit := (filter_split_perm (fun e : GoString × Value => decide (e.1.val = key.val))
        (fun e => decide (e.1.val ∈ (rest.take j).map (fun s => s.val))) c.data).map
        (fun e => e.2)
      have hfun : (fun e : GoString × Value =>
            decide (e.1.val ∈ ((key :: rest).take (j + 1)).map (fun s => s.val))) =
          (fun e => decide (e.1.val = key.val) ||
            decide (e.1.val ∈ (rest.take j).map (fun s => s.val))) := by
        funext e
        simp [List.take_succ_cons]
      have hneg : (fun e : GoString × Value => !decide (e.1.val = key.val)) =
          (fun e => decide (e.1.val ≠ key.val)) := by
        funext e
        simp
      rw [hfun]
      refine List.Perm.trans ?_ hsplit.symm
      rw [List.map_append, filter_key_values c.data key hnd, hneg]
      simp only [mapDelete_eq_filter]
      cases hm : mapIndex c.data key with
      | none => simpa using ih1
      | some t => simpa using ih1

/-- C3 (eviction accounting). When `Set(key, value)` returns, the returned count is the sum,
in `uint64` arithmetic, of the sizes `mustCalcSize` gives for each value deleted from the
mapping during the call, each sized on its own (in the map order of that sizing call); a
popped key that was no longer in the mapping adds nothing. The deleted values are exactly
the values of the entries that were in the mapping after the store and are not in it
when `Set` returns. -/
theorem Set_evicted_bytes (n fuel : Nat) (h : Heap) (os : Orders) (c : MaxBytesCache)
    (key : GoString) (value : Value) (cnt : Nat) (c' : MaxBytesCache)
    (hnd : (keysOf c.data).Nodup)
    (hset : c.Set n fuel h os key value = some (.ok (cnt, c'))) :
    ∃ j sizes, c' = (c.stored key value).shiftN j ∧
      List.Forall₂
        (fun r s => mustCalcSize fuel ((r.2.2.heap h).inOrder (os.own r.1)) (.addr r.2.1)
          = some (.ok s))
        ((c.stored key value).removed j) sizes ∧
      cnt = sizes.sum % 2 ^ 64 ∧
      (sizes.sum < 2 ^ 64 → cnt = sizes.sum) ∧
      (((c.stored key value).removed j).map (fun r => r.2.1)).Perm
        (((c.stored key value).data.filter
          (fun e => (mapIndex c'.data e.1).isNone)).map (fun e => e.2)) := by
  obtain ⟨j, -, hc', -, -, -, sizes, hsz, hsum⟩ :=
    Set_trace n fuel h os c key value cnt c' hset
  refine ⟨j, sizes, hc', hsz, hsum, fun hlt => by rw [hsum, Nat.mod_eq_of_lt hlt], ?_⟩
  have hnd1 : (keysOf (c.stored key value).data).Nodup := by
    show (keysOf (mapAssign c.data key value)).Nodup
    exact keysOf_mapAssign_nodup c.data key value hnd
  refine (removed_perm j 0 _ hnd1).trans ?_
  have hfil : (c.stored key value).data.filter
        (fun e => decide (e.1.val ∈ ((c.stored key value).order.take j).map (fun s => s.val))) =
      (c.stored key value).data.filter (fun e => (mapIndex c'.data e.1).isNone) := by
    apply List.filter_congr
    intro e he
    rw [hc', shiftN_data,
      mapIndex_filter (fun s => decide (s ∉ ((c.stored key value).order.take j).map
        (fun s => s.val)))]
    have hin : mapIndex (c.stored key value).data e.1 ≠ none := by
      rw [Ne, mapIndex_eq_none_iff, not_not]
      exact List.mem_map_of_mem (fun e => e.1.val) he
    by_cases hp : e.1.val ∈ ((c.stored key value).order.take j).map (fun s => s.val)
    · simp only [hp, not_true_eq_false, decide_True, decide_False, Bool.false_eq_true,
        if_false, Option.isNone_none]
    · cases hm : mapIndex (c.stored key value).data e.1 with
      | none => exact absurd hm hin
      | some v =>
        simp only [hp, not_false_eq_true, decide_True, decide_False, if_true,
          Option.isNone_some]
  rw [hfil]

/-! ### First in, first out -/

theorem filter_taken_eq_drop : ∀ (d : List (GoString × Value)) (i : Nat), (keysOf d).Nodup →
    d.filter (fun e => decide (e.1.val ∉ ((d.map (fun e => e.1)).take i).map (fun s => s.val)))
      = d.drop i := by
  intro d
  induction d with
  | nil => intro i _; simp
  | cons e rest ih =>
    intro i hnd
    cases i with
    | zero => simp
    | succ i =>
      simp only [keysOf, List.map_cons, List.nodup_cons] at hnd
      have hhead : decide (e.1.val ∉ (((e :: rest).map (fun e => e.1)).take (i + 1)).map
          (fun s => s.val)) = false := by
        simp
      rw [List.filter_cons_of_neg (by rw [hhead]; exact Bool.false_ne_true), List.drop_succ_cons,
        ← ih i hnd.2]
      apply List.filter_congr
      intro x hx
      have hne : x.1.val ≠ e.1.val := by
        intro heq
        apply hnd.1
        rw [← heq]
        exact List.mem_map_of_mem (fun e => e.1.val) hx
      simp [hne]

/-- When the queue lists the keys of the mapping in order, without repetition, `i` pops
delete the `i` oldest entries. -/
theorem shiftN_drop (i : Nat) (c : MaxBytesCache) (ho : c.order = c.data.map (fun e => e.1))
    (hnd : (keysOf c.data).Nodup) :
    (c.shiftN i).data = c.data.drop i ∧ (c.shiftN i).order = c.order.drop i := by
  refine ⟨?_, shiftN_order i c⟩
  rw [shiftN_data, ho]
  exact filter_taken_eq_drop c.data i hnd

theorem fifo_of_drop (B : List (GoString × Value)) (j : Nat) (hnd : (keysOf B).Nodup) :
    Fifo B (B.drop j) := by
  intro l1 a l2 b l3 hB hb
  rw [mapIndex_eq_none_iff] at hb ⊢
  have hB' : B = (l1 ++ a :: l2) ++ b :: l3 := by rw [hB]; simp
  rw [hB', List.drop_append_eq_append_drop] at hb ⊢
  by_cases hj : j ≤ (l1 ++ a :: l2).length
  · exfalso
    apply hb
    have : j - (l1 ++ a :: l2).length = 0 := by omega
    rw [this]
    simp [keysOf]
  · have hnil : (l1 ++ a :: l2).drop j = [] := List.drop_eq_nil_of_le (by omega)
    rw [hnil, List.nil_append]
    intro hmem
    have hsub : keysOf ((b :: l3).drop (j - (l1 ++ a :: l2).length)) ⊆ keysOf (b :: l3) :=
      fun x hx => (List.Sublist.map _ (List.drop_sublist _ _)).subset hx
    have h2 := hsub hmem
    rw [hB', keysOf, List.map_append, List.nodup_append] at hnd
    exact hnd.2.2 (by simp) h2

/-- The invariant of a run that stores no key the mapping holds: the mapping holds the most
recent of the entries stored so far, in the order they were stored, and the queue lists
their keys. -/
theorem Set_distinct_step (L : List (GoString × Value)) (k : Nat) (hk : k ≤ L.length)
    (c : MaxBytesCache) (key : GoString) (value : Value)
    (hdata : c.data = L.drop k) (horder : c.order = (L.map (fun e => e.1)).drop k)
    (hnd : (keysOf ((L ++ [(key, value)]).drop k)).Nodup) (i : Nat) :
    ((c.stored key value).shiftN i).data = (L ++ [(key, value)]).drop (k + i) ∧
      ((c.stored key value).shiftN i).order =
        ((L ++ [(key, value)]).map (fun e => e.1)).drop (k + i) := by
  have hnew : key.val ∉ keysOf c.data := by
    rw [hdata]
    intro hmem
    rw [List.drop_append_of_le_length hk, keysOf, List.map_append, List.nodup_append] at hnd
    exact hnd.2.2 hmem (by simp)
  have hd1 : (c.stored key value).data = (L ++ [(key, value)]).drop k := by
    show mapAssign c.data key value = _
    rw [mapAssign_new c.data key value hnew, hdata, List.drop_append_of_le_length hk]
  have ho1 : (c.stored key value).order = ((L ++ [(key, value)]).map (fun e => e.1)).drop k := by
    show c.order ++ [key] = _
    rw [horder, List.map_append, List.drop_append_of_le_length (by simpa using hk)]
    rfl
  have hnd1 : (keysOf (c.stored key value).data).Nodup := by
    rw [hd1]
    exact hnd
  have hod : (c.stored key value).order = (c.stored key value).data.map (fun e => e.1) := by
    rw [hd1, ho1, List.map_drop]
  obtain ⟨h1, h2⟩ := shiftN_drop i (c.stored key value) hod hnd1
  rw [h1, h2, hd1, ho1, List.drop_drop, List.drop_drop]
  exact ⟨rfl, rfl⟩

theorem runSets_distinct_inv : ∀ (calls : List SetCall) (L : List (GoString × Value))
    (c c' : MaxBytesCache),
    (∃ k, k ≤ L.length ∧ c.data = L.drop k ∧ c.order = (L.map (fun e => e.1)).drop k) →
    (keysOf (L ++ entriesOf calls)).Nodup →
    runSets c calls = some (.ok c') →
    ∃ k, k ≤ (L ++ entriesOf calls).length ∧ c'.data = (L ++ entriesOf calls).drop k ∧
      c'.order = ((L ++ entriesOf calls).map (fun e => e.1)).drop k := by
  intro calls
  induction calls with
  | nil =>
    intro L c c' hinv _ hrun
    simp only [runSets] at hrun
    injection hrun with hrun
    injection hrun with hrun
    subst hrun
    simpa [entriesOf] using hinv
  | cons call calls ih =>
    intro L c c' hinv hnd hrun
    rw [runSets] at hrun
    cases hs : c.Set call.n call.fuel call.heap call.orders call.key call.value with
    | none => simp [hs] at hrun
    | some r =>
      cases r with
      | error e => simp [hs] at hrun
      | ok p =>
        obtain ⟨cnt, c1⟩ := p
        simp only [hs] at hrun
        obtain ⟨k, hk, hdata, horder⟩ := hinv
        have happ : L ++ entriesOf (call :: calls) =
            (L ++ [(call.key, call.value)]) ++ entriesOf calls := by
          simp [entriesOf]
        rw [happ] at hnd ⊢
        have hnd1 : (keysOf (L ++ [(call.key, call.value)])).Nodup :=
          hnd.sublist (List.Sublist.map _ (List.sublist_append_left _ _))
        obtain ⟨j, -, hc1, -, -, -, -⟩ := Set_trace _ _ _ _ _ _ _ _ _ hs
        obtain ⟨h1, h2⟩ := Set_distinct_step L k hk c call.key call.value hdata horder
          (hnd1.sublist (List.Sublist.map _ (List.drop_sublist k _))) j
        rw [← hc1] at h1 h2
        refine ih (L ++ [(call.key, call.value)]) c1 c' ?_ hnd hrun
        by_cases hle : k + j ≤ (L ++ [(call.key, call.value)]).length
        · exact ⟨k + j, hle, h1, h2⟩
        · have hlt : (L ++ [(call.key, call.value)]).length ≤ k + j := by omega
          refine ⟨(L ++ [(call.key, call.value)]).length, le_refl _, ?_, ?_⟩
          · rw [h1, List.drop_eq_nil_of_le hlt, List.drop_eq_nil_of_le (le_refl _)]
          · rw [h2, List.drop_eq_nil_of_le (by rw [List.length_map]; exact hlt),
              List.drop_eq_nil_of_le (by rw [List.length_map])]

theorem nodup_append_absent (d : List (GoString × Value)) (key : GoString) (value : Value)
    (hnd : (keysOf d).Nodup) (habs : mapIndex d key = none) :
    (keysOf (d ++ [(key, value)])).Nodup := by
  rw [keysOf, List.map_append, List.nodup_append]
  refine ⟨hnd, by simp, ?_⟩
  intro x hx hy
  simp only [List.map_cons, List.map_nil, List.mem_singleton] at hy
  subst hy
  exact (mapIndex_eq_none_iff d key).mp habs hx

/-- The invariant of a run in which no call stores a key the mapping holds at that time: the
mapping holds the entries stored so far from some position on, in call order, their keys
are distinct, and the queue lists their keys. -/
theorem runSets_absent_inv : ∀ (calls : List SetCall) (L : List (GoString × Value))
    (c c' : MaxBytesCache),
    (∃ k, k ≤ L.length ∧ c.data = L.drop k ∧ c.order = (L.map (fun e => e.1)).drop k ∧
      (keysOf (L.drop k)).Nodup) →
    storesAbsent c calls →
    runSets c calls = some (.ok c') →
    ∃ k, k ≤ (L ++ entriesOf calls).length ∧ c'.data = (L ++ entriesOf calls).drop k ∧
      c'.order = ((L ++ entriesOf calls).map (fun e => e.1)).drop k ∧
      (keysOf ((L ++ entriesOf calls).drop k)).Nodup := by
  intro calls
  induction calls with
  | nil =>
    intro L c c' hinv _ hrun
    simp only [runSets] at hrun
    injection hrun with hrun
    injection hrun with hrun
    subst hrun
    simpa [entriesOf] using hinv
  | cons call calls ih =>
    intro L c c' hinv habs hrun
    rw [runSets] at hrun
    rw [storesAbsent] at habs
    cases hs : c.Set call.n call.fuel call.heap call.orders call.key call.value with
    | none => simp [hs] at hrun
    | some r =>
      cases r with
      | error e => simp [hs] at hrun
      | ok p =>
        obtain ⟨cnt, c1⟩ := p
        simp only [hs] at hrun habs
        obtain ⟨k, hk, hdata, horder, hnd⟩ := hinv
        have happ : L ++ entriesOf (call :: calls) =
            (L ++ [(call.key, call.value)]) ++ entriesOf calls := by
          simp [entriesOf]
        rw [happ]
        have hnd1 : (keysOf ((L ++ [(call.key, call.value)]).drop k)).Nodup := by
          rw [List.drop_append_of_le_length hk]
          exact nodup_append_absent _ _ _ hnd (hdata ▸ habs.1)
        obtain ⟨j, -, hc1, -, -, -, -⟩ := Set_trace _ _ _ _ _ _ _ _ _ hs
        obtain ⟨h1, h2⟩ := Set_distinct_step L k hk c call.key call.value hdata horder hnd1 j
        rw [← hc1] at h1 h2
        refine ih (L ++ [(call.key, call.value)]) c1 c' ?_ habs.2 hrun
        by_cases hle : k + j ≤ (L ++ [(call.key, call.value)]).length
        · refine ⟨k + j, hle, h1, h2, ?_⟩
          rw [← List.drop_drop]
          exact hnd1.sublist (List.Sublist.map _ (List.drop_sublist j _))
        · have hlt : (L ++ [(call.key, call.value)]).length ≤ k + j := by omega
          refine ⟨(L ++ [(call.key, call.value)]).length, le_refl _, ?_, ?_, ?_⟩
          · rw [h1, List.drop_eq_nil_of_le hlt, List.drop_eq_nil_of_le (le_refl _)]
          · rw [h2, List.drop_eq_nil_of_le (by rw [List.length_map]; exact hlt),
              List.drop_eq_nil_of_le (by rw [List.length_map])]
          · rw [List.drop_eq_nil_of_le (le_refl _)]
            exact List.nodup_nil

/-- C2, amended (FIFO when the stored key is absent). Take a cache state in which the order
queue lists the keys of the mapping, once each, in the order they were stored, and a
`Set` call that returns and stores a key that is not in the mapping. The call has popped
some number `j` of keys, and after each of its first `i` pops (`i ≤ j`) the mapping and the
queue hold exactly the entries from position `i` on: the call deletes the `j` oldest
entries, oldest first, no entry is deleted while an older one stays, and the resulting
state is again of that kind. Every state reached from an empty cache by `Set` calls none
of which stored a key that was in the mapping at the time (a key may come back after it
was evicted) is of that kind, and its mapping holds the entries stored so far from some
position on, in call order. -/
theorem Set_fifo_absent_keys (n fuel : Nat) (h : Heap) (os : Orders) (c : MaxBytesCache)
    (key : GoString) (value : Value) (cnt : Nat) (c' : MaxBytesCache)
    (habs : mapIndex c.data key = none)
    (hset : c.Set n fuel h os key value = some (.ok (cnt, c'))) :
    (c.order = c.data.map (fun e => e.1) → (keysOf c.data).Nodup →
      ∃ j, c' = (c.stored key value).shiftN j ∧
        (∀ i, i ≤ j →
          ((c.stored key value).shiftN i).data = (c.data ++ [(key, value)]).drop i ∧
          ((c.stored key value).shiftN i).order =
            ((c.data ++ [(key, value)]).map (fun e => e.1)).drop i) ∧
        Fifo (c.stored key value).data c'.data ∧
        c'.order = c'.data.map (fun e => e.1) ∧ (keysOf c'.data).Nodup) ∧
    (∀ (c0 : MaxBytesCache) (calls : List SetCall), c0.data = [] → c0.order = [] →
      storesAbsent c0 calls → runSets c0 calls = some (.ok c) →
      c.order = c.data.map (fun e => e.1) ∧ (keysOf c.data).Nodup ∧
        ∃ k, c.data = (entriesOf calls).drop k) := by
  refine ⟨fun hq hnd => ?_, fun c0 calls hd0 ho0 hrunabs hrun => ?_⟩
  · obtain ⟨j, -, hc', -, -, -, -⟩ := Set_trace n fuel h os c key value cnt c' hset
    have hnd1 : (keysOf ((c.data ++ [(key, value)]).drop 0)).Nodup :=
      nodup_append_absent _ _ _ hnd habs
    have hstep := Set_distinct_step c.data 0 (Nat.zero_le _) c key value rfl
      (by rw [hq]; rfl) hnd1
    simp only [Nat.zero_add] at hstep
    have h0 := (hstep 0).1
    have hj := hstep j
    rw [← hc'] at hj
    simp only [MaxBytesCache.shiftN] at h0
    refine ⟨j, hc', fun i _ => hstep i, ?_, ?_, ?_⟩
    · rw [h0, hj.1]
      exact fifo_of_drop _ j hnd1
    · rw [hj.1, hj.2, List.map_drop]
    · rw [hj.1]
      exact hnd1.sublist (List.Sublist.map _ (List.drop_sublist j _))
  · obtain ⟨k, hk, hdata, horder, hnd⟩ := runSets_absent_inv calls [] c0 c
      ⟨0, le_refl _, by simp [hd0], by simp [ho0], by simp [keysOf]⟩ hrunabs hrun
    rw [List.nil_append] at hk hdata horder hnd
    refine ⟨?_, hdata ▸ hnd, k, hdata⟩
    rw [horder, hdata, List.map_drop]

/-! ### Concrete runs -/

theorem storesAbsent_cons (c c1 : MaxBytesCache) (call : SetCall) (calls : List SetCall)
    (cnt : Nat) (hkey : mapIndex c.data call.key = none)
    (hset : c.Set call.n call.fuel call.heap call.orders call.key call.value
      = some (.ok (cnt, c1)))
    (hrest : storesAbsent c1 calls) : storesAbsent c (call :: calls) := by
  rw [storesAbsent, hset]
  exact ⟨hkey, hrest⟩

theorem storesAbsent_sixCalls : storesAbsent intStart sixCalls := by
  refine storesAbsent_cons _ ⟨.int, 1, [(⟨11, "k1"⟩, .scalar .int 1)], [⟨11, "k1"⟩], 200⟩
    _ _ 0 (by rfl) (by rfl) ?_
  refine storesAbsent_cons _ ⟨.int, 1,
    [(⟨11, "k1"⟩, .scalar .int 1), (⟨12, "k2"⟩, .scalar .int 2)],
    [⟨11, "k1"⟩, ⟨12, "k2"⟩], 200⟩ _ _ 0 (by rfl) (by rfl) ?_
  refine storesAbsent_cons _ ⟨.int, 1,
    [(⟨11, "k1"⟩, .scalar .int 1), (⟨12, "k2"⟩, .scalar .int 2), (⟨13, "k3"⟩, .scalar .int 3)],
    [⟨11, "k1"⟩, ⟨12, "k2"⟩, ⟨13, "k3"⟩], 200⟩ _ _ 0 (by rfl) (by rfl) ?_
  refine storesAbsent_cons _ ⟨.int, 1,
    [(⟨11, "k1"⟩, .scalar .int 1), (⟨12, "k2"⟩, .scalar .int 2), (⟨13, "k3"⟩, .scalar .int 3),
     (⟨14, "k4"⟩, .scalar .int 4)],
    [⟨11, "k1"⟩, ⟨12, "k2"⟩, ⟨13, "k3"⟩, ⟨14, "k4"⟩], 200⟩ _ _ 0 (by rfl) (by rfl) ?_
  refine storesAbsent_cons _ intCache _ _ 0 (by rfl) (by rfl) ?_
  exact storesAbsent_cons _ sixCache _ _ 8 (by rfl) (by rfl) trivial

/-- Witness for the amended C2: with a limit of 200 bytes five `int` entries fit (191 bytes).
The sixth `Set` evicted "k1"; the seventh stores "k1" again, which pushes the estimate to
228 and evicts exactly the oldest entry still present, "k2". -/
theorem Set_fifo_absent_keys_witness :
    (∃ j, againCache = (sixCache.stored ⟨17, "k1"⟩ (.scalar .int 7)).shiftN j ∧
      (∀ i, i ≤ j →
        ((sixCache.stored ⟨17, "k1"⟩ (.scalar .int 7)).shiftN i).data =
          (sixCache.data ++ [(GoString.mk 17 "k1", Value.scalar .int 7)]).drop i ∧
        ((sixCache.stored ⟨17, "k1"⟩ (.scalar .int 7)).shiftN i).order =
          ((sixCache.data ++ [(GoString.mk 17 "k1", Value.scalar .int 7)]).map
            (fun e => e.1)).drop i) ∧
      Fifo (sixCache.stored ⟨17, "k1"⟩ (.scalar .int 7)).data againCache.data ∧
      againCache.order = againCache.data.map (fun e => e.1) ∧
      (keysOf againCache.data).Nodup) ∧
    (sixCache.order = sixCache.data.map (fun e => e.1) ∧ (keysOf sixCache.data).Nodup ∧
      ∃ k, sixCache.data = (entriesOf sixCalls).drop k) :=
  ⟨(Set_fifo_absent_keys 10 2 emptyHeap storageOrders sixCache ⟨17, "k1"⟩ (.scalar .int 7) 8
      againCache (by rfl) (by rfl)).1 (by rfl) (by decide),
    (Set_fifo_absent_keys 10 2 emptyHeap storageOrders sixCache ⟨17, "k1"⟩ (.scalar .int 7) 8
      againCache (by rfl) (by rfl)).2 intStart sixCalls rfl rfl storesAbsent_sixCalls
      (by rfl)⟩

/-- C2, as the claim states it, fails when a key is stored again. Limit 100, values are
strings. `Set("x", "")`; `Set("x", <50 bytes>)` evicts "x" at once and leaves its
second queue occurrence behind; `Set("y", "")`; `Set("x", "")`. Now "y" is older than the
present "x". `Set("z", "")` pops the stale "x" from the front of the queue, which
deletes the present "x" (16 bytes) while the older "y" stays in the mapping. -/
theorem Set_fifo_reinsert_counterexample :
    runSets reinsertStart (reinsertCalls.take 3) =
        some (.ok ⟨.string, 1, [(⟨12, "y"⟩, .string ⟨22, ""⟩)], [⟨11, "x"⟩, ⟨12, "y"⟩], 100⟩) ∧
      runSets reinsertStart reinsertCalls = some (.ok reinsertCache) ∧
      reinsertCache.Set 10 3 emptyHeap storageOrders ⟨14, "z"⟩ (.string ⟨24, ""⟩) =
        some (.ok (16, ⟨.string, 1,
          [(⟨12, "y"⟩, .string ⟨22, ""⟩), (⟨14, "z"⟩, .string ⟨24, ""⟩)],
          [⟨12, "y"⟩, ⟨13, "x"⟩, ⟨14, "z"⟩], 100⟩)) ∧
      ¬ Fifo (reinsertCache.stored ⟨14, "z"⟩ (.string ⟨24, ""⟩)).data
        [(⟨12, "y"⟩, .string ⟨22, ""⟩), (⟨14, "z"⟩, .string ⟨24, ""⟩)] := by
  refine ⟨by rfl, by rfl, by rfl, fun hf => ?_⟩
  have h := hf [] (⟨12, "y"⟩, .string ⟨22, ""⟩) [] (⟨13, "x"⟩, .string ⟨23, ""⟩)
    [(⟨14, "z"⟩, .string ⟨24, ""⟩)] (by rfl) (by rfl)
  exact Option.some_ne_none _ h

/-- Witness for C3: limit 50, the mapping holds "b" and the queue is "a", "b" ("a" is stale).
`Set("c", 3)` pops "a" (not in the mapping: nothing counted) and "b" (8 bytes), and
returns 8. -/
theorem Set_evicted_bytes_witness :
    ∃ j sizes,
      (MaxBytesCache.mk .int 1 [(⟨12, "c"⟩, .scalar .int 3)] [⟨12, "c"⟩] 50) =
        (staleCache.stored ⟨12, "c"⟩ (.scalar .int 3)).shiftN j ∧
      List.Forall₂
        (fun r s => mustCalcSize 2 ((r.2.2.heap emptyHeap).inOrder (storageOrders.own r.1))
          (.addr r.2.1) = some (.ok s))
        ((staleCache.stored ⟨12, "c"⟩ (.scalar .int 3)).removed j) sizes ∧
      8 = sizes.sum % 2 ^ 64 ∧
      (sizes.sum < 2 ^ 64 → 8 = sizes.sum) ∧
      (((staleCache.stored ⟨12, "c"⟩ (.scalar .int 3)).removed j).map (fun r => r.2.1)).Perm
        (((staleCache.stored ⟨12, "c"⟩ (.scalar .int 3)).data.filter
          (fun e => (mapIndex
            (MaxBytesCache.mk .int 1 [(⟨12, "c"⟩, .scalar .int 3)] [⟨12, "c"⟩] 50).data
            e.1).isNone)).map (fun e => e.2)) :=
  Set_evicted_bytes 10 2 emptyHeap storageOrders staleCache ⟨12, "c"⟩ (.scalar .int 3) 8
    (MaxBytesCache.mk .int 1 [(⟨12, "c"⟩, .scalar .int 3)] [⟨12, "c"⟩] 50)
    (by decide) (by rfl)

/-! ### An entry that does not fit on its own -/

theorem stored_covered (c : MaxBytesCache) (key : GoString) (value : Value)
    (hcov : c.Covered) : (c.stored key value).Covered := by
  intro k hk
  show k ∈ (c.order ++ [key]).map (fun s => s.val)
  rw [List.map_append, List.mem_append]
  rcases keysOf_mapAssign c.data key value k hk with h1 | h1
  · exact Or.inl (hcov k h1)
  · right; simp [h1]

/-- Once every key of the queue has been popped, a mapping covered by the queue is empty. -/
theorem shiftN_all_empty (c : MaxBytesCache) (hcov : c.Covered) (j : Nat)
    (hj : c.order.length ≤ j) : (c.shiftN j).data = [] ∧ (c.shiftN j).order = [] := by
  refine ⟨?_, by rw [shiftN_order]; exact List.drop_eq_nil_of_le hj⟩
  rw [shiftN_data, List.take_of_length_le hj, List.filter_eq_nil_iff]
  intro e he
  have := hcov e.1.val (List.mem_map_of_mem (fun e => e.1.val) he)
  simpa using this

/-- C15, as the claim states it, fails: limit 50, `Set("a", 1)` then `Set("a", 2)` leave "a"
twice in the queue and `Get("a")` returns 2. `Set("b", 3)` exceeds the limit and pops the
earlier "a"; the pop deletes "a" from the mapping, so `Get("a")` returns the zero value
although the later occurrence of "a" is still in the queue. -/
theorem shift_stale_counterexample :
    runSets ⟨.int, 1, [], [], 50⟩
        [⟨10, 2, emptyHeap, storageOrders, ⟨10, "a"⟩, .scalar .int 1⟩,
         ⟨10, 2, emptyHeap, storageOrders, ⟨11, "a"⟩, .scalar .int 2⟩] = some (.ok twiceCache) ∧
      (twiceCache.Get ⟨20, "a"⟩).1 = .scalar .int 2 ∧
      twiceCache.Set 10 2 emptyHeap storageOrders ⟨12, "b"⟩ (.scalar .int 3) =
        some (.ok (8, ⟨.int, 1, [(⟨12, "b"⟩, .scalar .int 3)], [⟨11, "a"⟩, ⟨12, "b"⟩], 50⟩)) ∧
      ((MaxBytesCache.mk .int 1 [(⟨12, "b"⟩, .scalar .int 3)] [⟨11, "a"⟩, ⟨12, "b"⟩] 50).Get
        ⟨20, "a"⟩).1 = .scalar .int 0 :=
  ⟨by rfl, by rfl, by rfl, by rfl⟩

theorem mapIndex_mapDelete_self (d : List (GoString × Value)) (key : GoString) :
    mapIndex (mapDelete d key) key = none := by
  rw [mapDelete_eq_filter, mapIndex_filter (fun s => decide (s ≠ key.val))]
  simp

theorem mapIndex_mapDelete_other (d : List (GoString × Value)) (key k : GoString)
    (hk : k.val ≠ key.val) : mapIndex (mapDelete d key) k = mapIndex d k := by
  rw [mapDelete_eq_filter, mapIndex_filter (fun s => decide (s ≠ key.val))]
  simp [hk]

theorem mapDelete_absent (d : List (GoString × Value)) (key : GoString)
    (hk : mapIndex d key = none) : mapDelete d key = d := by
  rw [mapIndex_eq_none_iff] at hk
  rw [mapDelete_eq_filter, List.filter_eq_self]
  intro e he
  have : e.1.val ≠ key.val := fun heq => hk (heq ▸ List.mem_map_of_mem (fun e => e.1.val) he)
  simpa using this

/-- C15, amended. When the key at the front of the order queue is popped, `shift` deletes that
key from the mapping whether or not the key occurs again later in the queue: the value
it was mapped to (also a value stored by a later `Set` of the same key) is returned by
`shift` and is no longer retrievable, `Get` returns the zero value, and every other key
stays mapped as before. Only a popped key that is already absent leaves the mapping
untouched; that is what happens when the later occurrence is popped. -/
theorem shift_pops_front (c : MaxBytesCache) (key : GoString) (rest : List GoString)
    (horder : c.order = key :: rest) :
    c.shift.1 = mapIndex c.data key ∧ c.shift.2.order = rest ∧
      mapIndex c.shift.2.data key = none ∧ (c.shift.2.Get key).1 = zero c.T ∧
      (∀ k : GoString, k.val ≠ key.val → mapIndex c.shift.2.data k = mapIndex c.data k) ∧
      (mapIndex c.data key = none → c.shift.2.data = c.data) := by
  have h2 : c.shift.2 = { c with data := mapDelete c.data key, order := rest } := by
    rw [shift_eq, horder]
  have h1 : c.shift.1 = mapIndex c.data key := by
    rw [shift_fst, horder]
  rw [h1, h2]
  refine ⟨rfl, rfl, mapIndex_mapDelete_self _ _, ?_,
    fun k hk => mapIndex_mapDelete_other _ _ _ hk, fun hk => mapDelete_absent _ _ hk⟩
  simp [MaxBytesCache.Get, mapIndex_mapDelete_self]

/-- Witness for the amended C15: popping the earlier "a" of the cache that holds "a" twice
returns the second value, 2, and leaves "a" unmapped while "a" is still queued. -/
theorem shift_pops_front_witness :
    twiceCache.shift.1 = mapIndex twiceCache.data ⟨10, "a"⟩ ∧
      twiceCache.shift.2.order = [⟨11, "a"⟩] ∧
      mapIndex twiceCache.shift.2.data ⟨10, "a"⟩ = none ∧
      (twiceCache.shift.2.Get ⟨10, "a"⟩).1 = zero twiceCache.T ∧
      (∀ k : GoString, k.val ≠ "a" →
        mapIndex twiceCache.shift.2.data k = mapIndex twiceCache.data k) ∧
      (mapIndex twiceCache.data ⟨10, "a"⟩ = none → twiceCache.shift.2.data = twiceCache.data) :=
  shift_pops_front twiceCache ⟨10, "a"⟩ [⟨11, "a"⟩] rfl

/-! ### Invariants of reachable states -/

theorem shiftN_covered (c : MaxBytesCache) (hcov : c.Covered) (j : Nat) :
    (c.shiftN j).Covered := by
  intro k hk
  rw [shiftN_order]
  rw [shiftN_data] at hk
  unfold keysOf at hk
  rw [List.mem_map] at hk
  obtain ⟨e, he, hek⟩ := hk
  rw [List.mem_filter] at he
  have hin : k ∈ c.order.map (fun s => s.val) :=
    hcov k (hek ▸ List.mem_map_of_mem (fun e => e.1.val) he.1)
  have hnot : k ∉ (c.order.take j).map (fun s => s.val) := by
    have := he.2
    rw [hek] at this
    simpa using this
  rw [← List.take_append_drop j c.order, List.map_append, List.mem_append] at hin
  rcases hin with h1 | h1
  · exact absurd h1 hnot
  · exact h1

theorem Set_covered (n fuel : Nat) (h : Heap) (os : Orders) (c : MaxBytesCache)
    (key : GoString) (value : Value) (cnt : Nat) (c' : MaxBytesCache) (hcov : c.Covered)
    (hset : c.Set n fuel h os key value = some (.ok (cnt, c'))) : c'.Covered := by
  obtain ⟨j, -, hc', -, -, -, -⟩ := Set_trace n fuel h os c key value cnt c' hset
  rw [hc']
  exact shiftN_covered _ (stored_covered c key value hcov) j

theorem reachable_covered (c : MaxBytesCache) (hr : Reachable c) : c.Covered := by
  induction hr with
  | new fuel h T maxBytes addr c hnew =>
    rw [New_ok fuel h T maxBytes addr c hnew]
    intro k hk
    simp [keysOf] at hk
  | set c n fuel h os key value cnt c1 _ hset ih =>
    exact Set_covered n fuel h os c key value cnt c1 ih hset
  | get c key _ ih => exact ih

/-- C18 (the queue covers the mapping). In every state reached from `NewMaxBytesCache` by `Set`
and `Get` calls, every key of the mapping occurs in the order queue; hence the mapping
is empty whenever the queue is, and popping the queue to exhaustion (any number of pops
from the length of the queue on) leaves the mapping and the queue empty. -/
theorem reachable_queue_covers (c : MaxBytesCache) (hr : Reachable c) :
    (∀ k : GoString, mapIndex c.data k ≠ none → k.val ∈ c.order.map (fun s => s.val)) ∧
      (c.order = [] → c.data = []) ∧
      (∀ j, c.order.length ≤ j → (c.shiftN j).data = [] ∧ (c.shiftN j).order = []) := by
  have hcov := reachable_covered c hr
  refine ⟨fun k hk => ?_, fun ho => ?_, fun j hj => shiftN_all_empty c hcov j hj⟩
  · apply hcov
    rw [Ne, mapIndex_eq_none_iff, not_not] at hk
    exact hk
  · have := (shiftN_all_empty c hcov 0 (by rw [ho]; exact le_refl _)).1
    simpa [MaxBytesCache.shiftN] using this

/-- Witness for C18: the cache that holds "a" twice in its queue is reached by two `Set` calls
on a fresh cache. -/
theorem reachable_queue_covers_witness :
    (∀ k : GoString, mapIndex twiceCache.data k ≠ none →
        k.val ∈ twiceCache.order.map (fun s => s.val)) ∧
      (twiceCache.order = [] → twiceCache.data = []) ∧
      (∀ j, twiceCache.order.length ≤ j →
        (twiceCache.shiftN j).data = [] ∧ (twiceCache.shiftN j).order = []) :=
  reachable_queue_covers twiceCache
    (Reachable.set ⟨.int, 1, [(⟨10, "a"⟩, .scalar .int 1)], [⟨10, "a"⟩], 50⟩ 10 2 emptyHeap
      storageOrders ⟨11, "a"⟩ (.scalar .int 2) 0 twiceCache
      (Reachable.set ⟨.int, 1, [], [], 50⟩ 10 2 emptyHeap storageOrders ⟨10, "a"⟩
        (.scalar .int 1) 0
        ⟨.int, 1, [(⟨10, "a"⟩, .scalar .int 1)], [⟨10, "a"⟩], 50⟩
        (Reachable.new 1 emptyHeap .int 50 1 ⟨.int, 1, [], [], 50⟩ (by rfl)) (by rfl))
      (by rfl))

/-! ### Runs with distinct keys -/

theorem mapIndex_of_mem (d : List (GoString × Value)) (hnd : (keysOf d).Nodup)
    (e : GoString × Value) (he : e ∈ d) : mapIndex d e.1 = some e.2 := by
  induction d with
  | nil => cases he
  | cons x rest ih =>
    obtain ⟨k1, v1⟩ := x
    simp only [keysOf, List.map_cons, List.nodup_cons] at hnd
    rcases List.mem_cons.mp he with h1 | h1
    · subst h1
      simp [mapIndex]
    · have hne : ¬ k1.val = e.1.val := by
        intro heq
        apply hnd.1
        rw [heq]
        exact List.mem_map_of_mem (fun e => e.1.val) h1
      simp only [mapIndex, hne, if_false]
      exact ih hnd.2 h1

/-- C19 (distinct keys give a suffix). Start from a cache with empty mapping and queue and make
`Set` calls with pairwise distinct keys. After the calls (so after each call, every
prefix of a run being a run) the order queue is the insertion sequence from some
position `k` on, it has no duplicates, the keys of the mapping are exactly the keys of the
queue, and every surviving key is mapped to the value it was stored with. -/
theorem runSets_distinct_suffix (c0 : MaxBytesCache) (calls : List SetCall) (c : MaxBytesCache)
    (hd0 : c0.data = []) (ho0 : c0.order = [])
    (hkeys : (keysOf (entriesOf calls)).Nodup)
    (hrun : runSets c0 calls = some (.ok c)) :
    ∃ k, k ≤ calls.length ∧
      c.order = (calls.map (fun call => call.key)).drop k ∧
      (c.order.map (fun s => s.val)).Nodup ∧
      c.data.map (fun e => e.1) = c.order ∧
      (∀ key : GoString, mapIndex c.data key ≠ none ↔ key.val ∈ c.order.map (fun s => s.val)) ∧
      ∀ call, call ∈ calls.drop k → mapIndex c.data call.key = some call.value := by
  have hnd0 : (keysOf ([] ++ entriesOf calls)).Nodup := by rw [List.nil_append]; exact hkeys
  obtain ⟨k, hk, hdata, horder⟩ := runSets_distinct_inv calls [] c0 c
    ⟨0, le_refl _, by simp [hd0], by simp [ho0]⟩ hnd0 hrun
  rw [List.nil_append] at hk hdata horder
  have hlen : (entriesOf calls).length = calls.length := by simp [entriesOf]
  have hkeysEq : (entriesOf calls).map (fun e => e.1) = calls.map (fun call => call.key) := by
    simp [entriesOf]
  have hdo : c.data.map (fun e => e.1) = c.order := by
    rw [hdata, horder, List.map_drop]
  have hndd : (keysOf c.data).Nodup := by
    rw [hdata]
    exact hkeys.sublist (List.Sublist.map _ (List.drop_sublist k _))
  have hvals : c.order.map (fun s => s.val) = keysOf c.data := by
    rw [← hdo, keysOf, List.map_map]
    rfl
  refine ⟨k, hlen ▸ hk, by rw [horder, hkeysEq], by rw [hvals]; exact hndd, hdo, ?_, ?_⟩
  · intro key
    rw [hvals, Ne, mapIndex_eq_none_iff, not_not]
  · intro call hcall
    have hmem : (call.key, call.value) ∈ c.data := by
      rw [hdata, entriesOf, ← List.map_drop]
      exact List.mem_map_of_mem (fun call => (call.key, call.value)) hcall
    exact mapIndex_of_mem c.data hndd (call.key, call.value) hmem

/-- Witness for C19: six calls with the keys "k1" to "k6" on a fresh cache with limit 200; the
sixth call evicts "k1", and the queue is the suffix "k2" to "k6". -/
theorem runSets_distinct_suffix_witness :
    ∃ k, k ≤ sixCalls.length ∧
      sixCache.order = (sixCalls.map (fun call => call.key)).drop k ∧
      (sixCache.order.map (fun s => s.val)).Nodup ∧
      sixCache.data.map (fun e => e.1) = sixCache.order ∧
      (∀ key : GoString,
        mapIndex sixCache.data key ≠ none ↔ key.val ∈ sixCache.order.map (fun s => s.val)) ∧
      ∀ call, call ∈ sixCalls.drop k → mapIndex sixCache.data call.key = some call.value :=
  runSets_distinct_suffix intStart sixCalls sixCache rfl rfl (by decide) (by rfl)

/-! ### The per-kind rules of `sizeOf` -/

theorem u64_of_lt {n : Nat} (hn : n < 2 ^ 64) : u64 n = n := Nat.mod_eq_of_lt hn

theorem u64_u64 (n : Nat) : u64 (u64 n) = u64 n := by
  unfold u64; exact Nat.mod_mod _ _

theorem u64_add_u64_right (a b : Nat) : u64 (a + u64 b) = u64 (a + b) := by
  unfold u64; omega

theorem size_string : u64 GoType.string.size = 16 := by rfl

theorem size_ptr : u64 GoType.ptr.size = 8 := by rfl

theorem size_map : u64 GoType.map.size = 8 := by rfl

theorem size_interface : u64 GoType.interface.size = 16 := by rfl

/-- The sum the element loops of `sizeOf` compute is the sum of the element sizes, in `uint64`
arithmetic. -/
theorem sumSizes_of_sizesOf (f : Value → Visited → Sized) :
    ∀ (l : List Value) (cache : Visited) (ss : List Nat) (cache1 : Visited),
      sizesOf f l cache = some (.ok (ss, cache1)) →
      ∀ sum, sum < 2 ^ 64 → sumSizes f l sum cache = some (.ok ((sum + ss.sum) % 2 ^ 64, cache1)) := by
  intro l
  induction l with
  | nil =>
    intro cache ss cache1 hs sum hsum
    simp only [sizesOf] at hs
    injection hs with hs
    injection hs with hs
    injection hs with h1 h2
    subst h1; subst h2
    simp only [sumSizes, List.sum_nil, Nat.add_zero, Nat.mod_eq_of_lt hsum]
  | cons v vs ih =>
    intro cache ss cache1 hs sum hsum
    rw [sizesOf] at hs
    rw [sumSizes]
    cases hf : f v cache with
    | none => simp [hf] at hs
    | some r =>
      cases r with
      | error e => simp [hf] at hs
      | ok p =>
        obtain ⟨s, c1⟩ := p
        simp only [hf] at hs ⊢
        cases hrest : sizesOf f vs c1 with
        | none => simp [hrest] at hs
        | some r2 =>
          cases r2 with
          | error e => simp [hrest] at hs
          | ok p2 =>
            obtain ⟨ss2, c2⟩ := p2
            simp only [hrest] at hs
            injection hs with hs
            injection hs with hs
            injection hs with h1 h2
            subst h1; subst h2
            rw [ih c1 ss2 c2 hrest (u64 (sum + s)) (u64_lt _)]
            simp only [List.sum_cons, u64]
            congr 3
            omega

theorem sumSizes_error_of_sizesOf (f : Value → Visited → Sized) :
    ∀ (l : List Value) (cache : Visited) (err : String),
      sizesOf f l cache = some (.error err) →
      ∀ sum, sumSizes f l sum cache = some (.error err) := by
  intro l
  induction l with
  | nil => intro cache err hs; simp [sizesOf] at hs
  | cons v vs ih =>
    intro cache err hs sum
    rw [sizesOf] at hs
    rw [sumSizes]
    cases hf : f v cache with
    | none => simp [hf] at hs
    | some r =>
      cases r with
      | error e => simpa [hf] using hs
      | ok p =>
        obtain ⟨s, c1⟩ := p
        simp only [hf] at hs ⊢
        cases hrest : sizesOf f vs c1 with
        | none => simp [hrest] at hs
        | some r2 =>
          cases r2 with
          | error e =>
            simp only [hrest] at hs
            injection hs with hs
            injection hs with hs
            subst hs
            exact ih c1 e hrest _
          | ok p2 => simp [hrest] at hs

theorem foldl_padding (fields : List Value) (a : Nat) :
    List.foldl (fun (p : Nat) (f : Value) => subWrap p (u64 f.type.size)) a fields =
      List.foldl (fun (p : Nat) (x : Nat) => subWrap p (u64 x)) a
        (fields.map (fun f => f.type.size)) := by
  rw [List.foldl_map]

/-- The struct case of `sizeOf`, with the element loop and the padding written out. -/
theorem sizeOf_struct (h : Heap) (fuel : Nat) (fields : List Value) (cache : Visited) :
    sizeOf h (fuel + 1) (.struct fields) cache =
      match sumSizes (sizeOf h fuel) fields 0 cache with
      | none => none
      | some (.error err) => some (.error err)
      | some (.ok (sum, cache1)) =>
        some (.ok (u64 (sum + List.foldl (fun (p : Nat) (x : Nat) => subWrap p (u64 x))
          (u64 (GoType.struct (Value.types fields)).size)
          (fields.map (fun f => f.type.size))), cache1)) := by
  rw [sizeOf]
  simp only [foldl_padding]
  rfl
theorem roundUp_ge (off al : Nat) (hal : 1 ≤ al) : off ≤ roundUp off al := by
  unfold roundUp
  have h1 := Nat.div_add_mod (off + al - 1) al
  have h2 := Nat.mod_lt (off + al - 1) (by omega : al > 0)
  have h3 : (off + al - 1) / al * al = al * ((off + al - 1) / al) := Nat.mul_comm _ _
  rw [h3]
  generalize al * ((off + al - 1) / al) = m at h1
  omega

theorem fieldsLayout_align_pos : ∀ (fs : List GoType) (off al : Nat) (z : Bool), 1 ≤ al →
    1 ≤ (GoType.fieldsLayout fs off al z).2.1 := by
  intro fs
  induction fs with
  | nil => intro off al z hal; rw [GoType.fieldsLayout]; exact hal
  | cons f fs ih =>
    intro off al z hal
    rw [GoType.fieldsLayout]
    exact ih _ _ _ (le_trans hal (le_max_left _ _))

theorem layout_align_pos : ∀ t : GoType, 1 ≤ t.layout.2
  | .array n e => by
    rw [GoType.layout]
    exact layout_align_pos e
  | .struct fs => by
    rw [GoType.layout]
    exact fieldsLayout_align_pos fs 0 1 false (le_refl 1)
  | .bool | .int8 | .uint8 | .int16 | .uint16 | .int32 | .uint32 | .float32
  | .int | .int64 | .uint | .uint64 | .uintptr | .float64 | .complex64 | .complex128
  | .chan | .func | .map | .ptr | .unsafePointer | .interface | .string | .slice _ => by
    rw [GoType.layout]
    all_goals decide

theorem fieldsLayout_ge : ∀ (fs : List GoType) (off al : Nat) (z : Bool),
    off + (fs.map GoType.size).sum ≤ (GoType.fieldsLayout fs off al z).1 := by
  intro fs
  induction fs with
  | nil => intro off al z; rw [GoType.fieldsLayout]; simp
  | cons f fs ih =>
    intro off al z
    rw [GoType.fieldsLayout]
    have h1 := ih (roundUp off (GoType.layout f).2 + (GoType.layout f).1)
      (max al (GoType.layout f).2) ((GoType.layout f).1 == 0)
    have h2 := roundUp_ge off (GoType.layout f).2 (layout_align_pos f)
    simp only [List.map_cons, List.sum_cons, GoType.size] at h1 ⊢
    omega

theorem struct_size_ge (fs : List GoType) :
    (fs.map GoType.size).sum ≤ (GoType.struct fs).size := by
  have h1 := fieldsLayout_ge fs 0 1 false
  have h2 := fieldsLayout_align_pos fs 0 1 false (le_refl 1)
  show (fs.map GoType.size).sum ≤ (GoType.struct fs).layout.1
  rw [GoType.layout]
  simp only
  have h3 := roundUp_ge
    (if (GoType.fieldsLayout fs 0 1 false).2.2 && decide (0 < (GoType.fieldsLayout fs 0 1 false).1)
      then (GoType.fieldsLayout fs 0 1 false).1 + 1 else (GoType.fieldsLayout fs 0 1 false).1)
    (GoType.fieldsLayout fs 0 1 false).2.1 h2
  have h4 : (GoType.fieldsLayout fs 0 1 false).1 ≤
      (if (GoType.fieldsLayout fs 0 1 false).2.2 && decide (0 < (GoType.fieldsLayout fs 0 1 false).1)
      then (GoType.fieldsLayout fs 0 1 false).1 + 1 else (GoType.fieldsLayout fs 0 1 false).1) := by
    split <;> omega
  simp only [Nat.zero_add] at h1
  omega

theorem types_eq_map (fields : List Value) : Value.types fields = fields.map Value.type := by
  induction fields with
  | nil => rfl
  | cons v vs ih => rw [Value.types, ih]; rfl

theorem padding_exact : ∀ (xs : List Nat) (a : Nat), a < 2 ^ 64 → xs.sum ≤ a →
    List.foldl (fun (p : Nat) (x : Nat) => subWrap p (u64 x)) a xs = a - xs.sum := by
  intro xs
  induction xs with
  | nil => intro a _ _; simp
  | cons x xs ih =>
    intro a ha hle
    simp only [List.sum_cons] at hle
    simp only [List.foldl_cons, List.sum_cons]
    have hx : subWrap a (u64 x) = a - x := by
      unfold subWrap u64
      omega
    rw [hx, ih (a - x) (by omega) (by omega)]
    omega

/-! ### Structs -/

theorem sizeOf_scalar_fixed (h : Heap) (fuel : Nat) (t : GoType) (bits : Nat) (cache : Visited)
    (hk : fixedWidth t.kind = true) :
    sizeOf h (fuel + 1) (.scalar t bits) cache = some (.ok (u64 t.size, cache)) := by
  rw [sizeOf]
  cases hkind : t.kind <;> simp [hkind, fixedWidth] at hk ⊢

theorem sizesOf_scalars (h : Heap) (fuel : Nat) :
    ∀ (fields : List Value) (cache : Visited) (sizes : List Nat) (cache1 : Visited),
      (∀ f, f ∈ fields → ∃ t bits, f = .scalar t bits ∧ fixedWidth t.kind = true) →
      sizesOf (sizeOf h fuel) fields cache = some (.ok (sizes, cache1)) →
      sizes = fields.map (fun f => u64 f.type.size) ∧ cache1 = cache := by
  intro fields
  induction fields with
  | nil =>
    intro cache sizes cache1 _ hs
    simp only [sizesOf] at hs
    injection hs with hs
    injection hs with hs
    injection hs with h1 h2
    exact ⟨by rw [← h1]; rfl, h2.symm⟩
  | cons f fs ih =>
    intro cache sizes cache1 hall hs
    obtain ⟨t, bits, hf, hk⟩ := hall f (List.mem_cons_self _ _)
    subst hf
    rw [sizesOf] at hs
    cases fuel with
    | zero => simp [sizeOf] at hs
    | succ m =>
      rw [sizeOf_scalar_fixed h m t bits cache hk] at hs
      simp only at hs
      cases hrest : sizesOf (sizeOf h (m + 1)) fs cache with
      | none => simp [hrest] at hs
      | some r =>
        cases r with
        | error e => simp [hrest] at hs
        | ok p =>
          obtain ⟨ss, c2⟩ := p
          simp only [hrest] at hs
          injection hs with hs
          injection hs with hs
          injection hs with h1 h2
          obtain ⟨h3, h4⟩ := ih cache ss c2 (fun g hg => hall g (List.mem_cons_of_mem _ hg)) hrest
          subst h3
          exact ⟨by rw [← h1]; rfl, by rw [← h2, h4]⟩

theorem sum_map_u64_le (xs : List Nat) (a : Nat) (ha : a < 2 ^ 64) (hle : xs.sum ≤ a) :
    (xs.map u64).sum = xs.sum := by
  induction xs with
  | nil => rfl
  | cons x xs ih =>
    simp only [List.sum_cons] at hle
    simp only [List.map_cons, List.sum_cons]
    rw [ih (by omega), u64_of_lt (by omega)]

/-- C16 (struct padding correction). For every struct value whose fields are sized one after the
other (`sizes`, with the visited set threaded through), the estimate is the sum of
those sizes plus the static width of the struct type minus the sum of the static widths
of the field types, in `uint64` arithmetic; that difference is never negative. If all
fields are of fixed-width kinds the estimate is the static width of the struct type.
(The static width is below `2 ^ 64`, as every Go type width is.) -/
theorem sizeOf_struct_padding (h : Heap) (fuel : Nat) (fields : List Value) (cache : Visited)
    (sizes : List Nat) (cache1 : Visited)
    (hwidth : (Value.struct fields).type.size < 2 ^ 64)
    (hfields : sizesOf (sizeOf h fuel) fields cache = some (.ok (sizes, cache1))) :
    (fields.map (fun f => f.type.size)).sum ≤ (Value.struct fields).type.size ∧
      sizeOf h (fuel + 1) (.struct fields) cache =
        some (.ok ((sizes.sum + ((Value.struct fields).type.size -
          (fields.map (fun f => f.type.size)).sum)) % 2 ^ 64, cache1)) ∧
      ((∀ f, f ∈ fields → ∃ t bits, f = .scalar t bits ∧ fixedWidth t.kind = true) →
        sizeOf h (fuel + 1) (.struct fields) cache =
          some (.ok ((Value.struct fields).type.size, cache))) := by
  have htype : (Value.struct fields).type = GoType.struct (Value.types fields) := by
    rw [Value.type]
  have hmap : fields.map (fun f => f.type.size) = (Value.types fields).map GoType.size := by
    rw [types_eq_map, List.map_map]
    rfl
  have hge : (fields.map (fun f => f.type.size)).sum ≤ (Value.struct fields).type.size := by
    rw [htype, hmap]
    exact struct_size_ge _
  rw [htype] at hwidth hge ⊢
  have hpad := padding_exact (fields.map (fun f => f.type.size))
    (u64 (GoType.struct (Value.types fields)).size) (u64_lt _)
    (by rw [u64_of_lt hwidth]; exact hge)
  rw [u64_of_lt hwidth] at hpad
  have hmain : sizeOf h (fuel + 1) (.struct fields) cache =
      some (.ok ((sizes.sum + ((GoType.struct (Value.types fields)).size -
        (fields.map (fun f => f.type.size)).sum)) % 2 ^ 64, cache1)) := by
    rw [sizeOf_struct, sumSizes_of_sizesOf _ fields cache sizes cache1 hfields 0 (by norm_num)]
    simp only [hpad, u64_of_lt hwidth]
    unfold u64
    congr 3
    omega
  refine ⟨hge, hmain, fun hall => ?_⟩
  obtain ⟨hs, hc⟩ := sizesOf_scalars h fuel fields cache sizes cache1 hall hfields
  rw [hmain, hc, hs]
  have hsum : (fields.map (fun f => u64 f.type.size)).sum =
      (fields.map (fun f => f.type.size)).sum := by
    have := sum_map_u64_le (fields.map (fun f => f.type.size)) _ hwidth hge
    rw [List.map_map] at this
    exact this
  rw [hsum, Nat.add_sub_cancel' hge, Nat.mod_eq_of_lt hwidth]

/-- Witness for C16: a struct with a `bool`, an `int64` and a `bool` field has static width 24
while its fields add up to 10; the estimate is 24. -/
theorem sizeOf_struct_padding_witness :
    ([Value.scalar .bool 1, Value.scalar .int64 5, Value.scalar .bool 0].map
        (fun f => f.type.size)).sum ≤
        (Value.struct [.scalar .bool 1, .scalar .int64 5, .scalar .bool 0]).type.size ∧
      sizeOf emptyHeap (1 + 1) (.struct [.scalar .bool 1, .scalar .int64 5, .scalar .bool 0]) [] =
        some (.ok (([1, 8, 1].sum +
          ((Value.struct [.scalar .bool 1, .scalar .int64 5, .scalar .bool 0]).type.size -
          ([Value.scalar .bool 1, Value.scalar .int64 5, Value.scalar .bool 0].map
            (fun f => f.type.size)).sum)) % 2 ^ 64, [])) ∧
      ((∀ f, f ∈ [Value.scalar .bool 1, Value.scalar .int64 5, Value.scalar .bool 0] →
          ∃ t bits, f = .scalar t bits ∧ fixedWidth t.kind = true) →
        sizeOf emptyHeap (1 + 1) (.struct [.scalar .bool 1, .scalar .int64 5, .scalar .bool 0]) [] =
          some (.ok ((Value.struct
            [.scalar .bool 1, .scalar .int64 5, .scalar .bool 0]).type.size, []))) :=
  sizeOf_struct_padding emptyHeap 1 [.scalar .bool 1, .scalar .int64 5, .scalar .bool 0] []
    [1, 8, 1] [] (by decide) (by rfl)

/-! ### Strings -/

theorem sizeOf_string_new (h : Heap) (fuel : Nat) (s : GoString) (cache : Visited)
    (hnew : s.data ∉ cache) (hlen : s.len < 2 ^ 63) :
    sizeOf h (fuel + 1) (.string s) cache = some (.ok (s.len + 16, s.data :: cache)) := by
  have hc : cache.contains s.data = false := by simpa using hnew
  rw [sizeOf]
  simp only [hc, size_string, Bool.false_eq_true, if_false]
  rw [u64_of_lt (by omega : s.len < 2 ^ 64), u64_of_lt (by omega : s.len + 16 < 2 ^ 64)]

theorem sizeOf_string_seen (h : Heap) (fuel : Nat) (s : GoString) (cache : Visited)
    (hseen : s.data ∈ cache) :
    sizeOf h (fuel + 1) (.string s) cache = some (.ok (16, cache)) := by
  have hc : cache.contains s.data = true := by simpa using hseen
  rw [sizeOf]
  simp only [hc, size_string, if_true]

theorem padding_two_strings :
    List.foldl (fun (p : Nat) (x : Nat) => subWrap p (u64 x))
      (u64 (GoType.struct [GoType.string, GoType.string]).size)
      [GoType.string.size, GoType.string.size] = 0 := by rfl

/-- C12 (sharing dedup for text). For a record with two text fields whose strings have the same
backing-storage address, sized by `calcSize`: the first field contributes its length
plus the 16-byte string header and records the address, the second contributes the
header only, so the content is counted once and the record costs the length plus 32.
(Lengths are below `2 ^ 63`, as every Go length is.) -/
theorem calcSize_shared_string (fuel : Nat) (h : Heap) (s1 s2 : GoString)
    (hsame : s1.data = s2.data) (hlen : s1.len < 2 ^ 63) :
    sizeOf h (fuel + 1) (.string s1) [] = some (.ok (s1.len + 16, [s1.data])) ∧
      sizeOf h (fuel + 1) (.string s2) [s1.data] = some (.ok (16, [s1.data])) ∧
      calcSize (fuel + 2) h (.val (.struct [.string s1, .string s2])) =
        some (.ok (s1.len + 32)) := by
  have h1 := sizeOf_string_new h fuel s1 [] (by simp) hlen
  have h2 := sizeOf_string_seen h fuel s2 [s1.data] (by simp [hsame])
  refine ⟨h1, h2, ?_⟩
  have hs : sizesOf (sizeOf h (fuel + 1)) [Value.string s1, Value.string s2] [] =
      some (.ok ([s1.len + 16, 16], [s1.data])) := by
    simp only [sizesOf, h1, h2]
  have hty : Value.types [Value.string s1, Value.string s2] = [GoType.string, GoType.string] :=
    rfl
  have hmap : [Value.string s1, Value.string s2].map (fun f => f.type.size) =
      [GoType.string.size, GoType.string.size] := rfl
  have hind : indirectValueOf h (.val (.struct [.string s1, .string s2])) =
      .struct [.string s1, .string s2] := rfl
  unfold calcSize
  rw [hind, sizeOf_struct, sumSizes_of_sizesOf _ _ _ _ _ hs 0 (by norm_num), hty, hmap,
    padding_two_strings]
  simp only [List.sum_cons, List.sum_nil, Nat.add_zero, Nat.zero_add]
  rw [Nat.mod_eq_of_lt (by omega), u64_of_lt (by omega)]

/-- Witness for C12: two fields holding the same 50-byte string at address 7 cost 82 bytes. -/
theorem calcSize_shared_string_witness :
    sizeOf emptyHeap 1 (.string ⟨7, long50⟩) [] =
        some (.ok ((GoString.mk 7 long50).len + 16, [7])) ∧
      sizeOf emptyHeap 1 (.string ⟨7, long50⟩) [7] = some (.ok (16, [7])) ∧
      calcSize 2 emptyHeap (.val (.struct [.string ⟨7, long50⟩, .string ⟨7, long50⟩])) =
        some (.ok ((GoString.mk 7 long50).len + 32)) :=
  calcSize_shared_string 0 emptyHeap ⟨7, long50⟩ ⟨7, long50⟩ rfl (by decide)

/-! ### Maps -/

/-- When every key reads back the value of its own entry, the sum the entry loop of `sizeOf`
computes is the sum of the value and key sizes, in `uint64` arithmetic. -/
theorem sumEntries_of_entrySizesOf (f : Value → Visited → Sized) (index : Value → Value) :
    ∀ (l : List (Value × Value)), (∀ e, e ∈ l → index e.1 = e.2) →
      ∀ (cache : Visited) (ss : List (Nat × Nat)) (cache1 : Visited),
      entrySizesOf f l cache = some (.ok (ss, cache1)) →
      ∀ sum, sum < 2 ^ 64 →
        sumEntries f index (l.map Prod.fst) sum cache =
          some (.ok ((sum + (ss.map (fun p => p.1 + p.2)).sum) % 2 ^ 64, cache1)) := by
  intro l
  induction l with
  | nil =>
    intro _ cache ss cache1 hs sum hsum
    simp only [entrySizesOf] at hs
    injection hs with hs
    injection hs with hs
    injection hs with h1 h2
    subst h1; subst h2
    simp only [sumEntries, List.map_nil, List.sum_nil, Nat.add_zero, Nat.mod_eq_of_lt hsum]
  | cons e kvs ih =>
    obtain ⟨key, val⟩ := e
    intro hfound cache ss cache1 hs sum hsum
    have hkv : index key = val := hfound (key, val) (List.mem_cons_self _ _)
    have ih := ih (fun e he => hfound e (List.mem_cons_of_mem _ he))
    rw [entrySizesOf] at hs
    rw [List.map_cons, sumEntries, hkv]
    cases hv : f val cache with
    | none => simp [hv] at hs
    | some r =>
      cases r with
      | error e => simp [hv] at hs
      | ok p =>
        obtain ⟨s1, c1⟩ := p
        simp only [hv] at hs ⊢
        cases hk : f key c1 with
        | none => simp [hk] at hs
        | some r1 =>
          cases r1 with
          | error e => simp [hk] at hs
          | ok p1 =>
            obtain ⟨s2, c2⟩ := p1
            simp only [hk] at hs ⊢
            cases hrest : entrySizesOf f kvs c2 with
            | none => simp [hrest] at hs
            | some r2 =>
              cases r2 with
              | error e => simp [hrest] at hs
              | ok p2 =>
                obtain ⟨ss2, c3⟩ := p2
                simp only [hrest] at hs
                injection hs with hs
                injection hs with hs
                injection hs with h1 h2
                subst h1; subst h2
                rw [ih c2 ss2 c3 hrest (u64 (sum + u64 (s1 + s2))) (u64_lt _)]
                simp only [List.map_cons, List.sum_cons, u64]
                congr 3
                omega

set_option maxRecDepth 100000 in
theorem overhead_small_check :
    (List.range 300).all (fun n => bucketOverhead n == 1079 * n / 100) = true := by rfl

theorem overhead_small (n : Nat) (hn : n < 300) : bucketOverhead n = 1079 * n / 100 := by
  have h := List.all_eq_true.mp overhead_small_check n (List.mem_range.mpr hn)
  simpa using h

/-- The entry loop stops with the error of the first value that cannot be sized, here the
value read back for `key` after the entries `pre` were sized. -/
theorem sumEntries_error_at (f : Value → Visited → Sized) (index : Value → Value) :
    ∀ (pre : List (Value × Value)), (∀ e, e ∈ pre → index e.1 = e.2) →
      ∀ (cache : Visited) (ss : List (Nat × Nat)) (cache1 : Visited) (key : Value)
        (post : List Value) (err : String),
      entrySizesOf f pre cache = some (.ok (ss, cache1)) →
      f (index key) cache1 = some (.error err) →
      ∀ sum, sumEntries f index (pre.map Prod.fst ++ key :: post) sum cache
        = some (.error err) := by
  intro pre
  induction pre with
  | nil =>
    intro _ cache ss cache1 key post err hs hk sum
    simp only [entrySizesOf] at hs
    injection hs with hs
    injection hs with hs
    injection hs with h1 h2
    subst h2
    simp only [List.map_nil, List.nil_append, sumEntries, hk]
  | cons e kvs ih =>
    obtain ⟨k1, v1⟩ := e
    intro hfound cache ss cache1 key post err hs hk sum
    have hkv : index k1 = v1 := hfound (k1, v1) (List.mem_cons_self _ _)
    have ih := ih (fun e he => hfound e (List.mem_cons_of_mem _ he))
    rw [entrySizesOf] at hs
    rw [List.map_cons, List.cons_append, sumEntries, hkv]
    cases hv : f v1 cache with
    | none => simp [hv] at hs
    | some r =>
      cases r with
      | error e => simp [hv] at hs
      | ok p =>
        obtain ⟨s1, c1⟩ := p
        simp only [hv] at hs ⊢
        cases hk1 : f k1 c1 with
        | none => simp [hk1] at hs
        | some r1 =>
          cases r1 with
          | error e => simp [hk1] at hs
          | ok p1 =>
            obtain ⟨s2, c2⟩ := p1
            simp only [hk1] at hs ⊢
            cases hrest : entrySizesOf f kvs c2 with
            | none => simp [hrest] at hs
            | some r2 =>
              cases r2 with
              | error e => simp [hrest] at hs
              | ok p2 =>
                obtain ⟨ss2, c3⟩ := p2
                simp only [hrest] at hs
                injection hs with hs
                injection hs with hs
                injection hs with h1 h2
                subst h2
                exact ih c2 ss2 c3 key post err hrest hk _

/-- The estimate of a map whose keys each read back the value of their own entry. -/
theorem sizeOf_map_sized (h : Heap) (fuel addr : Nat) (cache : Visited)
    (sizes : List (Nat × Nat)) (cache1 : Visited) (hnew : addr ∉ cache)
    (hfound : ∀ e, e ∈ mapEntries h addr → h.MapIndex addr e.1 = e.2)
    (hentries : entrySizesOf (sizeOf h fuel) (mapEntries h addr) (addr :: cache) =
      some (.ok (sizes, cache1))) :
    sizeOf h (fuel + 1) (.map addr) cache =
      some (.ok (((sizes.map (fun p => p.1 + p.2)).sum + 8 +
        bucketOverhead (mapEntries h addr).length) % 2 ^ 64, cache1)) := by
  have hc : cache.contains addr = false := by simpa using hnew
  rw [sizeOf]
  simp only [hc, Bool.false_eq_true, if_false, Heap.MapKeys]
  rw [sumEntries_of_entrySizesOf _ _ _ hfound _ _ _ hentries 0 (by norm_num)]
  simp only [size_map, Nat.zero_add, List.length_map]
  unfold u64
  congr 3
  omega

/-- In `bigMapHeap` every key reads back the value of its entry. -/
theorem bigMapHeap_found :
    ∀ e, e ∈ mapEntries bigMapHeap 1 → bigMapHeap.MapIndex 1 e.1 = e.2 := by
  have hl : mapEntries bigMapHeap 1 =
      (List.range 300).map (fun i => (Value.scalar .int i, Value.scalar .int 0)) := rfl
  have hval : ∀ e, e ∈ mapEntries bigMapHeap 1 → e.2 = Value.scalar .int 0 := by
    intro e he
    rw [hl] at he
    obtain ⟨i, -, rfl⟩ := List.mem_map.mp he
    rfl
  have hrefl : ∀ e, e ∈ mapEntries bigMapHeap 1 → keyEq e.1 e.1 = true := by
    intro e he
    rw [hl] at he
    obtain ⟨i, -, rfl⟩ := List.mem_map.mp he
    simp [keyEq, scalarEq, GoType.kind]
  intro e he
  unfold Heap.MapIndex
  cases hf : (mapEntries bigMapHeap 1).find? (fun x => keyEq x.1 e.1) with
  | none =>
    have := List.find?_eq_none.mp hf e he
    simp [hrefl e he] at this
  | some e1 =>
    simp only
    rw [hval e1 (List.mem_of_find?_eq_some hf), hval e he]

theorem calcSize_of_sizeOf (h : Heap) (fuel : Nat) (v : Value) (s : Nat) (c : Visited)
    (hs : sizeOf h fuel (indirectValueOf h (.val v)) [] = some (.ok (s, c))) :
    calcSize fuel h (.val v) = some (.ok s) := by
  unfold calcSize
  rw [hs]

set_option maxRecDepth 100000 in
theorem bigMapHeap_sizes :
    entrySizesOf (sizeOf bigMapHeap 1) (mapEntries bigMapHeap 1) [1] =
      some (.ok (List.replicate 300 (8, 8), [1])) := by rfl

set_option maxRecDepth 100000 in
theorem bigMapHeap_size : sizeOf bigMapHeap (1 + 1) (.map 1) [] = some (.ok (8044, [1])) := by
  have hsz := sizeOf_map_sized bigMapHeap 1 1 [] _ _ (by simp) bigMapHeap_found
    bigMapHeap_sizes
  have hnum : ((List.replicate 300 ((8 : Nat), (8 : Nat))).map (fun p => p.1 + p.2)).sum + 8 +
      bucketOverhead (mapEntries bigMapHeap 1).length = 8044 := by rfl
  rw [hnum] at hsz
  exact hsz

set_option maxRecDepth 100000 in
/-- C17, as the claim states it, fails twice. For a map with 300 entries the overhead the code
adds, `uint64(float64(300) * 10.79)`, is 3236, while `floor(10.79 * 300)` is 3237 (the
float64 nearest to 10.79 lies below it, and the product rounds below 3237): with `int`
keys and values the estimate is 300 * 16 + 8 + 3236 = 8044, not 8045. And for a map whose
one key is a NaN the value is read back with `MapIndex`, which does not find a key that
is not equal to itself: the estimate fails with the error for the invalid kind. -/
theorem sizeOf_map_counterexample :
    (mapEntries bigMapHeap 1).length = 300 ∧ bucketOverhead 300 = 3236 ∧
      1079 * 300 / 100 = 3237 ∧
      calcSize 2 bigMapHeap (.val (.map 1)) = some (.ok 8044) ∧
      300 * (8 + 8) + 8 + 1079 * 300 / 100 = 8045 ∧
      (mapEntries nanMapHeap 1).length = 1 ∧
      calcSize 2 nanMapHeap (.val (.map 1)) = some (.error "unknown type: invalid") := by
  exact ⟨by rfl, by decide, by decide,
    calcSize_of_sizeOf bigMapHeap 2 (.map 1) 8044 [1] bigMapHeap_size,
    by decide, by rfl, by rfl⟩

/-- C17, amended. For a map with `n` entries whose address is not in the visited set, whose
keys each read back the value of their own entry (every key is equal to itself), and
whose entries are sized one after the other (value, then key, visited set threaded
through, the map's own address recorded first), the estimate is the sum over the entries
of the value size plus the key size, plus the 8-byte map header, plus the overhead
`uint64(float64(n) * 10.79)` computed in float64, in `uint64` arithmetic. That overhead
equals `floor(10.79 * n)` for every `n` below 300; an empty map costs exactly the header
width; a map whose address is already in the visited set costs 0. A key that does not
read back a value (a NaN), met after entries that were sized, ends the estimate with the
error for the invalid kind. -/
theorem sizeOf_map_rule (h : Heap) (fuel addr : Nat) (cache : Visited) (hnew : addr ∉ cache) :
    (∀ (sizes : List (Nat × Nat)) (cache1 : Visited),
      (∀ e, e ∈ mapEntries h addr → h.MapIndex addr e.1 = e.2) →
      entrySizesOf (sizeOf h fuel) (mapEntries h addr) (addr :: cache) =
        some (.ok (sizes, cache1)) →
      sizeOf h (fuel + 1) (.map addr) cache =
        some (.ok (((sizes.map (fun p => p.1 + p.2)).sum + 8 +
          bucketOverhead (mapEntries h addr).length) % 2 ^ 64, cache1))) ∧
      ((mapEntries h addr).length < 300 →
        bucketOverhead (mapEntries h addr).length = 1079 * (mapEntries h addr).length / 100) ∧
      (mapEntries h addr = [] →
        sizeOf h (fuel + 1) (.map addr) cache = some (.ok (8, addr :: cache))) ∧
      (∀ cache2 : Visited, addr ∈ cache2 →
        sizeOf h (fuel + 1) (.map addr) cache2 = some (.ok (0, cache2))) ∧
      (∀ (pre : List (Value × Value)) (key : Value) (post : List Value)
          (sizes2 : List (Nat × Nat)) (cache2 : Visited),
        0 < fuel →
        h.MapKeys addr = pre.map Prod.fst ++ key :: post →
        (∀ e, e ∈ pre → h.MapIndex addr e.1 = e.2) →
        entrySizesOf (sizeOf h fuel) pre (addr :: cache) = some (.ok (sizes2, cache2)) →
        h.MapIndex addr key = .invalid →
        sizeOf h (fuel + 1) (.map addr) cache = some (.error "unknown type: invalid")) := by
  have hc : cache.contains addr = false := by simpa using hnew
  refine ⟨fun sizes cache1 hfound hentries => ?_, fun hn => overhead_small _ hn,
    fun hnil => ?_, fun cache2 hseen => ?_,
    fun pre key post sizes2 cache2 hfuel hkeys hpre hsz hnone => ?_⟩
  · exact sizeOf_map_sized h fuel addr cache sizes cache1 hnew hfound hentries
  · rw [sizeOf]
    simp only [hc, Bool.false_eq_true, if_false, Heap.MapKeys, hnil, List.map_nil, sumEntries]
    rfl
  · have hc2 : cache2.contains addr = true := by simpa using hseen
    rw [sizeOf]
    simp only [hc2, if_true]
  · rw [sizeOf]
    simp only [hc, Bool.false_eq_true, if_false, hkeys]
    obtain ⟨m, rfl⟩ : ∃ m, fuel = m + 1 := ⟨fuel - 1, by omega⟩
    rw [sumEntries_error_at _ _ pre hpre _ _ _ key post "unknown type: invalid" hsz
      (by rw [hnone]; rfl) 0]

/-- Witness for the amended C17: a map at address 1 with the single entry 7 ↦ 9 (`int` key and
value) costs 8 + 8 + 8 + 10 = 34; a map whose one key is a NaN gives the error. -/
theorem sizeOf_map_rule_witness :
    sizeOf ⟨fun _ => .invalid, fun _ => [],
          fun a => if a = 1 then [(.scalar .int 7, .scalar .int 9)] else []⟩ (1 + 1) (.map 1) [] =
        some (.ok ((([(8, 8)].map (fun p : Nat × Nat => p.1 + p.2)).sum + 8 +
          bucketOverhead (mapEntries ⟨fun _ => .invalid, fun _ => [],
            fun a => if a = 1 then [(.scalar .int 7, .scalar .int 9)] else []⟩ 1).length) % 2 ^ 64,
          [1])) ∧
      sizeOf ⟨fun _ => .invalid, fun _ => [],
          fun a => if a = 1 then [(.scalar .int 7, .scalar .int 9)] else []⟩ 2 (.map 1) [] =
        some (.ok (34, [1])) ∧
      sizeOf nanMapHeap (1 + 1) (.map 1) [] = some (.error "unknown type: invalid") :=
  ⟨(sizeOf_map_rule ⟨fun _ => .invalid, fun _ => [],
      fun a => if a = 1 then [(.scalar .int 7, .scalar .int 9)] else []⟩ 1 1 [] (by simp)).1
      [(8, 8)] [1]
      (by
        intro e he
        have he1 : e = (.scalar .int 7, .scalar .int 9) := by simpa [mapEntries] using he
        rw [he1]
        rfl)
      (by rfl), by rfl,
    (sizeOf_map_rule nanMapHeap 1 1 [] (by simp)).2.2.2.2 []
      (.scalar .float64 0x7FF8000000000001) [] [] [1]
      (by decide) (by rfl) (by intro e he; cases he) (by rfl) (by rfl)⟩

/-! ### Pointers and interfaces -/

theorem sizesOf_append_error (f : Value → Visited → Sized) :
    ∀ (pre : List Value) (cache : Visited) (ss : List Nat) (cache1 : Visited) (x : Value)
      (post : List Value) (err : String),
      sizesOf f pre cache = some (.ok (ss, cache1)) → f x cache1 = some (.error err) →
      sizesOf f (pre ++ x :: post) cache = some (.error err) := by
  intro pre
  induction pre with
  | nil =>
    intro cache ss cache1 x post err hs hx
    simp only [sizesOf] at hs
    injection hs with hs
    injection hs with hs
    injection hs with h1 h2
    subst h2
    simp only [List.nil_append, sizesOf, hx]
  | cons v vs ih =>
    intro cache ss cache1 x post err hs hx
    rw [sizesOf] at hs
    rw [List.cons_append, sizesOf]
    cases hf : f v cache with
    | none => simp [hf] at hs
    | some r =>
      cases r with
      | error e => simp [hf] at hs
      | ok p =>
        obtain ⟨s, c1⟩ := p
        simp only [hf] at hs ⊢
        cases hrest : sizesOf f vs c1 with
        | none => simp [hrest] at hs
        | some r2 =>
          cases r2 with
          | error e => simp [hrest] at hs
          | ok p2 =>
            obtain ⟨ss2, c2⟩ := p2
            simp only [hrest] at hs
            injection hs with hs
            injection hs with hs
            injection hs with h1 h2
            subst h2
            rw [ih c1 ss2 c2 x post err hrest hx]

/-- The pointer case of `sizeOf`, as reached in the walk: a nil pointer costs the 8-byte
reference width and is no error; a pointer whose address is in the visited set costs the
reference width; otherwise the address is recorded and the cost is that of the target
plus the reference width, an error of the target being returned as it is. -/
theorem sizeOf_ptr_rule (h : Heap) (fuel addr : Nat) (cache : Visited) :
    (∃ cache1, sizeOf h (fuel + 1) (.ptr 0) cache = some (.ok (8, cache1))) ∧
      (addr ∈ cache → sizeOf h (fuel + 1) (.ptr addr) cache = some (.ok (8, cache))) ∧
      (addr ≠ 0 → addr ∉ cache → ∀ s cache1,
        sizeOf h fuel (h.target addr) (addr :: cache) = some (.ok (s, cache1)) →
        sizeOf h (fuel + 1) (.ptr addr) cache = some (.ok ((s + 8) % 2 ^ 64, cache1))) ∧
      (addr ≠ 0 → addr ∉ cache → ∀ err,
        sizeOf h fuel (h.target addr) (addr :: cache) = some (.error err) →
        sizeOf h (fuel + 1) (.ptr addr) cache = some (.error err)) ∧
      (addr ≠ 0 → calcSize fuel h (.val (.ptr addr)) = calcSize fuel h (.addr (h.target addr))) := by
  refine ⟨?_, fun hseen => ?_, fun h0 hnew s cache1 ht => ?_, fun h0 hnew err ht => ?_,
    fun h0 => ?_⟩
  · rw [sizeOf]
    by_cases hc : cache.contains 0 = true
    · exact ⟨cache, by simp only [hc, if_true, size_ptr]⟩
    · have hc' : cache.contains 0 = false := by simpa using hc
      exact ⟨0 :: cache, by simp only [hc', Bool.false_eq_true, if_false, if_true, size_ptr]⟩
  · have hc : cache.contains addr = true := by simpa using hseen
    rw [sizeOf]
    simp only [hc, if_true, size_ptr]
  · have hc : cache.contains addr = false := by simpa using hnew
    rw [sizeOf]
    simp only [hc, Bool.false_eq_true, if_false, h0, Indirect, ht, size_ptr]
    rfl
  · have hc : cache.contains addr = false := by simpa using hnew
    rw [sizeOf]
    simp only [hc, Bool.false_eq_true, if_false, h0, Indirect, ht]
  · unfold calcSize
    simp only [indirectValueOf, Indirect, h0, if_false]

/-- C14 at a failing input. A nil pointer passed directly to `calcSize` is turned into the zero
`reflect.Value` by `reflect.Indirect`, and `sizeOf` returns the error for the invalid
kind instead of the reference width; so `NewMaxBytesCache` fails for a pointer type.
Reached inside a struct, the same nil pointer costs 8 bytes and is no error. -/
theorem calcSize_nil_pointer :
    calcSize 2 emptyHeap (.val (.ptr 0)) = some (.error "unknown type: invalid") ∧
      NewMaxBytesCache 2 emptyHeap .ptr 100 1 = some (.error "unknown type: invalid") ∧
      calcSize 2 emptyHeap (.val (.struct [.ptr 0])) = some (.ok 8) :=
  ⟨rfl, rfl, rfl⟩

/-! ### Unsupported kinds -/

theorem follows_list (wf : Value → Visited → Walked) (sf : Value → Visited → Sized) :
    ∀ (l : List Value), (∀ v, v ∈ l → ∀ cache, Follows (wf v cache) (sf v cache)) →
      ∀ sum cache, Follows (walkList wf l cache) (sumSizes sf l sum cache) := by
  intro l
  induction l with
  | nil => intro _ sum cache; exact ⟨sum, rfl⟩
  | cons v vs ih =>
    intro hl sum cache
    have hv := hl v (List.mem_cons_self _ _) cache
    rw [walkList, sumSizes]
    cases hw : wf v cache with
    | none =>
      rw [hw] at hv
      simp only [Follows] at hv
      simp only [hv]
      rfl
    | some r =>
      cases r with
      | error k =>
        rw [hw] at hv
        simp only [Follows] at hv
        simp only [hv.2]
        exact ⟨hv.1, rfl⟩
      | ok c1 =>
        rw [hw] at hv
        obtain ⟨size, hsz⟩ := hv
        simp only [hsz]
        exact ih (fun w hwm => hl w (List.mem_cons_of_mem _ hwm)) _ _

theorem follows_entries (wf : Value → Visited → Walked) (sf : Value → Visited → Sized)
    (index : Value → Value) :
    ∀ (keys : List Value),
      (∀ k, k ∈ keys → ∀ cache, Follows (wf k cache) (sf k cache) ∧
        Follows (wf (index k) cache) (sf (index k) cache)) →
      ∀ sum cache, Follows (walkEntries wf index keys cache) (sumEntries sf index keys sum cache) := by
  intro keys
  induction keys with
  | nil => intro _ sum cache; exact ⟨sum, rfl⟩
  | cons key keys ih =>
    intro hl sum cache
    have hval := (hl key (List.mem_cons_self _ _) cache).2
    rw [walkEntries, sumEntries]
    cases hw : wf (index key) cache with
    | none =>
      rw [hw] at hval
      simp only [Follows] at hval
      simp only [hval]
      rfl
    | some r =>
      cases r with
      | error k =>
        rw [hw] at hval
        simp only [Follows] at hval
        simp only [hval.2]
        exact ⟨hval.1, rfl⟩
      | ok c1 =>
        rw [hw] at hval
        obtain ⟨s1, hs1⟩ := hval
        simp only [hs1]
        have hkey := (hl key (List.mem_cons_self _ _) c1).1
        cases hw2 : wf key c1 with
        | none =>
          rw [hw2] at hkey
          simp only [Follows] at hkey
          simp only [hkey]
          rfl
        | some r2 =>
          cases r2 with
          | error k =>
            rw [hw2] at hkey
            simp only [Follows] at hkey
            simp only [hkey.2]
            exact ⟨hkey.1, rfl⟩
          | ok c2 =>
            rw [hw2] at hkey
            obtain ⟨s2, hs2⟩ := hkey
            simp only [hs2]
            exact ih (fun w hwm => hl w (List.mem_cons_of_mem _ hwm)) _ _

/-- What `MapIndex` returns is the value of an entry of the map, or the zero Value. -/
theorem MapIndex_cases (h : Heap) (addr : Nat) (key : Value) :
    h.MapIndex addr key = .invalid ∨ ∃ e, e ∈ mapEntries h addr ∧ h.MapIndex addr key = e.2 := by
  unfold Heap.MapIndex
  cases hf : (mapEntries h addr).find? (fun e => keyEq e.1 key) with
  | none => left; rfl
  | some e => right; exact ⟨e, List.mem_of_find?_eq_some hf, rfl⟩

theorem isInvalid_eq (v : Value) (hv : v.isInvalid = true) : v = .invalid := by
  cases v <;> simp [Value.isInvalid] at hv ⊢

theorem allWellKinded_mem : ∀ (l : List Value), Value.allWellKinded l = true →
    ∀ v, v ∈ l → v.wellKinded = true := by
  intro l
  induction l with
  | nil => intro _ v hv; cases hv
  | cons x xs ih =>
    intro hl v hv
    rw [Value.allWellKinded, Bool.and_eq_true] at hl
    rcases List.mem_cons.mp hv with h1 | h1
    · rw [h1]; exact hl.1
    · exact ih hl.2 v h1

/-- The result of `sizeOf` follows the walk, for well-kinded values in a well-kinded heap. -/
theorem sizeOf_follows_walk (h : Heap) (hh : h.WellKinded) :
    ∀ (fuel : Nat) (v : Value) (cache : Visited), v.wellKinded = true →
      Follows (walk h fuel v cache) (sizeOf h fuel v cache) := by
  intro fuel
  induction fuel with
  | zero => intro v cache _; rfl
  | succ fuel ih =>
    intro v cache hv
    have hlist : ∀ (l : List Value), (∀ x, x ∈ l → x.wellKinded = true) → ∀ sum c,
        Follows (walkList (walk h fuel) l c) (sumSizes (sizeOf h fuel) l sum c) :=
      fun l hl sum c => follows_list _ _ l (fun x hx c1 => ih x c1 (hl x hx)) sum c
    cases v with
    | invalid => exact ⟨rfl, rfl⟩
    | unsafePointer addr => exact ⟨rfl, rfl⟩
    | scalar t bits =>
      rw [Value.wellKinded] at hv
      have hk : hasRule (Value.kind (.scalar t bits)) = true := by
        show hasRule t.kind = true
        cases hkind : t.kind <;> simp [hkind, fixedWidth, hasRule] at hv ⊢
      rw [sizeOf_scalar_fixed h fuel t bits cache hv]
      simp only [walk, hk, Bool.true_eq_false, if_false]
      exact ⟨_, rfl⟩
    | array elem elems =>
      rw [Value.wellKinded] at hv
      have hl := hlist elems (allWellKinded_mem elems hv) 0 cache
      rw [walk, sizeOf]
      have hk : hasRule (Value.kind (.array elem elems)) = true := rfl
      simp only [hk, Bool.true_eq_false, if_false]
      cases hw : walkList (walk h fuel) elems cache with
      | none =>
        rw [hw] at hl
        simp only [Follows] at hl
        simp only [hl]
        rfl
      | some r =>
        cases r with
        | error k =>
          rw [hw] at hl
          simp only [Follows] at hl
          simp only [hl.2]
          exact ⟨hl.1, rfl⟩
        | ok c1 =>
          rw [hw] at hl
          obtain ⟨size, hsz⟩ := hl
          simp only [hsz]
          exact ⟨_, rfl⟩
    | struct fields =>
      rw [Value.wellKinded] at hv
      have hl := hlist fields (allWellKinded_mem fields hv) 0 cache
      rw [walk, sizeOf_struct]
      have hk : hasRule (Value.kind (.struct fields)) = true := rfl
      simp only [hk, Bool.true_eq_false, if_false]
      cases hw : walkList (walk h fuel) fields cache with
      | none =>
        rw [hw] at hl
        simp only [Follows] at hl
        simp only [hl]
        rfl
      | some r =>
        cases r with
        | error k =>
          rw [hw] at hl
          simp only [Follows] at hl
          simp only [hl.2]
          exact ⟨hl.1, rfl⟩
        | ok c1 =>
          rw [hw] at hl
          obtain ⟨size, hsz⟩ := hl
          simp only [hsz]
          exact ⟨_, rfl⟩
    | slice elemSize ptr len cap =>
      have hl := hlist ((h.backing ptr).take len)
        (fun x hx => (hh ptr).2.1 x (List.mem_of_mem_take hx)) 0 (ptr :: cache)
      rw [walk, sizeOf]
      have hk : hasRule (Value.kind (.slice elemSize ptr len cap)) = true := rfl
      simp only [hk, Bool.true_eq_false, if_false]
      by_cases hc : cache.contains ptr = true
      · simp only [hc, if_true]
        exact ⟨_, rfl⟩
      · simp only [hc, if_false]
        cases hw : walkList (walk h fuel) ((h.backing ptr).take len) (ptr :: cache) with
        | none =>
          rw [hw] at hl
          simp only [Follows] at hl
          simp only [hl]
          rfl
        | some r =>
          cases r with
          | error k =>
            rw [hw] at hl
            simp only [Follows] at hl
            simp only [hl.2]
            exact ⟨hl.1, rfl⟩
          | ok c1 =>
            rw [hw] at hl
            obtain ⟨size, hsz⟩ := hl
            simp only [hsz]
            exact ⟨_, rfl⟩
    | string s =>
      rw [walk, sizeOf]
      have hk : hasRule (Value.kind (.string s)) = true := rfl
      simp only [hk, Bool.true_eq_false, if_false]
      by_cases hc : cache.contains s.data = true
      · simp only [hc, if_true]
        exact ⟨_, rfl⟩
      · simp only [hc, if_false]
        exact ⟨_, rfl⟩
    | ptr addr =>
      rw [walk, sizeOf]
      have hk : hasRule (Value.kind (.ptr addr)) = true := rfl
      simp only [hk, Bool.true_eq_false, if_false]
      by_cases hc : cache.contains addr = true
      · simp only [hc, if_true]
        exact ⟨_, rfl⟩
      · simp only [hc, if_false]
        by_cases h0 : addr = 0
        · simp only [h0, if_true]
          exact ⟨_, rfl⟩
        · simp only [h0, if_false, Indirect]
          have ht := ih (h.target addr) (addr :: cache) (hh addr).1
          cases hw : walk h fuel (h.target addr) (addr :: cache) with
          | none =>
            rw [hw] at ht
            simp only [Follows] at ht
            simp only [ht]
            rfl
          | some r =>
            cases r with
            | error k =>
              rw [hw] at ht
              simp only [Follows] at ht
              simp only [ht.2]
              exact ⟨ht.1, rfl⟩
            | ok c1 =>
              rw [hw] at ht
              obtain ⟨size, hsz⟩ := ht
              simp only [hsz]
              exact ⟨_, rfl⟩
    | map addr =>
      have hent : ∀ e, e ∈ mapEntries h addr →
          e.1.wellKinded = true ∧ e.2.wellKinded = true := by
        intro e he
        unfold mapEntries at he
        by_cases h0 : addr = 0
        · simp [h0] at he
        · simp only [h0, if_false] at he
          exact (hh addr).2.2 e he
      have hidx : ∀ key, (h.MapIndex addr key).wellKinded = true := by
        intro key
        rcases MapIndex_cases h addr key with h1 | ⟨e, he, h1⟩
        · rw [h1]; rfl
        · rw [h1]; exact (hent e he).2
      have hl := follows_entries (walk h fuel) (sizeOf h fuel) (h.MapIndex addr) (h.MapKeys addr)
        (fun k hk c => by
          obtain ⟨e, he, rfl⟩ := List.mem_map.mp hk
          exact ⟨ih e.1 c (hent e he).1, ih _ c (hidx e.1)⟩) 0 (addr :: cache)
      rw [walk, sizeOf]
      have hk : hasRule (Value.kind (.map addr)) = true := rfl
      simp only [hk, Bool.true_eq_false, if_false]
      by_cases hc : cache.contains addr = true
      · simp only [hc, if_true]
        exact ⟨_, rfl⟩
      · simp only [hc, if_false]
        cases hw : walkEntries (walk h fuel) (h.MapIndex addr) (h.MapKeys addr) (addr :: cache) with
        | none =>
          rw [hw] at hl
          simp only [Follows] at hl
          simp only [hl]
          rfl
        | some r =>
          cases r with
          | error k =>
            rw [hw] at hl
            simp only [Follows] at hl
            simp only [hl.2]
            exact ⟨hl.1, rfl⟩
          | ok c1 =>
            rw [hw] at hl
            obtain ⟨size, hsz⟩ := hl
            simp only [hsz]
            exact ⟨_, rfl⟩
    | iface elem =>
      rw [Value.wellKinded] at hv
      have ht := ih elem cache hv
      rw [walk, sizeOf]
      have hk : hasRule (Value.kind (.iface elem)) = true := rfl
      simp only [hk, Bool.true_eq_false, if_false]
      cases hw : walk h fuel elem cache with
      | none =>
        rw [hw] at ht
        simp only [Follows] at ht
        simp only [ht]
        rfl
      | some r =>
        cases r with
        | error k =>
          rw [hw] at ht
          simp only [Follows] at ht
          simp only [ht.2]
          by_cases hinv : elem.isInvalid = true
          · have he := isInvalid_eq elem hinv
            subst he
            cases fuel with
            | zero => simp [walk] at hw
            | succ m =>
              have hk2 : k = .unsupported .Invalid := by
                have : walk h (m + 1) .invalid cache = some (.error (.unsupported .Invalid)) := rfl
                rw [this] at hw
                injection hw with hw
                injection hw with hw
                exact hw.symm
              subst hk2
              simp only [hinv, if_true]
              exact ⟨rfl, rfl⟩
          · simp only [hinv, if_false, Bool.false_eq_true]
            exact ⟨ht.1, rfl⟩
        | ok c1 =>
          rw [hw] at ht
          obtain ⟨size, hsz⟩ := ht
          simp only [hsz]
          exact ⟨_, rfl⟩

theorem nilDeepHeap_wellKinded : nilDeepHeap.WellKinded := by
  intro a
  refine ⟨?_, fun v hv => absurd hv (List.not_mem_nil v), fun e he => ?_⟩
  · by_cases ha : a = 100
    · simp [nilDeepHeap, ha, Value.wellKinded, Value.allWellKinded]
    · simp [nilDeepHeap, ha, Value.wellKinded]
  · by_cases ha : a = 300
    · have he1 : e = (.string ⟨50, "k"⟩, .iface .invalid) := by
        simpa [nilDeepHeap, ha] using he
      rw [he1]
      exact ⟨rfl, rfl⟩
    · have : nilDeepHeap.entries a = [] := by simp [nilDeepHeap, ha]
      rw [this] at he
      cases he

/-- C20 (a nil dynamic value is an error). Whenever the walk over a value reaches an interface
value that holds nil, at whatever depth (as a field, an element, a map value or key, a
pointer target, the content of another interface), `sizeOf` and `calcSize` return the
error for the invalid kind and no size; so does a nil interface passed directly to
`calcSize`. In particular a struct, an array or a slice with such a field or element,
the fields or elements before it being sized without error, returns that same error and
not the header width. A non-nil interface costs the size of its dynamic value plus the
16-byte interface header, in `uint64` arithmetic. -/
theorem sizeOf_interface_rule (h : Heap) (fuel : Nat) (cache : Visited) :
    (h.WellKinded → ∀ v, v.wellKinded = true →
        walk h fuel v cache = some (.error .nilInterface) →
        sizeOf h fuel v cache = some (.error "unknown type: invalid")) ∧
      (h.WellKinded → ∀ a, (indirectValueOf h a).wellKinded = true →
        walk h fuel (indirectValueOf h a) [] = some (.error .nilInterface) →
        calcSize fuel h a = some (.error "unknown type: invalid")) ∧
      sizeOf h (fuel + 2) (.iface .invalid) cache = some (.error "unknown type: invalid") ∧
      walk h (fuel + 2) (.iface .invalid) cache = some (.error .nilInterface) ∧
      calcSize (fuel + 1) h (.val (.iface .invalid)) = some (.error "unknown type: invalid") ∧
      (∀ pre post ss cache1, sizesOf (sizeOf h (fuel + 2)) pre cache = some (.ok (ss, cache1)) →
        sizeOf h (fuel + 3) (.struct (pre ++ .iface .invalid :: post)) cache =
          some (.error "unknown type: invalid") ∧
        ∀ elem, sizeOf h (fuel + 3) (.array elem (pre ++ .iface .invalid :: post)) cache =
          some (.error "unknown type: invalid")) ∧
      (∀ elemSize ptr len cap pre post ss cache1, ptr ∉ cache →
        (h.backing ptr).take len = pre ++ .iface .invalid :: post →
        sizesOf (sizeOf h (fuel + 2)) pre (ptr :: cache) = some (.ok (ss, cache1)) →
        sizeOf h (fuel + 3) (.slice elemSize ptr len cap) cache =
          some (.error "unknown type: invalid")) ∧
      (∀ e s cache1, sizeOf h fuel e cache = some (.ok (s, cache1)) →
        sizeOf h (fuel + 1) (.iface e) cache = some (.ok ((s + 16) % 2 ^ 64, cache1))) := by
  have hnil : ∀ c : Visited,
      sizeOf h (fuel + 2) (.iface .invalid) c = some (.error "unknown type: invalid") :=
    fun c => rfl
  have hsum : ∀ (pre post : List Value) (c : Visited) (ss : List Nat) (c1 : Visited),
      sizesOf (sizeOf h (fuel + 2)) pre c = some (.ok (ss, c1)) →
      sumSizes (sizeOf h (fuel + 2)) (pre ++ .iface .invalid :: post) 0 c =
        some (.error "unknown type: invalid") := by
    intro pre post c ss c1 hs
    exact sumSizes_error_of_sizesOf _ _ _ _
      (sizesOf_append_error _ pre c ss c1 _ post _ hs (hnil c1)) 0
  have hwalk : ∀ (v : Value) (c : Visited), h.WellKinded → v.wellKinded = true →
      walk h fuel v c = some (.error .nilInterface) →
      sizeOf h fuel v c = some (.error "unknown type: invalid") := by
    intro v c hh hv hw
    have hf := sizeOf_follows_walk h hh fuel v c hv
    rw [hw] at hf
    exact hf.2
  refine ⟨fun hh v hv hw => hwalk v cache hh hv hw, fun hh a hv hw => ?_, hnil cache, rfl, rfl,
    fun pre post ss cache1 hs => ⟨?_, fun elem => ?_⟩,
    fun elemSize ptr len cap pre post ss cache1 hnew hback hs => ?_, fun e s cache1 he => ?_⟩
  · unfold calcSize
    rw [hwalk _ [] hh hv hw]
  · rw [sizeOf_struct, hsum pre post cache ss cache1 hs]
  · rw [sizeOf, hsum pre post cache ss cache1 hs]
  · have hc : cache.contains ptr = false := by simpa using hnew
    rw [sizeOf]
    simp only [hc, Bool.false_eq_true, if_false, hback, hsum pre post (ptr :: cache) ss cache1 hs]
  · rw [sizeOf]
    simp only [he, size_interface]
    rfl

/-- Witness for C20: a nil interface that is a map value behind a pointer in a struct field;
a struct with an `int` field and a nil interface field; a non-nil interface holding an
`int` (8 + 16 = 24 bytes). -/
theorem sizeOf_interface_rule_witness :
    nilDeepHeap.WellKinded ∧
      walk nilDeepHeap 6 (indirectValueOf nilDeepHeap
        (.val (.struct [.scalar .int 1, .ptr 100]))) [] = some (.error .nilInterface) ∧
      calcSize 6 nilDeepHeap (.val (.struct [.scalar .int 1, .ptr 100])) =
        some (.error "unknown type: invalid") ∧
      sizeOf emptyHeap (0 + 3) (.struct ([.scalar .int 1] ++ .iface .invalid :: [])) [] =
        some (.error "unknown type: invalid") ∧
      sizeOf emptyHeap (1 + 1) (.iface (.scalar .int 1)) [] = some (.ok ((8 + 16) % 2 ^ 64, [])) :=
  ⟨nilDeepHeap_wellKinded, by rfl,
    (sizeOf_interface_rule nilDeepHeap 6 []).2.1 nilDeepHeap_wellKinded
      (.val (.struct [.scalar .int 1, .ptr 100])) (by rfl) (by rfl),
    ((sizeOf_interface_rule emptyHeap 0 []).2.2.2.2.2.1 [.scalar .int 1] [] [8] [] (by rfl)).1,
    (sizeOf_interface_rule emptyHeap 1 []).2.2.2.2.2.2.2 (.scalar .int 1) 8 [] (by rfl)⟩

/-! ### Termination on finite value graphs -/

theorem depthList_mem : ∀ (l : List Value) (v : Value), v ∈ l → v.depth ≤ Value.depthList l := by
  intro l
  induction l with
  | nil => intro v hv; cases hv
  | cons x xs ih =>
    intro v hv
    rw [Value.depthList]
    rcases List.mem_cons.mp hv with hx | hx
    · subst hx
      exact Nat.le_max_left _ _
    · exact Nat.le_trans (ih v hx) (Nat.le_max_right _ _)

theorem depthAt_le_depthOn (h : Heap) : ∀ (addrs : List Nat) (a : Nat), a ∈ addrs →
    h.depthAt a ≤ h.depthOn addrs := by
  intro addrs
  induction addrs with
  | nil => intro a ha; cases ha
  | cons x xs ih =>
    intro a ha
    show h.depthAt a ≤ max (h.depthAt x) (h.depthOn xs)
    rcases List.mem_cons.mp ha with hx | hx
    · subst hx
      exact Nat.le_max_left _ _
    · exact Nat.le_trans (ih a hx) (Nat.le_max_right _ _)

theorem heap_depth_le (h : Heap) (addrs : List Nat) (hs : h.SupportedBy addrs) (a : Nat) :
    (h.target a).depth ≤ h.depthOn addrs ∧
    (∀ v, v ∈ h.backing a → v.depth ≤ h.depthOn addrs) ∧
    (∀ e, e ∈ h.entries a → e.1.depth ≤ h.depthOn addrs ∧ e.2.depth ≤ h.depthOn addrs) := by
  by_cases ha : a ∈ addrs
  · have hd := depthAt_le_depthOn h addrs a ha
    unfold Heap.depthAt at hd
    refine ⟨by omega, ?_, ?_⟩
    · intro v hv
      have := depthList_mem _ v hv
      omega
    · intro e he
      have h1 := depthList_mem _ e.1 (List.mem_map_of_mem Prod.fst he)
      have h2 := depthList_mem _ e.2 (List.mem_map_of_mem Prod.snd he)
      omega
  · obtain ⟨h1, h2, h3⟩ := hs a ha
    rw [h1, h2, h3]
    refine ⟨by simp [Value.depth], ?_, ?_⟩
    · intro v hv; cases hv
    · intro e he; cases he

theorem unvisited_mono (addrs : List Nat) (c c1 : Visited) (hc : ∀ a, a ∈ c → a ∈ c1) :
    unvisited addrs c1 ≤ unvisited addrs c := by
  unfold unvisited
  apply List.Sublist.length_le
  apply List.monotone_filter_right
  intro a ha
  simp at ha ⊢
  exact fun hmem => ha (hc a hmem)

theorem unvisited_cons_lt : ∀ (addrs : List Nat) (c : Visited) (a : Nat), a ∈ addrs →
    c.contains a = false → unvisited addrs (a :: c) < unvisited addrs c := by
  intro addrs
  induction addrs with
  | nil => intro c a ha; cases ha
  | cons x xs ih =>
    intro c a ha hc
    have hm := unvisited_mono xs c (a :: c) (fun b hb => List.mem_cons_of_mem _ hb)
    unfold unvisited at ih hm ⊢
    simp only [List.contains_cons] at hm
    by_cases hx : x = a
    · subst hx
      simp only [List.filter_cons, List.contains_cons, beq_self_eq_true, Bool.true_or,
        Bool.not_true, hc, Bool.not_false, if_true, List.length_cons, Bool.false_eq_true,
        if_false]
      omega
    · have ha1 : a ∈ xs := by
        rcases List.mem_cons.mp ha with h1 | h1
        · exact absurd h1.symm hx
        · exact h1
      have := ih c a ha1 hc
      simp only [List.contains_cons] at this
      have hxa : (x == a) = false := by simpa using hx
      simp only [List.filter_cons, List.contains_cons, hxa, Bool.false_or]
      by_cases hcx : c.contains x = true
      · simp only [hcx, Bool.not_true, Bool.false_eq_true, if_false]
        exact this
      · simp only [hcx, Bool.not_false, if_true, List.length_cons]
        omega

theorem sumSizes_cache_mono (f : Value → Visited → Sized) :
    ∀ (l : List Value),
      (∀ x, x ∈ l → ∀ c s c1, f x c = some (.ok (s, c1)) → ∀ a, a ∈ c → a ∈ c1) →
      ∀ sum cache s c1, sumSizes f l sum cache = some (.ok (s, c1)) →
        ∀ a, a ∈ cache → a ∈ c1 := by
  intro l
  induction l with
  | nil =>
    intro _ sum cache s c1 hr a ha
    simp only [sumSizes, Option.some.injEq, Except.ok.injEq, Prod.mk.injEq] at hr
    rw [← hr.2]
    exact ha
  | cons x xs ih =>
    intro hf sum cache s c1 hr a ha
    rw [sumSizes] at hr
    cases hx : f x cache with
    | none => simp [hx] at hr
    | some r =>
      cases r with
      | error e => simp [hx] at hr
      | ok p =>
        obtain ⟨s2, c2⟩ := p
        simp only [hx] at hr
        exact ih (fun y hy => hf y (List.mem_cons_of_mem _ hy)) _ c2 s c1 hr a
          (hf x (List.mem_cons_self _ _) cache s2 c2 hx a ha)

theorem sumEntries_cache_mono (f : Value → Visited → Sized) (index : Value → Value)
    (hf : ∀ x c s c1, f x c = some (.ok (s, c1)) → ∀ a, a ∈ c → a ∈ c1) :
    ∀ (keys : List Value) sum cache s c1,
      sumEntries f index keys sum cache = some (.ok (s, c1)) → ∀ a, a ∈ cache → a ∈ c1 := by
  intro keys
  induction keys with
  | nil =>
    intro sum cache s c1 hr a ha
    simp only [sumEntries, Option.some.injEq, Except.ok.injEq, Prod.mk.injEq] at hr
    rw [← hr.2]
    exact ha
  | cons key keys ih =>
    intro sum cache s c1 hr a ha
    rw [sumEntries] at hr
    cases hv : f (index key) cache with
    | none => simp [hv] at hr
    | some r =>
      cases r with
      | error e => simp [hv] at hr
      | ok p =>
        obtain ⟨s1, c2⟩ := p
        simp only [hv] at hr
        cases hk : f key c2 with
        | none => simp [hk] at hr
        | some r2 =>
          cases r2 with
          | error e => simp [hk] at hr
          | ok q =>
            obtain ⟨s2, c3⟩ := q
            simp only [hk] at hr
            exact ih _ c3 s c1 hr a (hf key c2 s2 c3 hk a (hf _ cache s1 c2 hv a ha))

/-- The walk only adds to the visited set. -/
theorem sizeOf_cache_mono (h : Heap) :
    ∀ (fuel : Nat) (v : Value) (cache : Visited) (s : Nat) (c1 : Visited),
      sizeOf h fuel v cache = some (.ok (s, c1)) → ∀ a, a ∈ cache → a ∈ c1 := by
  intro fuel
  induction fuel with
  | zero => intro v cache s c1 hr; simp [sizeOf] at hr
  | succ fuel ih =>
    intro v cache s c1 hr a ha
    have hlist : ∀ (l : List Value) sum c s c1, sumSizes (sizeOf h fuel) l sum c = some (.ok (s, c1)) →
        ∀ a, a ∈ c → a ∈ c1 :=
      fun l => sumSizes_cache_mono _ l (fun x _ c s c1 => ih x c s c1)
    cases v with
    | invalid => simp [sizeOf] at hr
    | unsafePointer addr => simp [sizeOf] at hr
    | scalar t bits =>
      rw [sizeOf] at hr
      split at hr <;>
        first
        | (simp only [Option.some.injEq, Except.ok.injEq, Prod.mk.injEq] at hr
           rw [← hr.2]
           exact ha)
        | simp at hr
    | array elem elems =>
      rw [sizeOf] at hr
      cases hs : sumSizes (sizeOf h fuel) elems 0 cache with
      | none => simp [hs] at hr
      | some r =>
        cases r with
        | error e => simp [hs] at hr
        | ok p =>
          obtain ⟨sum, c2⟩ := p
          simp only [hs, Option.some.injEq, Except.ok.injEq, Prod.mk.injEq] at hr
          rw [← hr.2]
          exact hlist _ _ _ _ _ hs a ha
    | struct fields =>
      rw [sizeOf_struct] at hr
      cases hs : sumSizes (sizeOf h fuel) fields 0 cache with
      | none => simp [hs] at hr
      | some r =>
        cases r with
        | error e => simp [hs] at hr
        | ok p =>
          obtain ⟨sum, c2⟩ := p
          simp only [hs, Option.some.injEq, Except.ok.injEq, Prod.mk.injEq] at hr
          rw [← hr.2]
          exact hlist _ _ _ _ _ hs a ha
    | slice elemSize ptr len cap =>
      rw [sizeOf] at hr
      by_cases hc : cache.contains ptr = true
      · simp only [hc, if_true, Option.some.injEq, Except.ok.injEq, Prod.mk.injEq] at hr
        rw [← hr.2]
        exact ha
      · simp only [hc, if_false, Bool.false_eq_true] at hr
        cases hs : sumSizes (sizeOf h fuel) ((h.backing ptr).take len) 0 (ptr :: cache) with
        | none => simp [hs] at hr
        | some r =>
          cases r with
          | error e => simp [hs] at hr
          | ok p =>
            obtain ⟨sum, c2⟩ := p
            simp only [hs, Option.some.injEq, Except.ok.injEq, Prod.mk.injEq] at hr
            rw [← hr.2]
            exact hlist _ _ _ _ _ hs a (List.mem_cons_of_mem _ ha)
    | string str =>
      rw [sizeOf] at hr
      by_cases hc : cache.contains str.data = true
      · simp only [hc, if_true, Option.some.injEq, Except.ok.injEq, Prod.mk.injEq] at hr
        rw [← hr.2]
        exact ha
      · simp only [hc, if_false, Bool.false_eq_true, Option.some.injEq, Except.ok.injEq, Prod.mk.injEq] at hr
        rw [← hr.2]
        exact List.mem_cons_of_mem _ ha
    | ptr addr =>
      rw [sizeOf] at hr
      by_cases hc : cache.contains addr = true
      · simp only [hc, if_true, Option.some.injEq, Except.ok.injEq, Prod.mk.injEq] at hr
        rw [← hr.2]
        exact ha
      · simp only [hc, if_false, Bool.false_eq_true] at hr
        by_cases h0 : addr = 0
        · simp only [h0, if_true, Option.some.injEq, Except.ok.injEq, Prod.mk.injEq] at hr
          rw [← hr.2]
          exact List.mem_cons_of_mem _ ha
        · simp only [h0, if_false, Indirect] at hr
          cases hs : sizeOf h fuel (h.target addr) (addr :: cache) with
          | none => simp [hs] at hr
          | some r =>
            cases r with
            | error e => simp [hs] at hr
            | ok p =>
              obtain ⟨s2, c2⟩ := p
              simp only [hs, Option.some.injEq, Except.ok.injEq, Prod.mk.injEq] at hr
              rw [← hr.2]
              exact ih _ _ _ _ hs a (List.mem_cons_of_mem _ ha)
    | map addr =>
      rw [sizeOf] at hr
      by_cases hc : cache.contains addr = true
      · simp only [hc, if_true, Option.some.injEq, Except.ok.injEq, Prod.mk.injEq] at hr
        rw [← hr.2]
        exact ha
      · simp only [hc, if_false, Bool.false_eq_true] at hr
        cases hs : sumEntries (sizeOf h fuel) (h.MapIndex addr) (h.MapKeys addr) 0
            (addr :: cache) with
        | none => simp [hs] at hr
        | some r =>
          cases r with
          | error e => simp [hs] at hr
          | ok p =>
            obtain ⟨sum, c2⟩ := p
            simp only [hs, Option.some.injEq, Except.ok.injEq, Prod.mk.injEq] at hr
            rw [← hr.2]
            exact sumEntries_cache_mono _ _ ih _ _ _ _ _ hs a (List.mem_cons_of_mem _ ha)
    | iface elem =>
      rw [sizeOf] at hr
      cases hs : sizeOf h fuel elem cache with
      | none => simp [hs] at hr
      | some r =>
        cases r with
        | error e => simp [hs] at hr
        | ok p =>
          obtain ⟨s2, c2⟩ := p
          simp only [hs, Option.some.injEq, Except.ok.injEq, Prod.mk.injEq] at hr
          rw [← hr.2]
          exact ih _ _ _ _ hs a ha

theorem sumSizes_total (f : Value → Visited → Sized) (Q : Visited → Prop)
    (hQ : ∀ c c1, (∀ a, a ∈ c → a ∈ c1) → Q c → Q c1)
    (hmono : ∀ x c s c1, f x c = some (.ok (s, c1)) → ∀ a, a ∈ c → a ∈ c1) :
    ∀ (l : List Value), (∀ x, x ∈ l → ∀ c, Q c → ∃ r, f x c = some r) →
      ∀ sum cache, Q cache → ∃ r, sumSizes f l sum cache = some r := by
  intro l
  induction l with
  | nil => intro _ sum cache _; exact ⟨_, rfl⟩
  | cons x xs ih =>
    intro hf sum cache hq
    obtain ⟨r, hr⟩ := hf x (List.mem_cons_self _ _) cache hq
    rw [sumSizes, hr]
    cases r with
    | error e => exact ⟨_, rfl⟩
    | ok p =>
      obtain ⟨s, c1⟩ := p
      exact ih (fun y hy => hf y (List.mem_cons_of_mem _ hy)) _ c1
        (hQ cache c1 (hmono x cache s c1 hr) hq)

theorem sumEntries_total (f : Value → Visited → Sized) (index : Value → Value)
    (Q : Visited → Prop)
    (hQ : ∀ c c1, (∀ a, a ∈ c → a ∈ c1) → Q c → Q c1)
    (hmono : ∀ x c s c1, f x c = some (.ok (s, c1)) → ∀ a, a ∈ c → a ∈ c1) :
    ∀ (keys : List Value),
      (∀ k, k ∈ keys → ∀ c, Q c → (∃ r, f k c = some r) ∧ (∃ r, f (index k) c = some r)) →
      ∀ sum cache, Q cache → ∃ r, sumEntries f index keys sum cache = some r := by
  intro keys
  induction keys with
  | nil => intro _ sum cache _; exact ⟨_, rfl⟩
  | cons key keys ih =>
    intro hf sum cache hq
    obtain ⟨r, hr⟩ := (hf key (List.mem_cons_self _ _) cache hq).2
    rw [sumEntries, hr]
    cases r with
    | error e => exact ⟨_, rfl⟩
    | ok p =>
      obtain ⟨s1, c1⟩ := p
      have hq1 := hQ cache c1 (hmono _ cache s1 c1 hr) hq
      obtain ⟨r2, hr2⟩ := (hf key (List.mem_cons_self _ _) c1 hq1).1
      simp only
      rw [hr2]
      cases r2 with
      | error e => exact ⟨_, rfl⟩
      | ok q =>
        obtain ⟨s2, c2⟩ := q
        exact ih (fun y hy => hf y (List.mem_cons_of_mem _ hy)) _ c2
          (hQ c1 c2 (hmono key c1 s2 c2 hr2) hq1)

/-- With a depth budget of `enoughFuel` the walk over a finite value graph comes to an end. -/
theorem sizeOf_total (h : Heap) (addrs : List Nat) (hs : h.SupportedBy addrs) :
    ∀ (fuel : Nat) (v : Value) (cache : Visited), enoughFuel h addrs v cache ≤ fuel →
      ∃ r, sizeOf h fuel v cache = some r := by
  intro fuel
  induction fuel with
  | zero => intro v cache hf; unfold enoughFuel at hf; omega
  | succ fuel ih =>
    intro v cache hf
    unfold enoughFuel at hf ih
    have hQ : ∀ (m : Nat) (c c1 : Visited), (∀ a, a ∈ c → a ∈ c1) →
        unvisited addrs c ≤ m → unvisited addrs c1 ≤ m :=
      fun m c c1 hc hq => Nat.le_trans (unvisited_mono addrs c c1 hc) hq
    have hmono := sizeOf_cache_mono h fuel
    -- values of depth `d` sized from a visited set that leaves at most `m` addresses
    have hchild : ∀ (d m : Nat), d + m * (h.depthOn addrs + 1) + 1 ≤ fuel →
        ∀ x : Value, x.depth ≤ d → ∀ c, unvisited addrs c ≤ m →
          ∃ r, sizeOf h fuel x c = some r := by
      intro d m hdm x hx c hc
      apply ih
      have := Nat.mul_le_mul_right (h.depthOn addrs + 1) hc
      omega
    have hlist : ∀ (d m : Nat), d + m * (h.depthOn addrs + 1) + 1 ≤ fuel →
        ∀ l : List Value, (∀ x, x ∈ l → x.depth ≤ d) → ∀ sum c, unvisited addrs c ≤ m →
          ∃ r, sumSizes (sizeOf h fuel) l sum c = some r :=
      fun d m hdm l hl sum c hc =>
        sumSizes_total _ (fun c => unvisited addrs c ≤ m) (hQ m) hmono l
          (fun x hx c1 hc1 => hchild d m hdm x (hl x hx) c1 hc1) sum c hc
    -- what is stored behind an address not visited yet
    have hbehind : ∀ addr, cache.contains addr = false → 1 ≤ v.depth →
        ∃ m, unvisited addrs (addr :: cache) ≤ m ∧
          (addr ∈ addrs → h.depthOn addrs + m * (h.depthOn addrs + 1) + 1 ≤ fuel) ∧
          (m * (h.depthOn addrs + 1) + 1 ≤ fuel) := by
      intro addr hc hd
      refine ⟨unvisited addrs (addr :: cache), Nat.le_refl _, ?_, ?_⟩
      · intro hmem
        have hlt := unvisited_cons_lt addrs cache addr hmem hc
        have := Nat.mul_le_mul_right (h.depthOn addrs + 1) (Nat.succ_le_of_lt hlt)
        rw [Nat.succ_mul] at this
        omega
      · have hle := unvisited_mono addrs cache (addr :: cache)
          (fun b hb => List.mem_cons_of_mem _ hb)
        have := Nat.mul_le_mul_right (h.depthOn addrs + 1) hle
        omega
    cases v with
    | invalid => exact ⟨_, rfl⟩
    | unsafePointer addr => exact ⟨_, rfl⟩
    | scalar t bits =>
      rw [sizeOf]
      split <;> exact ⟨_, rfl⟩
    | string str =>
      rw [sizeOf]
      split <;> exact ⟨_, rfl⟩
    | array elem elems =>
      rw [Value.depth] at hf
      obtain ⟨r, hr⟩ := hlist (Value.depthList elems) (unvisited addrs cache) (by omega) elems
        (depthList_mem elems) 0 cache (Nat.le_refl _)
      rw [sizeOf, hr]
      cases r with
      | error e => exact ⟨_, rfl⟩
      | ok p => exact ⟨_, rfl⟩
    | struct fields =>
      rw [Value.depth] at hf
      obtain ⟨r, hr⟩ := hlist (Value.depthList fields) (unvisited addrs cache) (by omega) fields
        (depthList_mem fields) 0 cache (Nat.le_refl _)
      rw [sizeOf_struct, hr]
      cases r with
      | error e => exact ⟨_, rfl⟩
      | ok p => exact ⟨_, rfl⟩
    | iface elem =>
      rw [Value.depth] at hf
      obtain ⟨r, hr⟩ := hchild elem.depth (unvisited addrs cache) (by omega) elem
        (Nat.le_refl _) cache (Nat.le_refl _)
      rw [sizeOf, hr]
      cases r with
      | error e => exact ⟨_, rfl⟩
      | ok p => exact ⟨_, rfl⟩
    | ptr addr =>
      rw [sizeOf]
      by_cases hc : cache.contains addr = true
      · simp only [hc, if_true]
        exact ⟨_, rfl⟩
      · simp only [hc, if_false, Bool.false_eq_true]
        by_cases h0 : addr = 0
        · simp only [h0, if_true]
          exact ⟨_, rfl⟩
        · simp only [h0, if_false, Indirect]
          obtain ⟨m, hm, hin, hout⟩ := hbehind addr (by simpa using hc) (by simp [Value.depth])
          have hr : ∃ r, sizeOf h fuel (h.target addr) (addr :: cache) = some r := by
            by_cases hmem : addr ∈ addrs
            · exact hchild (h.depthOn addrs) m (hin hmem) _
                (heap_depth_le h addrs hs addr).1 _ hm
            · rw [(hs addr hmem).1]
              exact hchild 0 m (by omega) _ (by simp [Value.depth]) _ hm
          obtain ⟨r, hr⟩ := hr
          rw [hr]
          cases r with
          | error e => exact ⟨_, rfl⟩
          | ok p => exact ⟨_, rfl⟩
    | slice elemSize ptr len cap =>
      rw [sizeOf]
      by_cases hc : cache.contains ptr = true
      · simp only [hc, if_true]
        exact ⟨_, rfl⟩
      · simp only [hc, if_false, Bool.false_eq_true]
        obtain ⟨m, hm, hin, hout⟩ := hbehind ptr (by simpa using hc) (by simp [Value.depth])
        have hr : ∃ r, sumSizes (sizeOf h fuel) ((h.backing ptr).take len) 0 (ptr :: cache)
            = some r := by
          by_cases hmem : ptr ∈ addrs
          · exact hlist (h.depthOn addrs) m (hin hmem) _
              (fun x hx => (heap_depth_le h addrs hs ptr).2.1 x (List.mem_of_mem_take hx)) _ _ hm
          · rw [(hs ptr hmem).2.1, List.take_nil]
            exact ⟨_, rfl⟩
        obtain ⟨r, hr⟩ := hr
        rw [hr]
        cases r with
        | error e => exact ⟨_, rfl⟩
        | ok p => exact ⟨_, rfl⟩
    | map addr =>
      rw [sizeOf]
      by_cases hc : cache.contains addr = true
      · simp only [hc, if_true]
        exact ⟨_, rfl⟩
      · simp only [hc, if_false, Bool.false_eq_true]
        obtain ⟨m, hm, hin, hout⟩ := hbehind addr (by simpa using hc) (by simp [Value.depth])
        have hr : ∃ r, sumEntries (sizeOf h fuel) (h.MapIndex addr) (h.MapKeys addr) 0
            (addr :: cache) = some r := by
          by_cases hmem : addr ∈ addrs
          · have hent : ∀ e, e ∈ mapEntries h addr →
                e.1.depth ≤ h.depthOn addrs ∧ e.2.depth ≤ h.depthOn addrs := by
              intro e he
              unfold mapEntries at he
              by_cases h0 : addr = 0
              · simp [h0] at he
              · simp only [h0, if_false] at he
                exact (heap_depth_le h addrs hs addr).2.2 e he
            have hidx : ∀ key, (h.MapIndex addr key).depth ≤ h.depthOn addrs := by
              intro key
              rcases MapIndex_cases h addr key with h1 | ⟨e, he, h1⟩
              · rw [h1]; simp [Value.depth]
              · rw [h1]; exact (hent e he).2
            exact sumEntries_total _ _ (fun c => unvisited addrs c ≤ m) (hQ m) hmono _
              (fun k hk c1 hc1 => by
                obtain ⟨e, he, rfl⟩ := List.mem_map.mp hk
                exact ⟨hchild (h.depthOn addrs) m (hin hmem) e.1 (hent e he).1 c1 hc1,
                  hchild (h.depthOn addrs) m (hin hmem) _ (hidx e.1) c1 hc1⟩)
              _ _ hm
          · have : h.MapKeys addr = [] := by
              unfold Heap.MapKeys mapEntries
              rw [(hs addr hmem).2.2]
              simp
            rw [this]
            exact ⟨_, rfl⟩
        obtain ⟨r, hr⟩ := hr
        rw [hr]
        cases r with
        | error e => exact ⟨_, rfl⟩
        | ok p => exact ⟨_, rfl⟩

theorem sumSizes_congr_some (f g : Value → Visited → Sized)
    (hfg : ∀ x c r, f x c = some r → g x c = some r) :
    ∀ (l : List Value) sum cache r, sumSizes f l sum cache = some r →
      sumSizes g l sum cache = some r := by
  intro l
  induction l with
  | nil => intro sum cache r hr; exact hr
  | cons x xs ih =>
    intro sum cache r hr
    rw [sumSizes] at hr ⊢
    cases hx : f x cache with
    | none => simp [hx] at hr
    | some rx =>
      rw [hfg x cache rx hx]
      rw [hx] at hr
      cases rx with
      | error e => exact hr
      | ok p => exact ih _ _ r hr

theorem sumEntries_congr_some (f g : Value → Visited → Sized) (index : Value → Value)
    (hfg : ∀ x c r, f x c = some r → g x c = some r) :
    ∀ (keys : List Value) sum cache r, sumEntries f index keys sum cache = some r →
      sumEntries g index keys sum cache = some r := by
  intro keys
  induction keys with
  | nil => intro sum cache r hr; exact hr
  | cons key keys ih =>
    intro sum cache r hr
    rw [sumEntries] at hr ⊢
    cases hv : f (index key) cache with
    | none => simp [hv] at hr
    | some rv =>
      rw [hfg _ cache rv hv]
      rw [hv] at hr
      cases rv with
      | error e => exact hr
      | ok p =>
        obtain ⟨s1, c1⟩ := p
        simp only at hr ⊢
        cases hk : f key c1 with
        | none => simp [hk] at hr
        | some rk =>
          rw [hfg key c1 rk hk]
          rw [hk] at hr
          cases rk with
          | error e => exact hr
          | ok q => exact ih _ _ r hr

/-- A result of the walk stays the same when the depth budget grows. -/
theorem sizeOf_fuel_succ (h : Heap) :
    ∀ (fuel : Nat) (v : Value) (cache : Visited) (r : Except String (Nat × Visited)),
      sizeOf h fuel v cache = some r → sizeOf h (fuel + 1) v cache = some r := by
  intro fuel
  induction fuel with
  | zero => intro v cache r hr; simp [sizeOf] at hr
  | succ fuel ih =>
    intro v cache r hr
    have hlist := sumSizes_congr_some (sizeOf h fuel) (sizeOf h (fuel + 1)) ih
    have hent := fun index =>
      sumEntries_congr_some (sizeOf h fuel) (sizeOf h (fuel + 1)) index ih
    cases v with
    | invalid => exact hr
    | unsafePointer addr => exact hr
    | scalar t bits =>
      rw [sizeOf] at hr ⊢
      exact hr
    | string str =>
      rw [sizeOf] at hr ⊢
      exact hr
    | array elem elems =>
      rw [sizeOf] at hr ⊢
      cases hs : sumSizes (sizeOf h fuel) elems 0 cache with
      | none => simp [hs] at hr
      | some rs =>
        rw [hlist _ _ _ _ hs]
        rw [hs] at hr
        exact hr
    | struct fields =>
      rw [sizeOf_struct] at hr ⊢
      cases hs : sumSizes (sizeOf h fuel) fields 0 cache with
      | none => simp [hs] at hr
      | some rs =>
        rw [hlist _ _ _ _ hs]
        rw [hs] at hr
        exact hr
    | iface elem =>
      rw [sizeOf] at hr ⊢
      cases hs : sizeOf h fuel elem cache with
      | none => simp [hs] at hr
      | some rs =>
        rw [ih _ _ _ hs]
        rw [hs] at hr
        exact hr
    | ptr addr =>
      rw [sizeOf] at hr ⊢
      by_cases hc : cache.contains addr = true
      · simp only [hc, if_true] at hr ⊢
        exact hr
      · simp only [hc, if_false, Bool.false_eq_true] at hr ⊢
        by_cases h0 : addr = 0
        · simp only [h0, if_true] at hr ⊢
          exact hr
        · simp only [h0, if_false] at hr ⊢
          cases hs : sizeOf h fuel (Indirect h (.ptr addr)) (addr :: cache) with
          | none => simp [hs] at hr
          | some rs =>
            rw [ih _ _ _ hs]
            rw [hs] at hr
            exact hr
    | slice elemSize ptr len cap =>
      rw [sizeOf] at hr ⊢
      by_cases hc : cache.contains ptr = true
      · simp only [hc, if_true] at hr ⊢
        exact hr
      · simp only [hc, if_false, Bool.false_eq_true] at hr ⊢
        cases hs : sumSizes (sizeOf h fuel) ((h.backing ptr).take len) 0 (ptr :: cache) with
        | none => simp [hs] at hr
        | some rs =>
          rw [hlist _ _ _ _ hs]
          rw [hs] at hr
          exact hr
    | map addr =>
      rw [sizeOf] at hr ⊢
      by_cases hc : cache.contains addr = true
      · simp only [hc, if_true] at hr ⊢
        exact hr
      · simp only [hc, if_false, Bool.false_eq_true] at hr ⊢
        cases hs : sumEntries (sizeOf h fuel) (h.MapIndex addr) (h.MapKeys addr) 0
            (addr :: cache) with
        | none => simp [hs] at hr
        | some rs =>
          rw [hent _ _ _ _ _ hs]
          rw [hs] at hr
          exact hr

theorem sizeOf_fuel_le (h : Heap) (v : Value) (cache : Visited)
    (r : Except String (Nat × Visited)) (fuel : Nat)
    (hr : sizeOf h fuel v cache = some r) :
    ∀ fuel1, fuel ≤ fuel1 → sizeOf h fuel1 v cache = some r := by
  intro fuel1 hle
  induction hle with
  | refl => exact hr
  | step _ ih => exact sizeOf_fuel_succ h _ v cache r ih

theorem cyclicHeap_supported : cyclicHeap.SupportedBy [100, 200, 300] := by
  intro a ha
  simp only [List.mem_cons, List.mem_singleton, not_or, List.not_mem_nil, or_false] at ha
  simp [cyclicHeap, ha.1, ha.2.1, ha.2.2]

/-- C11. Cycle safety. On a finite value graph (a heap with objects at finitely many addresses,
cycles allowed) `calcSize` comes to an end: from the depth budget `enoughFuel` on it returns
one and the same result, whatever the budget. The mechanism: a pointer, slice or map whose
address is in the visited set is answered at once with the visited set unchanged, and the
visited set a pointer, slice or map leaves behind holds its address. -/
theorem calcSize_terminates (h : Heap) (addrs : List Nat) (a : Arg)
    (hs : h.SupportedBy addrs) :
    (∃ r, ∀ fuel, enoughFuel h addrs (indirectValueOf h a) [] ≤ fuel →
      calcSize fuel h a = some r) ∧
    (∀ fuel cache addr, cache.contains addr = true →
      sizeOf h (fuel + 1) (.ptr addr) cache = some (.ok (8, cache)) ∧
      (∀ elemSize len cap,
        sizeOf h (fuel + 1) (.slice elemSize addr len cap) cache = some (.ok (0, cache))) ∧
      sizeOf h (fuel + 1) (.map addr) cache = some (.ok (0, cache))) ∧
    (∀ fuel cache addr s c1,
      (sizeOf h fuel (.ptr addr) cache = some (.ok (s, c1)) → addr ∈ c1) ∧
      (∀ elemSize len cap,
        sizeOf h fuel (.slice elemSize addr len cap) cache = some (.ok (s, c1)) → addr ∈ c1) ∧
      (sizeOf h fuel (.map addr) cache = some (.ok (s, c1)) → addr ∈ c1)) := by
  refine ⟨?_, ?_, ?_⟩
  · obtain ⟨r, hr⟩ := sizeOf_total h addrs hs _ (indirectValueOf h a) [] (Nat.le_refl _)
    have hall := sizeOf_fuel_le h _ _ r _ hr
    cases r with
    | error e =>
      exact ⟨.error e, fun fuel hle => by unfold calcSize; rw [hall fuel hle]⟩
    | ok p =>
      exact ⟨.ok p.1, fun fuel hle => by unfold calcSize; rw [hall fuel hle]⟩
  · intro fuel cache addr hc
    refine ⟨?_, ?_, ?_⟩
    · rw [sizeOf]
      simp only [hc, if_true]
      rfl
    · intro elemSize len cap
      rw [sizeOf]
      simp only [hc, if_true]
    · rw [sizeOf]
      simp only [hc, if_true]
  · intro fuel cache addr s c1
    have key : ∀ v : Value, (cache.contains addr = true →
          sizeOf h fuel v cache = some (.ok (s, c1)) → c1 = cache) →
        (cache.contains addr = false → sizeOf h fuel v cache = some (.ok (s, c1)) →
          ∀ b, b ∈ addr :: cache → b ∈ c1) →
        sizeOf h fuel v cache = some (.ok (s, c1)) → addr ∈ c1 := by
      intro v h1 h2 hr
      by_cases hc : cache.contains addr = true
      · rw [h1 hc hr]
        simpa using hc
      · exact h2 (by simpa using hc) hr addr (List.mem_cons_self _ _)
    cases fuel with
    | zero =>
      exact ⟨fun hr => by simp [sizeOf] at hr, fun _ _ _ hr => by simp [sizeOf] at hr,
        fun hr => by simp [sizeOf] at hr⟩
    | succ fuel =>
      refine ⟨key _ ?_ ?_, fun elemSize len cap => key _ ?_ ?_, key _ ?_ ?_⟩
      · intro hc hr
        rw [sizeOf] at hr
        simp only [hc, if_true, Option.some.injEq, Except.ok.injEq, Prod.mk.injEq] at hr
        exact hr.2.symm
      · intro hc hr b hb
        rw [sizeOf] at hr
        simp only [hc, if_false, Bool.false_eq_true] at hr
        by_cases h0 : addr = 0
        · simp only [h0, if_true, Option.some.injEq, Except.ok.injEq, Prod.mk.injEq] at hr
          rw [← hr.2, ← h0]
          exact hb
        · simp only [h0, if_false] at hr
          cases hsz : sizeOf h fuel (Indirect h (.ptr addr)) (addr :: cache) with
          | none => simp [hsz] at hr
          | some r =>
            cases r with
            | error e => simp [hsz] at hr
            | ok p =>
              obtain ⟨s2, c2⟩ := p
              simp only [hsz, Option.some.injEq, Except.ok.injEq, Prod.mk.injEq] at hr
              rw [← hr.2]
              exact sizeOf_cache_mono h _ _ _ _ _ hsz b hb
      · intro hc hr
        rw [sizeOf] at hr
        simp only [hc, if_true, Option.some.injEq, Except.ok.injEq, Prod.mk.injEq] at hr
        exact hr.2.symm
      · intro hc hr b hb
        rw [sizeOf] at hr
        simp only [hc, if_false, Bool.false_eq_true] at hr
        cases hsz : sumSizes (sizeOf h fuel) ((h.backing addr).take len) 0 (addr :: cache) with
        | none => simp [hsz] at hr
        | some r =>
          cases r with
          | error e => simp [hsz] at hr
          | ok p =>
            obtain ⟨s2, c2⟩ := p
            simp only [hsz, Option.some.injEq, Except.ok.injEq, Prod.mk.injEq] at hr
            rw [← hr.2]
            exact sumSizes_cache_mono _ _ (fun x _ => sizeOf_cache_mono h fuel x) _ _ _ _ hsz b hb
      · intro hc hr
        rw [sizeOf] at hr
        simp only [hc, if_true, Option.some.injEq, Except.ok.injEq, Prod.mk.injEq] at hr
        exact hr.2.symm
      · intro hc hr b hb
        rw [sizeOf] at hr
        simp only [hc, if_false, Bool.false_eq_true] at hr
        cases hsz : sumEntries (sizeOf h fuel) (h.MapIndex addr) (h.MapKeys addr) 0
            (addr :: cache) with
        | none => simp [hsz] at hr
        | some r =>
          cases r with
          | error e => simp [hsz] at hr
          | ok p =>
            obtain ⟨s2, c2⟩ := p
            simp only [hsz, Option.some.injEq, Except.ok.injEq, Prod.mk.injEq] at hr
            rw [← hr.2]
            exact sumEntries_cache_mono _ _ (sizeOf_cache_mono h fuel) _ _ _ _ _ hsz b hb

theorem calcSize_terminates_witness :
    cyclicHeap.SupportedBy [100, 200, 300] ∧
    enoughFuel cyclicHeap [100, 200, 300] (indirectValueOf cyclicHeap (.val (.ptr 100))) [] = 12 ∧
    calcSize 5 cyclicHeap (.val (.ptr 100)) = none ∧
    ∀ fuel, 12 ≤ fuel → calcSize fuel cyclicHeap (.val (.ptr 100)) = some (.ok 98) :=
  ⟨cyclicHeap_supported, by rfl, by rfl, by
    obtain ⟨r, hr⟩ :=
      (calcSize_terminates cyclicHeap [100, 200, 300] (.val (.ptr 100)) cyclicHeap_supported).1
    have hb : enoughFuel cyclicHeap [100, 200, 300]
        (indirectValueOf cyclicHeap (.val (.ptr 100))) [] = 12 := by rfl
    rw [hb] at hr
    intro fuel hle
    have h12 : calcSize 12 cyclicHeap (.val (.ptr 100)) = some (.ok 98) := by rfl
    rw [hr fuel hle, ← hr 12 (Nat.le_refl _), h12]⟩

end GoCache
